import Mathlib

/-!
# maze.c — a maze generator and solver

A shallow embedding of `src/maze.c` and a verification of its generation and
solving walks.

Modelling conventions.

* `int **maze` is a list of rows, `maze[y][x]` is read with `rd maze y x` and
  written with `wr maze y x v`; an access outside the allocated rows yields
  `none`, which the callers turn into `Fault.outOfBounds`.
* `struct stack *` is a list of coordinate pairs, `NULL` is `[]`; reading a
  field through `NULL` is `Fault.nullDeref`.
* `rand()` is a list of draws that the run consumes from the front; a run that
  asks for a draw when none is left stops with `Fault.noDraws`. The `while (1)`
  loops run for at most `draws.length + 1` rounds; every round consumes a draw,
  so this bound never cuts a run short (`generate_loop_fuel`, `solve_loop_fuel`).
* `malloc` is a list of outcomes (`false` is `NULL`) consumed from the front;
  once the list is used up every allocation succeeds.
* C `int` values are `Int`: every coordinate computed by the walks stays within
  `-1 .. max w h`, so no machine overflow can occur there. The one subtraction
  applied to an arbitrary `int`, `tmp - 1` in `parse_args`, is a signed
  overflow at the least `int`; the run stops there with `Fault.overflow`.
* `atoi` of the C library is external: each element of `argv` comes with the
  `int` that `atoi` converts it to.
-/

namespace MazeC

/-! ## Cell states and directions (`#define`s of maze.c) -/

abbrev UVISIT : Int := 0
abbrev VISIT : Int := 1
abbrev WALL : Int := 2
abbrev PATH : Int := 3
abbrev UPATH : Int := 4

abbrev UP : Nat := 0
abbrev DOWN : Nat := 1
abbrev LEFT : Nat := 2
abbrev RIGHT : Nat := 3

/-- Ways in which a run leaves the defined behaviour of the C program, or the
supplied randomness. -/
inductive Fault where
  | nullDeref
  | outOfBounds
  | noDraws
  | overflow
  deriving DecidableEq, Repr

/-- The cells, `maze[y][x]`. -/
abbrev Maze := List (List Int)

/-- The backtracking stack; the head is the top item, `[]` is `NULL`. -/
abbrev Stack := List (Int × Int)

/-- Read `maze[y][x]`. -/
def rd (maze : Maze) (y x : Int) : Option Int :=
  if 0 ≤ y ∧ 0 ≤ x then
    match maze[y.toNat]? with
    | none => none
    | some row => row[x.toNat]?
  else none

/-- Write `maze[y][x] = v`. -/
def wr (maze : Maze) (y x : Int) (v : Int) : Option Maze :=
  if 0 ≤ y ∧ 0 ≤ x then
    match maze[y.toNat]? with
    | none => none
    | some row =>
      if x.toNat < row.length then some (maze.set y.toNat (row.set x.toNat v)) else none
  else none

/-! ## The stack -/

/-- `push`: `node` tells whether `malloc` returned a node. Returns the C return
value and the new top. -/
def push (top : Stack) (x y : Int) (node : Bool) : Int × Stack :=
  if node = false then (0, top) else (1, (x, y) :: top)

/-- `pop`. -/
def pop (top : Stack) : Stack :=
  match top with
  | [] => []
  | _ :: next => next

/-- `free_stack`: `while (*top) pop(top)`; each round replaces `t :: next` by
`pop (t :: next) = next`. -/
def free_stack : Stack → Stack
  | [] => []
  | _ :: next => free_stack next

/-! ## `init` -/

/-- The inner loop of `init` for row `y`. -/
def init_row (w : Int) (y : Int) : List Int :=
  (List.range w.toNat).map fun (x : Nat) =>
    if y % 2 = 0 ∨ (x : Int) % 2 = 0 then WALL else UVISIT

/-- The outer loop of `init`: `n` rows remain, starting at row `y`. -/
def init_rows (w : Int) : Nat → Int → List Bool → Option Maze
  | 0, _, _ => some []
  | n + 1, y, mallocs =>
    if mallocs.headD true then
      (init_rows w n (y + 1) mallocs.tail).map (fun rows => init_row w y :: rows)
    else none

/-- `init`; `none` is the `NULL` returned on allocation error. -/
def init (w h : Int) (mallocs : List Bool) : Option Maze :=
  if mallocs.headD true then init_rows w h.toNat 0 mallocs.tail else none

/-! ## Neighbour selection -/

/-- What `rand_neighbour` leaves behind: return value, cells, `*x`, `*y` and the
draws not yet consumed. -/
structure Moved where
  ret : Int
  maze : Maze
  x : Int
  y : Int
  draws : List Nat
  deriving DecidableEq, Repr

/-- The `while (up || down || left || right)` loop of `rand_neighbour`. -/
def rand_neighbour_loop (maze : Maze) (x y w h : Int) :
    List Nat → Bool → Bool → Bool → Bool → Except Fault Moved
  | [], up, down, left, right =>
    if up || down || left || right then .error .noDraws else .ok ⟨0, maze, x, y, []⟩
  | r :: draws, up, down, left, right =>
    if up || down || left || right then
      match r % 4 with
      | 0 =>
        if y - 2 ≤ 0 then rand_neighbour_loop maze x y w h draws false down left right
        else match rd maze (y - 2) x with
          | none => .error .outOfBounds
          | some c =>
            if c ≠ UVISIT then rand_neighbour_loop maze x y w h draws false down left right
            else match wr maze (y - 1) x VISIT with
              | none => .error .outOfBounds
              | some maze' => .ok ⟨1, maze', x, y - 2, draws⟩
      | 1 =>
        if y + 2 ≥ h then rand_neighbour_loop maze x y w h draws up false left right
        else match rd maze (y + 2) x with
          | none => .error .outOfBounds
          | some c =>
            if c ≠ UVISIT then rand_neighbour_loop maze x y w h draws up false left right
            else match wr maze (y + 1) x VISIT with
              | none => .error .outOfBounds
              | some maze' => .ok ⟨1, maze', x, y + 2, draws⟩
      | 2 =>
        if x - 2 ≤ 0 then rand_neighbour_loop maze x y w h draws up down false right
        else match rd maze y (x - 2) with
          | none => .error .outOfBounds
          | some c =>
            if c ≠ UVISIT then rand_neighbour_loop maze x y w h draws up down false right
            else match wr maze y (x - 1) VISIT with
              | none => .error .outOfBounds
              | some maze' => .ok ⟨1, maze', x - 2, y, draws⟩
      | 3 =>
        if x + 2 ≥ w then rand_neighbour_loop maze x y w h draws up down left false
        else match rd maze y (x + 2) with
          | none => .error .outOfBounds
          | some c =>
            if c ≠ UVISIT then rand_neighbour_loop maze x y w h draws up down left false
            else match wr maze y (x + 1) VISIT with
              | none => .error .outOfBounds
              | some maze' => .ok ⟨1, maze', x + 2, y, draws⟩
      | _ => rand_neighbour_loop maze x y w h draws up down left right
    else .ok ⟨0, maze, x, y, r :: draws⟩

/-- `rand_neighbour`. -/
def rand_neighbour (maze : Maze) (x y w h : Int) (draws : List Nat) : Except Fault Moved :=
  rand_neighbour_loop maze x y w h draws true true true true

/-- The `while (up || down || left || right)` loop of `solve_rand_neighbour`;
the cells are only read. -/
def solve_rand_neighbour_loop (maze : Maze) (x y w h : Int) :
    List Nat → Bool → Bool → Bool → Bool → Except Fault Moved
  | [], up, down, left, right =>
    if up || down || left || right then .error .noDraws else .ok ⟨0, maze, x, y, []⟩
  | r :: draws, up, down, left, right =>
    if up || down || left || right then
      match r % 4 with
      | 0 =>
        if y - 1 ≤ 0 then solve_rand_neighbour_loop maze x y w h draws false down left right
        else match rd maze (y - 1) x with
          | none => .error .outOfBounds
          | some c =>
            if c ≠ VISIT then solve_rand_neighbour_loop maze x y w h draws false down left right
            else .ok ⟨1, maze, x, y - 1, draws⟩
      | 1 =>
        if y + 1 ≥ h - 1 then solve_rand_neighbour_loop maze x y w h draws up false left right
        else match rd maze (y + 1) x with
          | none => .error .outOfBounds
          | some c =>
            if c ≠ VISIT then solve_rand_neighbour_loop maze x y w h draws up false left right
            else .ok ⟨1, maze, x, y + 1, draws⟩
      | 2 =>
        if x - 1 ≤ 0 then solve_rand_neighbour_loop maze x y w h draws up down false right
        else match rd maze y (x - 1) with
          | none => .error .outOfBounds
          | some c =>
            if c ≠ VISIT then solve_rand_neighbour_loop maze x y w h draws up down false right
            else .ok ⟨1, maze, x - 1, y, draws⟩
      | 3 =>
        if x + 1 ≥ w - 1 then solve_rand_neighbour_loop maze x y w h draws up down left false
        else match rd maze y (x + 1) with
          | none => .error .outOfBounds
          | some c =>
            if c ≠ VISIT then solve_rand_neighbour_loop maze x y w h draws up down left false
            else .ok ⟨1, maze, x + 1, y, draws⟩
      | _ => solve_rand_neighbour_loop maze x y w h draws up down left right
    else .ok ⟨0, maze, x, y, r :: draws⟩

/-- `solve_rand_neighbour`. -/
def solve_rand_neighbour (maze : Maze) (x y w h : Int) (draws : List Nat) :
    Except Fault Moved :=
  solve_rand_neighbour_loop maze x y w h draws true true true true

/-! ## The walks -/

/-- The variables of a walk at the head of its `while (1)` loop, with the
randomness and allocator outcomes still to come. -/
structure Walk where
  maze : Maze
  x : Int
  y : Int
  st : Stack
  draws : List Nat
  mallocs : List Bool
  deriving DecidableEq, Repr

/-- How one round of a `while (1)` loop ends. -/
inductive Round where
  | next (s : Walk)
  | brk (s : Walk)
  | ret (r : Int) (maze : Maze)
  deriving DecidableEq, Repr

/-- One round of the loop of `generate`. -/
def generate_body (w h : Int) (s : Walk) : Except Fault Round :=
  match wr s.maze s.y s.x VISIT with
  | none => .error .outOfBounds
  | some maze =>
    let tmpx := s.x
    let tmpy := s.y
    match rand_neighbour maze s.x s.y w h s.draws with
    | .error e => .error e
    | .ok m =>
      if m.ret ≠ 0 then
        match push s.st tmpx tmpy (s.mallocs.headD true) with
        | (ok, st) =>
          if ok = 0 then .ok (.ret 0 m.maze)
          else .ok (.next ⟨m.maze, m.x, m.y, st, m.draws, s.mallocs.tail⟩)
      else
        match s.st with
        | [] => .error .nullDeref
        | (sx, sy) :: _ =>
          match pop s.st with
          | [] => .error .nullDeref
          | t :: next =>
            if next = [] then .ok (.brk ⟨m.maze, sx, sy, t :: next, m.draws, s.mallocs⟩)
            else .ok (.next ⟨m.maze, sx, sy, t :: next, m.draws, s.mallocs⟩)

/-- What follows the loop of `generate`: the doorways are opened. -/
def generate_finish (w h : Int) (s : Walk) : Except Fault (Int × Maze) :=
  match wr s.maze 1 0 VISIT with
  | none => .error .outOfBounds
  | some maze =>
    match wr maze (h - 2) (w - 1) VISIT with
    | none => .error .outOfBounds
    | some maze' => .ok (1, maze')

/-- The loop of `generate`, at most `n` rounds. -/
def generate_loop (w h : Int) : Nat → Walk → Except Fault (Int × Maze)
  | 0, _ => .error .noDraws
  | n + 1, s =>
    match generate_body w h s with
    | .error e => .error e
    | .ok (.next s') => generate_loop w h n s'
    | .ok (.brk s') => generate_finish w h s'
    | .ok (.ret r maze) => .ok (r, maze)

/-- The variables of `generate` when its loop is entered. -/
def generate_start (maze : Maze) (w h : Int) (draws : List Nat) (mallocs : List Bool) : Walk :=
  ⟨maze, w - 2, h - 2, [], draws, mallocs⟩

/-- `generate`: every round consumes a draw, so `draws.length + 1` rounds
exhaust the draws. Returns the C return value and the cells. -/
def generate (maze : Maze) (w h : Int) (draws : List Nat) (mallocs : List Bool) :
    Except Fault (Int × Maze) :=
  generate_loop w h (draws.length + 1) (generate_start maze w h draws mallocs)

/-- One round of the loop of `solve`. -/
def solve_body (w h : Int) (s : Walk) : Except Fault Round :=
  match wr s.maze s.y s.x PATH with
  | none => .error .outOfBounds
  | some maze =>
    let tmpx := s.x
    let tmpy := s.y
    match solve_rand_neighbour maze s.x s.y w h s.draws with
    | .error e => .error e
    | .ok m =>
      if m.ret ≠ 0 then
        if m.x = w - 2 ∧ m.y = h - 2 then
          match wr m.maze m.y m.x PATH with
          | none => .error .outOfBounds
          | some maze' => .ok (.brk ⟨maze', m.x, m.y, s.st, m.draws, s.mallocs⟩)
        else
          match push s.st tmpx tmpy (s.mallocs.headD true) with
          | (ok, st) =>
            if ok = 0 then .ok (.ret 0 m.maze)
            else .ok (.next ⟨m.maze, m.x, m.y, st, m.draws, s.mallocs.tail⟩)
      else
        match wr m.maze m.y m.x UPATH with
        | none => .error .outOfBounds
        | some maze' =>
          match s.st with
          | [] => .error .nullDeref
          | (sx, sy) :: _ => .ok (.next ⟨maze', sx, sy, pop s.st, m.draws, s.mallocs⟩)

/-- What follows the loop of `solve`: the doorways join the path. -/
def solve_finish (w h : Int) (s : Walk) : Except Fault (Int × Maze) :=
  match wr s.maze 1 0 PATH with
  | none => .error .outOfBounds
  | some maze =>
    match wr maze (h - 2) (w - 1) PATH with
    | none => .error .outOfBounds
    | some maze' => .ok (1, maze')

/-- The loop of `solve`, at most `n` rounds. -/
def solve_loop (w h : Int) : Nat → Walk → Except Fault (Int × Maze)
  | 0, _ => .error .noDraws
  | n + 1, s =>
    match solve_body w h s with
    | .error e => .error e
    | .ok (.next s') => solve_loop w h n s'
    | .ok (.brk s') => solve_finish w h s'
    | .ok (.ret r maze) => .ok (r, maze)

/-- The variables of `solve` when its loop is entered: the doorways have been
sealed. `none` when sealing them writes outside the cells. -/
def solve_start (maze : Maze) (w h : Int) (draws : List Nat) (mallocs : List Bool) :
    Option Walk :=
  match wr maze 1 0 WALL with
  | none => none
  | some maze1 =>
    match wr maze1 (h - 2) (w - 1) WALL with
    | none => none
    | some maze2 => some ⟨maze2, 1, 1, [], draws, mallocs⟩

/-- `solve`. Returns the C return value and the cells. -/
def solve (maze : Maze) (w h : Int) (draws : List Nat) (mallocs : List Bool) :
    Except Fault (Int × Maze) :=
  match solve_start maze w h draws mallocs with
  | none => .error .outOfBounds
  | some s => solve_loop w h (draws.length + 1) s

/-! ## The command line -/

/-- `struct conf`, the options. -/
structure conf where
  image : String
  height : Int
  width : Int
  pixpercell : Int
  solve : Int
  deriving DecidableEq, Repr

/-- How `parse_args` ends: it returns with the options filled in, or the
process exits with a status (`help` and `version` call `exit(EXIT_SUCCESS)`,
`exit_err` calls `exit(EXIT_FAILURE)`). -/
inductive Parsed where
  | returned (opts : conf)
  | exited (status : Int)
  deriving DecidableEq, Repr

/-- An element of `argv`: the string, and the `int` that `atoi` of the C library
converts it to. -/
structure Arg where
  str : String
  atoi : Int
  deriving DecidableEq, Repr

/-- `parse_args`, applied to `argv[1], …, argv[argc-1]`. Each `strncmp` compares
up to and including the terminating null character of the option name, so it
tests equality. `tmp % 2` is the truncated remainder of C. `tmp - 1` is a
signed subtraction: where its value is below the least `int`, -2147483648, the
behaviour is undefined and the run stops with `Fault.overflow`. -/
def parse_args : List Arg → conf → Except Fault Parsed
  | [], opts => .ok (.returned opts)
  | arg :: rest, opts =>
    if arg.str = "-h" ∨ arg.str = "--help" then .ok (.exited 0)
    else if arg.str = "-v" ∨ arg.str = "--version" then .ok (.exited 0)
    else if arg.str = "--height" then
      match rest with
      | val :: rest' =>
        let tmp := val.atoi
        if tmp ≠ 0 then
          if tmp.tmod 2 = 0 then
            if tmp - 1 < -2147483648 then .error .overflow
            else parse_args rest' ⟨opts.image, tmp - 1, opts.width, opts.pixpercell, opts.solve⟩
          else parse_args rest' ⟨opts.image, tmp, opts.width, opts.pixpercell, opts.solve⟩
        else parse_args rest' opts
      | [] => .ok (.exited 1)
    else if arg.str = "--width" then
      match rest with
      | val :: rest' =>
        let tmp := val.atoi
        if tmp ≠ 0 then
          if tmp.tmod 2 = 0 then
            if tmp - 1 < -2147483648 then .error .overflow
            else parse_args rest' ⟨opts.image, opts.height, tmp - 1, opts.pixpercell, opts.solve⟩
          else parse_args rest' ⟨opts.image, opts.height, tmp, opts.pixpercell, opts.solve⟩
        else parse_args rest' opts
      | [] => .ok (.exited 1)
    else if arg.str = "--nosolve" then
      parse_args rest ⟨opts.image, opts.height, opts.width, opts.pixpercell, 0⟩
    else if arg.str = "--pixpercell" then
      match rest with
      | val :: rest' =>
        let tmp := val.atoi
        if tmp ≠ 0 then
          parse_args rest' ⟨opts.image, opts.height, opts.width, tmp, opts.solve⟩
        else parse_args rest' opts
      | [] => .ok (.exited 1)
    else parse_args rest opts

/-- The options as `main` sets them before it calls `parse_args`. -/
def main_opts : conf := ⟨"maze.png", 59, 59, 10, 1⟩


/-! ## Vocabulary of the properties -/

/-- The cells form `h` rows of `w` cells each. -/
def Dim (maze : Maze) (w h : Int) : Prop :=
  (maze.length : Int) = h ∧ ∀ row ∈ maze, (row.length : Int) = w

/-- State of the cell at coordinate `p = (x, y)`. -/
def cell (maze : Maze) (p : Int × Int) : Option Int := rd maze p.2 p.1

/-- Cells strictly inside the border. -/
def Inner (w h : Int) (p : Int × Int) : Prop :=
  0 < p.1 ∧ p.1 < w - 1 ∧ 0 < p.2 ∧ p.2 < h - 1

/-- Room cells: inside the border, both coordinates odd. -/
def Room (w h : Int) (p : Int × Int) : Prop :=
  Inner w h p ∧ p.1 % 2 = 1 ∧ p.2 % 2 = 1

/-- Wall cells between two neighbouring room cells: inside the border, exactly
one coordinate even. -/
def Passage (w h : Int) (p : Int × Int) : Prop :=
  Inner w h p ∧ (p.1 + p.2) % 2 = 1

/-- Cells one step apart (up, down, left or right). -/
def Adj (p q : Int × Int) : Prop :=
  (p.1 = q.1 ∧ (q.2 = p.2 - 1 ∨ q.2 = p.2 + 1)) ∨ (p.2 = q.2 ∧ (q.1 = p.1 - 1 ∨ q.1 = p.1 + 1))

/-- Cells two steps apart along one axis (neighbouring room cells). -/
def Adj2 (p q : Int × Int) : Prop :=
  (p.1 = q.1 ∧ (q.2 = p.2 - 2 ∨ q.2 = p.2 + 2)) ∨ (p.2 = q.2 ∧ (q.1 = p.1 - 2 ∨ q.1 = p.1 + 2))

/-- The cell between two cells that are two steps apart. -/
def mid (p q : Int × Int) : Int × Int := ((p.1 + q.1) / 2, (p.2 + q.2) / 2)

/-- `rand_neighbour` found no direction: each cell two steps away is outside
the tested bound or not `UVISIT`. -/
def Stuck (maze : Maze) (x y w h : Int) : Prop :=
  (y - 2 ≤ 0 ∨ rd maze (y - 2) x ≠ some UVISIT) ∧
  (y + 2 ≥ h ∨ rd maze (y + 2) x ≠ some UVISIT) ∧
  (x - 2 ≤ 0 ∨ rd maze y (x - 2) ≠ some UVISIT) ∧
  (x + 2 ≥ w ∨ rd maze y (x + 2) ≠ some UVISIT)

/-- `rand_neighbour` moved: the new cell `(tx, ty)` is two steps away, within the
tested bounds and was `UVISIT`; the cell `(mx, my)` in between has been set to
`VISIT` and nothing else has changed. -/
def Carved (maze : Maze) (x y w h : Int) (m : Moved) : Prop :=
  ∃ tx ty mx my : Int,
    ((tx = x ∧ mx = x ∧ ((ty = y - 2 ∧ my = y - 1) ∨ (ty = y + 2 ∧ my = y + 1))) ∨
     (ty = y ∧ my = y ∧ ((tx = x - 2 ∧ mx = x - 1) ∨ (tx = x + 2 ∧ mx = x + 1)))) ∧
    m.x = tx ∧ m.y = ty ∧ 0 < tx ∧ tx < w ∧ 0 < ty ∧ ty < h ∧
    rd maze ty tx = some UVISIT ∧ wr maze my mx VISIT = some m.maze

/-- Two room cells joined by a carved passage: they are neighbouring rooms and
the cell between them is `VISIT`. -/
def Linked (maze : Maze) (w h : Int) (p q : Int × Int) : Prop :=
  Room w h p ∧ Room w h q ∧ Adj2 p q ∧ cell maze (mid p q) = some VISIT

/-- A cycle of the graph whose vertices are the room cells and whose edges are
the carved passages: the distinct cells `a :: l`, at least three, each linked
to the next and the last one linked back to `a`. -/
def IsCycle (maze : Maze) (w h : Int) (a : Int × Int) (l : List (Int × Int)) : Prop :=
  2 ≤ l.length ∧ (a :: l).Nodup ∧ List.Chain (Linked maze w h) a (l ++ [a])

/-- The graph of room cells and carved passages has no cycle. -/
def Acyclic (maze : Maze) (w h : Int) : Prop :=
  ∀ a l, ¬ IsCycle maze w h a l

/-- The cells strictly inside the border. -/
def interior (w h : Int) : Finset (Int × Int) :=
  Finset.Icc 1 (w - 2) ×ˢ Finset.Icc 1 (h - 2)

/-- The carved passages: cells inside the border with exactly one even
coordinate (they lie between two neighbouring room cells) in state `VISIT`. -/
def passages (maze : Maze) (w h : Int) : Finset (Int × Int) :=
  (interior w h).filter fun p => (p.1 + p.2) % 2 = 1 ∧ cell maze p = some VISIT

/-- Number of carved passages. -/
def passageCount (maze : Maze) (w h : Int) : Nat := (passages maze w h).card

/-- The room cells. -/
def rooms (w h : Int) : Finset (Int × Int) :=
  (interior w h).filter fun p => p.1 % 2 = 1 ∧ p.2 % 2 = 1

/-- The room cells in state `VISIT`. -/
def visitedRooms (maze : Maze) (w h : Int) : Finset (Int × Int) :=
  (rooms w h).filter fun p => cell maze p = some VISIT

/-- One step between neighbouring cells that both hold the state `v`. -/
def StepIn (maze : Maze) (v : Int) (p q : Int × Int) : Prop :=
  Adj p q ∧ cell maze p = some v ∧ cell maze q = some v

/-- The cells `p` and `q` are joined by a chain of neighbouring cells that all hold the state `v`. -/
def Joined (maze : Maze) (v : Int) (p q : Int × Int) : Prop :=
  Relation.ReflTransGen (StepIn maze v) p q

/-- Invariant of the loop of `generate`, stated for the cells `E` as they are
once the current cell `cur` has been marked at the head of a round. -/
structure GenInv (w h : Int) (E : Maze) (cur : Int × Int) (st : Stack) : Prop where
  dim : Dim E w h
  room : ∀ p ∈ cur :: st, Room w h p
  vis : ∀ p ∈ cur :: st, cell E p = some VISIT
  nodup : (cur :: st).Nodup
  chain : List.Chain' Adj2 (cur :: st)
  last : (cur :: st).getLast? = some (w - 2, h - 2)
  typ_room : ∀ p, Room w h p → cell E p = some UVISIT ∨ cell E p = some VISIT
  typ_pass : ∀ p, Passage w h p → cell E p = some WALL ∨ cell E p = some VISIT
  typ_else : ∀ p : Int × Int, 0 ≤ p.1 → p.1 < w → 0 ≤ p.2 → p.2 < h →
    ¬ Room w h p → ¬ Passage w h p → cell E p = some WALL
  fresh : ∀ p q, Room w h p → cell E p = some UVISIT → Adj p q → cell E q ≠ some VISIT
  count : passageCount E w h + 1 = (visitedRooms E w h).card
  acyc : Acyclic E w h
  conn : ∀ p, Room w h p → cell E p = some VISIT → Joined E VISIT (w - 2, h - 2) p
  black : ∀ p q, Room w h p → cell E p = some VISIT → p ∉ cur :: st →
    Room w h q → Adj2 p q → cell E q = some VISIT

/-- The cells `p` and `q` are joined by a chain of neighbouring cells that all
lie inside the border and hold the state `v`. -/
def InnerJoined (maze : Maze) (w h : Int) (v : Int) (p q : Int × Int) : Prop :=
  Relation.ReflTransGen (fun a b => Inner w h a ∧ Inner w h b ∧ StepIn maze v a b) p q

/-- What a successful `generate` leaves in the cells: every room is `VISIT`,
the two doorways are `VISIT`, every passage is `WALL` or `VISIT` and every
other cell is `WALL`; the carved passages are one fewer than the rooms, they
close no cycle, and every room is joined to the start cell through `VISIT`
cells inside the border. There is more than one room. -/
structure Generated (w h : Int) (maze : Maze) : Prop where
  big : 3 < w ∨ 3 < h
  dim : Dim maze w h
  rooms : ∀ p, Room w h p → cell maze p = some VISIT
  pass : ∀ p, Passage w h p → cell maze p = some WALL ∨ cell maze p = some VISIT
  entrance : cell maze (0, 1) = some VISIT
  exit : cell maze (w - 1, h - 2) = some VISIT
  walls : ∀ p : Int × Int, 0 ≤ p.1 → p.1 < w → 0 ≤ p.2 → p.2 < h →
    ¬ Room w h p → ¬ Passage w h p → p ≠ (0, 1) → p ≠ (w - 1, h - 2) → cell maze p = some WALL
  count : (passageCount maze w h : Int) + 1 = ((w - 1) / 2) * ((h - 1) / 2)
  acyc : Acyclic maze w h
  conn : ∀ p, Room w h p → InnerJoined maze w h VISIT (w - 2, h - 2) p

/-- The invariant of `generate` at the head of a round: marking the current
cell succeeds and yields cells that satisfy `GenInv`. -/
def GenOK (w h : Int) (s : Walk) : Prop :=
  ∃ E, wr s.maze s.y s.x VISIT = some E ∧ GenInv w h E (s.x, s.y) s.st

/-- The variables of `generate` after `n` further rounds, if the loop is still
running then. -/
def generate_steps (w h : Int) : Nat → Walk → Option Walk
  | 0, s => some s
  | n + 1, s =>
    match generate_body w h s with
    | .ok (.next s') => generate_steps w h n s'
    | _ => none

/-- `solve_rand_neighbour` found no direction: each neighbouring cell is outside
the tested bound or not `VISIT`. -/
def SolStuck (maze : Maze) (x y w h : Int) : Prop :=
  (y - 1 ≤ 0 ∨ rd maze (y - 1) x ≠ some VISIT) ∧
  (y + 1 ≥ h - 1 ∨ rd maze (y + 1) x ≠ some VISIT) ∧
  (x - 1 ≤ 0 ∨ rd maze y (x - 1) ≠ some VISIT) ∧
  (x + 1 ≥ w - 1 ∨ rd maze y (x + 1) ≠ some VISIT)

/-- `solve_rand_neighbour` moved: the new cell is one step away, inside the
border and `VISIT`; the cells are unchanged. -/
def Stepped (maze : Maze) (x y w h : Int) (m : Moved) : Prop :=
  m.maze = maze ∧
  ((m.x = x ∧ (m.y = y - 1 ∨ m.y = y + 1)) ∨ (m.y = y ∧ (m.x = x - 1 ∨ m.x = x + 1))) ∧
  0 < m.x ∧ m.x < w - 1 ∧ 0 < m.y ∧ m.y < h - 1 ∧ rd maze m.y m.x = some VISIT

/-- The variables of `solve` after `n` further rounds, if the loop is still
running then. -/
def solve_steps (w h : Int) : Nat → Walk → Option Walk
  | 0, s => some s
  | n + 1, s =>
    match solve_body w h s with
    | .ok (.next s') => solve_steps w h n s'
    | _ => none

/-- The part of the invariant of `solve` that keeps every access inside the
cells: the current cell and the cells on the stack lie inside the border. -/
def SolSafe (w h : Int) (s : Walk) : Prop :=
  Dim s.maze w h ∧ Inner w h (s.x, s.y) ∧ ∀ p ∈ s.st, Inner w h p

/-- Invariant of the loop of `solve` on the maze `M`, stated for the cells `E`
as they are once the current cell `cur` has been marked at the head of a round:
the `PATH` cells are the current cell and the stack, which form a simple chain
of neighbouring cells back to `(1, 1)`; walls are untouched; the goal cell is
still `VISIT`; a cell marked `UPATH` has no `VISIT` neighbour. -/
structure SolInv (w h : Int) (M E : Maze) (cur : Int × Int) (st : Stack) : Prop where
  dim : Dim E w h
  inner : ∀ p ∈ cur :: st, Inner w h p
  path : ∀ p, cell E p = some PATH ↔ p ∈ cur :: st
  nodup : (cur :: st).Nodup
  chain : List.Chain' Adj (cur :: st)
  last : (cur :: st).getLast? = some (1, 1)
  border : ∀ p : Int × Int, 0 ≤ p.1 → p.1 < w → 0 ≤ p.2 → p.2 < h → ¬ Inner w h p →
    cell E p = some WALL
  typ : ∀ p, Inner w h p →
    (cell M p = some WALL ∧ cell E p = some WALL) ∨
    (cell M p = some VISIT ∧
      (cell E p = some VISIT ∨ cell E p = some PATH ∨ cell E p = some UPATH))
  goal : cell E (w - 2, h - 2) = some VISIT
  black : ∀ p q, cell E p = some UPATH → Adj p q → cell E q ≠ some VISIT

/-- The cell `p` has been marked by `solve`. -/
def Marked (maze : Maze) (p : Int × Int) : Prop :=
  cell maze p = some PATH ∨ cell maze p = some UPATH

/-- What a successful `solve` leaves in the cells `m` of the maze `M`: the
`PATH` cells are exactly the cells of a simple chain of neighbouring cells from
the entrance to the exit; inside the border walls are untouched and every other
cell is `VISIT`, `PATH` or `UPATH`; the border is `WALL` except the doorways. -/
structure Solved (w h : Int) (M m : Maze) : Prop where
  dim : Dim m w h
  route : ∃ r : List (Int × Int), r.Nodup ∧ List.Chain' Adj r ∧ r.head? = some (0, 1) ∧
    r.getLast? = some (w - 1, h - 2) ∧ ∀ p, cell m p = some PATH ↔ p ∈ r
  typ : ∀ p, Inner w h p →
    (cell M p = some WALL ∧ cell m p = some WALL) ∨
    (cell M p = some VISIT ∧
      (cell m p = some VISIT ∨ cell m p = some PATH ∨ cell m p = some UPATH))
  border : ∀ p : Int × Int, 0 ≤ p.1 → p.1 < w → 0 ≤ p.2 → p.2 < h → ¬ Inner w h p →
    p ≠ (0, 1) → p ≠ (w - 1, h - 2) → cell m p = some WALL

/-- The draws `f i, f (i+1), …, f (i+k-1)` of an unending sequence of draws. -/
def drawsFrom (f : Nat → Nat) (i k : Nat) : List Nat :=
  (List.range' i k).map f

/-- Every direction keeps turning up in the sequence of draws. -/
def Fair (f : Nat → Nat) : Prop :=
  ∀ d, d < 4 → ∀ i, ∃ j, i ≤ j ∧ f j % 4 = d

/-- Each direction whose flag is still set turns up among the draws `ds`. -/
def Covers (ds : List Nat) (up down left right : Bool) : Prop :=
  (up = true → ∃ d ∈ ds, d % 4 = 0) ∧ (down = true → ∃ d ∈ ds, d % 4 = 1) ∧
  (left = true → ∃ d ∈ ds, d % 4 = 2) ∧ (right = true → ∃ d ∈ ds, d % 4 = 3)

/-- Number of cells inside the border that are `VISIT`. -/
def visitCount (maze : Maze) (w h : Int) : Nat :=
  ((interior w h).filter fun p => cell maze p = some VISIT).card

/-- The early rounds of `generate`: while the stack holds at most one item, the
rooms other than the current cell and that item are still `UVISIT`. Stated for
the cells `E` as they are once the current cell `cur` has been marked. -/
def GenEarly (w h : Int) (E : Maze) (cur : Int × Int) (st : Stack) : Prop :=
  st.length ≤ 1 → ∀ p, Room w h p → p ∉ cur :: st → cell E p = some UVISIT

/-- The forward move of one round of `solve`: the cell that
`solve_rand_neighbour` moved to, when it returned non-zero. -/
def solve_moved (w h : Int) (s : Walk) : Option (Int × Int) :=
  match wr s.maze s.y s.x PATH with
  | none => none
  | some maze =>
    match solve_rand_neighbour maze s.x s.y w h s.draws with
    | .error _ => none
    | .ok m => if m.ret ≠ 0 then some (m.x, m.y) else none

/-- The targets of the forward moves made in the first `n` rounds of the loop of
`solve`, in order. -/
def solve_moves (w h : Int) : Nat → Walk → List (Int × Int)
  | 0, _ => []
  | n + 1, s =>
    (solve_moved w h s).toList ++
      match solve_body w h s with
      | .ok (.next s') => solve_moves w h n s'
      | _ => []

/-- The shape shared by the loops of `rand_neighbour` and `solve_rand_neighbour`,
as a property of a loop `L` taking the draws and the four flags: with no flag
set the loop returns 0 without drawing; with a flag set, a draw `r` either
reads outside the cells, or is accepted (return 1), or clears the flag of the
direction `r % 4` and leaves the other flags as they are. -/
def DrawLoop (L : List Nat → Bool → Bool → Bool → Bool → Except Fault Moved) : Prop :=
  (∀ X, ∃ m, L X false false false false = .ok m ∧ m.ret = 0 ∧ m.draws = X) ∧
  ∀ (r : Nat) (up down left right : Bool), (up || down || left || right) = true →
    (∀ X, L (r :: X) up down left right = .error .outOfBounds) ∨
    (∀ X, ∃ m, L (r :: X) up down left right = .ok m ∧ m.ret = 1 ∧ m.draws = X) ∨
    (∀ X, L (r :: X) up down left right =
      L X (up && decide (r % 4 ≠ 0)) (down && decide (r % 4 ≠ 1))
        (left && decide (r % 4 ≠ 2)) (right && decide (r % 4 ≠ 3)))

/-! # Properties -/

/-! ## Reading and writing cells -/

theorem rd_some_of_range {maze : Maze} {w h : Int} (hd : Dim maze w h) {y x : Int}
    (hy0 : 0 ≤ y) (hy : y < h) (hx0 : 0 ≤ x) (hx : x < w) : ∃ v, rd maze y x = some v := by
  obtain ⟨hl, hr⟩ := hd
  have h1 : y.toNat < maze.length := by omega
  have h2 : maze[y.toNat]? = some maze[y.toNat] := List.getElem?_eq_getElem h1
  have h3 : (maze[y.toNat].length : Int) = w := hr _ (List.getElem_mem _)
  have h4 : x.toNat < maze[y.toNat].length := by omega
  refine ⟨maze[y.toNat][x.toNat], ?_⟩
  simp only [rd, hy0, hx0, and_self, if_true, h2]
  exact List.getElem?_eq_getElem h4

theorem rd_range {maze : Maze} {w h : Int} (hd : Dim maze w h) {y x v : Int}
    (hrd : rd maze y x = some v) : 0 ≤ y ∧ y < h ∧ 0 ≤ x ∧ x < w := by
  obtain ⟨hl, hr⟩ := hd
  unfold rd at hrd
  split at hrd
  · rename_i hc
    split at hrd
    · simp at hrd
    · rename_i row hrow
      have h1 := List.getElem?_eq_some_iff.mp hrow
      obtain ⟨h1, h1e⟩ := h1
      have h2 := List.getElem?_eq_some_iff.mp hrd
      obtain ⟨h2, _⟩ := h2
      have h3 : (row.length : Int) = w := hr _ (h1e ▸ List.getElem_mem _)
      omega
  · simp at hrd

theorem wr_range {maze maze' : Maze} {w h : Int} (hd : Dim maze w h) {y x v : Int}
    (hwr : wr maze y x v = some maze') : 0 ≤ y ∧ y < h ∧ 0 ≤ x ∧ x < w := by
  obtain ⟨hl, hr⟩ := hd
  unfold wr at hwr
  split at hwr
  · rename_i hc
    split at hwr
    · simp at hwr
    · rename_i row hrow
      obtain ⟨h1, h1e⟩ := List.getElem?_eq_some_iff.mp hrow
      have h3 : (row.length : Int) = w := hr _ (h1e ▸ List.getElem_mem _)
      split at hwr
      · omega
      · simp at hwr
  · simp at hwr

theorem wr_some_of_range {maze : Maze} {w h : Int} (hd : Dim maze w h) {y x : Int} (v : Int)
    (hy0 : 0 ≤ y) (hy : y < h) (hx0 : 0 ≤ x) (hx : x < w) : ∃ m, wr maze y x v = some m := by
  obtain ⟨hl, hr⟩ := hd
  have h1 : y.toNat < maze.length := by omega
  have h2 : maze[y.toNat]? = some maze[y.toNat] := List.getElem?_eq_getElem h1
  have h3 : (maze[y.toNat].length : Int) = w := hr _ (List.getElem_mem _)
  have h4 : x.toNat < maze[y.toNat].length := by omega
  refine ⟨maze.set y.toNat (maze[y.toNat].set x.toNat v), ?_⟩
  simp only [wr, hy0, hx0, and_self, if_true, h2, h4]

theorem wr_dim {maze maze' : Maze} {w h : Int} (hd : Dim maze w h) {y x v : Int}
    (hwr : wr maze y x v = some maze') : Dim maze' w h := by
  obtain ⟨hl, hr⟩ := hd
  unfold wr at hwr
  split at hwr
  · split at hwr
    · simp at hwr
    · rename_i row hrow
      obtain ⟨h1, h1e⟩ := List.getElem?_eq_some_iff.mp hrow
      split at hwr
      · simp only [Option.some.injEq] at hwr
        subst hwr
        refine ⟨by simpa using hl, ?_⟩
        intro r hmem
        rcases List.mem_or_eq_of_mem_set hmem with hm | hm
        · exact hr r hm
        · subst hm
          rw [List.length_set]
          exact hr _ (h1e ▸ List.getElem_mem _)
      · simp at hwr
  · simp at hwr

theorem rd_wr {maze maze' : Maze} {y x v : Int} (hwr : wr maze y x v = some maze')
    (y' x' : Int) :
    rd maze' y' x' = if y' = y ∧ x' = x then some v else rd maze y' x' := by
  unfold wr at hwr
  split at hwr
  · rename_i hc
    split at hwr
    · simp at hwr
    · rename_i row hrow
      obtain ⟨h1, h1e⟩ := List.getElem?_eq_some_iff.mp hrow
      split at hwr
      · rename_i hxl
        simp only [Option.some.injEq] at hwr
        subst hwr
        unfold rd
        by_cases hc' : 0 ≤ y' ∧ 0 ≤ x'
        · simp only [hc', and_self, if_true]
          by_cases hyy : y' = y
          · subst hyy
            simp only [true_and]
            rw [List.getElem?_set_self h1]
            by_cases hxx : x' = x
            · subst hxx
              simp [List.getElem?_set_self hxl]
            · have : x.toNat ≠ x'.toNat := by omega
              simp only [hxx, if_false]
              rw [List.getElem?_set_ne this, hrow]
          · have : y.toNat ≠ y'.toNat := by omega
            simp only [hyy, false_and, if_false]
            rw [List.getElem?_set_ne this]
        · simp only [hc', if_false]
          have : ¬ (y' = y ∧ x' = x) := by
            rintro ⟨rfl, rfl⟩
            exact hc' hc
          simp [this]
      · simp at hwr
  · simp at hwr

theorem list_set_self {α : Type} (l : List α) (i : Nat) (a : α) (hl : l[i]? = some a) :
    l.set i a = l := by
  induction l generalizing i with
  | nil => rfl
  | cons b t ih =>
    cases i with
    | zero => simp at hl; simp [hl]
    | succ j => simp at hl; simp [ih j hl]

theorem wr_same {maze : Maze} {y x v : Int} (hrd : rd maze y x = some v) :
    wr maze y x v = some maze := by
  unfold rd at hrd
  split at hrd
  · rename_i hc
    split at hrd
    · simp at hrd
    · rename_i row hrow
      obtain ⟨h2, h2e⟩ := List.getElem?_eq_some_iff.mp hrd
      simp only [wr, hc, and_self, if_true, hrow, h2]
      rw [list_set_self row _ _ hrd, list_set_self maze _ _ hrow]
  · simp at hrd


/-! ## `init` -/

theorem init_rows_eq (w : Int) (n : Nat) (y : Int) (mallocs : List Bool) (rows : Maze)
    (hr : init_rows w n y mallocs = some rows) :
    rows = (List.range n).map fun (i : Nat) => init_row w (y + (i : Int)) := by
  induction n generalizing y mallocs rows with
  | zero => simp [init_rows] at hr; simp [hr]
  | succ n ih =>
    simp only [init_rows] at hr
    split at hr
    · cases hrec : init_rows w n (y + 1) mallocs.tail with
      | none => simp [hrec] at hr
      | some rows' =>
        simp only [hrec, Option.map_some', Option.some.injEq] at hr
        subst hr
        rw [ih (y + 1) mallocs.tail rows' hrec, List.range_succ_eq_map]
        simp only [List.map_cons, List.map_map, Nat.cast_zero, add_zero, List.cons.injEq, true_and]
        apply List.map_congr_left
        intro i _
        simp only [Function.comp, Nat.cast_succ]
        congr 1
        omega
    · simp at hr

theorem init_eq (w h : Int) (mallocs : List Bool) (maze : Maze)
    (hinit : init w h mallocs = some maze) :
    maze = (List.range h.toNat).map fun (i : Nat) => init_row w (i : Int) := by
  unfold init at hinit
  split at hinit
  · have := init_rows_eq w h.toNat 0 mallocs.tail maze hinit
    simpa using this
  · simp at hinit

theorem init_dim (w h : Int) (hw : 0 ≤ w) (hh : 0 ≤ h) (mallocs : List Bool) (maze : Maze)
    (hinit : init w h mallocs = some maze) : Dim maze w h := by
  have he := init_eq w h mallocs maze hinit
  subst he
  constructor
  · simp; omega
  · intro row hrow
    simp only [List.mem_map, List.mem_range] at hrow
    obtain ⟨i, _, rfl⟩ := hrow
    simp [init_row]; omega

theorem init_rd (w h : Int) (mallocs : List Bool) (maze : Maze)
    (hinit : init w h mallocs = some maze) (x y : Int)
    (hx0 : 0 ≤ x) (hx : x < w) (hy0 : 0 ≤ y) (hy : y < h) :
    rd maze y x = some (if y % 2 = 0 ∨ x % 2 = 0 then WALL else UVISIT) := by
  have he := init_eq w h mallocs maze hinit
  subst he
  have h1 : y.toNat < h.toNat := by omega
  have h2 : x.toNat < w.toNat := by omega
  have e1 : ((y.toNat : Nat) : Int) = y := by omega
  have e2 : ((x.toNat : Nat) : Int) = x := by omega
  simp only [rd, hy0, hx0, and_self, if_true]
  rw [List.getElem?_map, List.getElem?_range h1]
  simp only [Option.map_some', init_row]
  rw [List.getElem?_map, List.getElem?_range h2]
  simp only [Option.map_some', e1, e2]


/-- C5: when its allocations succeed, `init w h` (for `w, h ≥ 1`) yields `h`
rows of `w` cells; the cell at `(x, y)` is `WALL` exactly when `x` or `y` is
even and `UVISIT` exactly when both are odd, so no cell holds another state. -/
theorem init_wall_skeleton (w h : Int) (hw : 1 ≤ w) (hh : 1 ≤ h) (mallocs : List Bool)
    (maze : Maze) (hinit : init w h mallocs = some maze) :
    Dim maze w h ∧
    ∀ x y : Int, 0 ≤ x → x < w → 0 ≤ y → y < h →
      (rd maze y x = some WALL ↔ (x % 2 = 0 ∨ y % 2 = 0)) ∧
      (rd maze y x = some UVISIT ↔ ¬ (x % 2 = 0 ∨ y % 2 = 0)) ∧
      (rd maze y x = some WALL ∨ rd maze y x = some UVISIT) := by
  refine ⟨init_dim w h (by omega) (by omega) mallocs maze hinit, ?_⟩
  intro x y hx0 hx hy0 hy
  rw [init_rd w h mallocs maze hinit x y hx0 hx hy0 hy]
  by_cases hc : y % 2 = 0 ∨ x % 2 = 0
  · have hc' : x % 2 = 0 ∨ y % 2 = 0 := hc.symm
    rw [if_pos hc]
    exact ⟨⟨fun _ => hc', fun _ => rfl⟩, ⟨fun h => absurd h (by decide), fun h => absurd hc' h⟩,
      Or.inl rfl⟩
  · have hc' : ¬ (x % 2 = 0 ∨ y % 2 = 0) := fun h => hc h.symm
    rw [if_neg hc]
    exact ⟨⟨fun h => absurd h (by decide), fun h => absurd h hc'⟩, ⟨fun _ => hc', fun _ => rfl⟩,
      Or.inr rfl⟩

theorem init_wall_skeleton_witness :
    Dim [[2, 2, 2], [2, 0, 2], [2, 2, 2]] 3 3 ∧
    ∀ x y : Int, 0 ≤ x → x < 3 → 0 ≤ y → y < 3 →
      (rd [[2, 2, 2], [2, 0, 2], [2, 2, 2]] y x = some WALL ↔ (x % 2 = 0 ∨ y % 2 = 0)) ∧
      (rd [[2, 2, 2], [2, 0, 2], [2, 2, 2]] y x = some UVISIT ↔ ¬ (x % 2 = 0 ∨ y % 2 = 0)) ∧
      (rd [[2, 2, 2], [2, 0, 2], [2, 2, 2]] y x = some WALL ∨
        rd [[2, 2, 2], [2, 0, 2], [2, 2, 2]] y x = some UVISIT) :=
  init_wall_skeleton 3 3 (by decide) (by decide) [] [[2, 2, 2], [2, 0, 2], [2, 2, 2]] (by decide)

/-! ## The 3 × 3 maze -/

theorem rand_neighbour_loop_3x3 (maze : Maze) (draws : List Nat) (up down left right : Bool) :
    rand_neighbour_loop maze 1 1 3 3 draws up down left right = .error .noDraws ∨
    ∃ d, rand_neighbour_loop maze 1 1 3 3 draws up down left right = .ok ⟨0, maze, 1, 1, d⟩ := by
  induction draws generalizing up down left right with
  | nil =>
    unfold rand_neighbour_loop
    split
    · exact Or.inl rfl
    · exact Or.inr ⟨_, rfl⟩
  | cons r draws ih =>
    unfold rand_neighbour_loop
    split
    · split
      · simpa using ih false down left right
      · simpa using ih up false left right
      · simpa using ih up down false right
      · simpa using ih up down left false
      · exact ih up down left right
    · exact Or.inr ⟨_, rfl⟩

theorem solve_rand_neighbour_loop_3x3 (maze : Maze) (draws : List Nat)
    (up down left right : Bool) :
    solve_rand_neighbour_loop maze 1 1 3 3 draws up down left right = .error .noDraws ∨
    ∃ d, solve_rand_neighbour_loop maze 1 1 3 3 draws up down left right
      = .ok ⟨0, maze, 1, 1, d⟩ := by
  induction draws generalizing up down left right with
  | nil =>
    unfold solve_rand_neighbour_loop
    split
    · exact Or.inl rfl
    · exact Or.inr ⟨_, rfl⟩
  | cons r draws ih =>
    unfold solve_rand_neighbour_loop
    split
    · split
      · simpa using ih false down left right
      · simpa using ih up false left right
      · simpa using ih up down false right
      · simpa using ih up down left false
      · exact ih up down left right
    · exact Or.inr ⟨_, rfl⟩

theorem generate_body_3x3 (draws : List Nat) (mallocs : List Bool) :
    generate_body 3 3 (generate_start [[2, 2, 2], [2, 0, 2], [2, 2, 2]] 3 3 draws mallocs)
      = .error .noDraws ∨
    generate_body 3 3 (generate_start [[2, 2, 2], [2, 0, 2], [2, 2, 2]] 3 3 draws mallocs)
      = .error .nullDeref := by
  have hw : wr [[2, 2, 2], [2, 0, 2], [2, 2, 2]] 1 1 VISIT
      = some [[2, 2, 2], [2, 1, 2], [2, 2, 2]] := by decide
  rcases rand_neighbour_loop_3x3 [[2, 2, 2], [2, 1, 2], [2, 2, 2]] draws true true true true
    with h | ⟨d, h⟩
  · left
    simp [generate_body, generate_start, hw, rand_neighbour, h]
  · right
    simp [generate_body, generate_start, hw, rand_neighbour, h]

theorem solve_body_3x3 (draws : List Nat) (mallocs : List Bool) :
    solve_body 3 3 ⟨[[2, 2, 2], [2, 1, 2], [2, 2, 2]], 1, 1, [], draws, mallocs⟩
      = .error .noDraws ∨
    solve_body 3 3 ⟨[[2, 2, 2], [2, 1, 2], [2, 2, 2]], 1, 1, [], draws, mallocs⟩
      = .error .nullDeref := by
  have hw : wr [[2, 2, 2], [2, 1, 2], [2, 2, 2]] 1 1 PATH
      = some [[2, 2, 2], [2, 3, 2], [2, 2, 2]] := by decide
  have hw2 : wr [[2, 2, 2], [2, 3, 2], [2, 2, 2]] 1 1 UPATH
      = some [[2, 2, 2], [2, 4, 2], [2, 2, 2]] := by decide
  rcases solve_rand_neighbour_loop_3x3 [[2, 2, 2], [2, 3, 2], [2, 2, 2]] draws true true true true
    with h | ⟨d, h⟩
  · left
    simp [solve_body, hw, solve_rand_neighbour, h]
  · right
    simp [solve_body, hw, hw2, solve_rand_neighbour, h]

/-- C6: on the 3 × 3 grid built by `init`, `generate` never returns: with the
draws 0, 1, 2, 3 it finds no neighbour for the only room cell, enters the
backtrack branch with an empty stack and reads `st->x` through `NULL`; with any
draws and allocator it ends in that fault or is still waiting for a draw. -/
theorem generate_3x3_null_deref :
    init 3 3 [] = some [[2, 2, 2], [2, 0, 2], [2, 2, 2]] ∧
    generate [[2, 2, 2], [2, 0, 2], [2, 2, 2]] 3 3 [0, 1, 2, 3] [] = .error .nullDeref ∧
    ∀ (draws : List Nat) (mallocs : List Bool),
      generate [[2, 2, 2], [2, 0, 2], [2, 2, 2]] 3 3 draws mallocs = .error .noDraws ∨
      generate [[2, 2, 2], [2, 0, 2], [2, 2, 2]] 3 3 draws mallocs = .error .nullDeref := by
  refine ⟨by decide, rfl, ?_⟩
  intro draws mallocs
  unfold generate
  rcases generate_body_3x3 draws mallocs with h | h
  · left; simp [generate_loop, h]
  · right; simp [generate_loop, h]

/-- C7: on the generated 3 × 3 maze, `solve` never returns: with the draws
0, 1, 2, 3 it finds no neighbour for the room cell `(1, 1)`, marks it `UPATH`
and reads `st->x` through `NULL`; with any draws and allocator it ends in that
fault or is still waiting for a draw. -/
theorem solve_3x3_null_deref :
    solve [[2, 2, 2], [1, 1, 1], [2, 2, 2]] 3 3 [0, 1, 2, 3] [] = .error .nullDeref ∧
    ∀ (draws : List Nat) (mallocs : List Bool),
      solve [[2, 2, 2], [1, 1, 1], [2, 2, 2]] 3 3 draws mallocs = .error .noDraws ∨
      solve [[2, 2, 2], [1, 1, 1], [2, 2, 2]] 3 3 draws mallocs = .error .nullDeref := by
  refine ⟨rfl, ?_⟩
  intro draws mallocs
  have hs : solve_start [[2, 2, 2], [1, 1, 1], [2, 2, 2]] 3 3 draws mallocs
      = some ⟨[[2, 2, 2], [2, 1, 2], [2, 2, 2]], 1, 1, [], draws, mallocs⟩ := by
    simp [solve_start, wr]
  unfold solve
  rw [hs]
  rcases solve_body_3x3 draws mallocs with h | h
  · left; simp [solve_loop, h]
  · right; simp [solve_loop, h]

/-! ## `rand_neighbour` -/

theorem rand_neighbour_loop_spec {maze : Maze} {x y w h : Int} (hd : Dim maze w h)
    (hx0 : 0 < x) (hx : x < w) (hy0 : 0 < y) (hy : y < h)
    (draws : List Nat) (up down left right : Bool) :
    rand_neighbour_loop maze x y w h draws up down left right = .error .noDraws ∨
    ∃ m, rand_neighbour_loop maze x y w h draws up down left right = .ok m ∧
      m.draws.length ≤ draws.length ∧
      ((up || down || left || right) = true → m.draws.length < draws.length) ∧
      ((m.ret = 0 ∧ m.maze = maze ∧ m.x = x ∧ m.y = y ∧
        (up = true → (y - 2 ≤ 0 ∨ rd maze (y - 2) x ≠ some UVISIT)) ∧
        (down = true → (y + 2 ≥ h ∨ rd maze (y + 2) x ≠ some UVISIT)) ∧
        (left = true → (x - 2 ≤ 0 ∨ rd maze y (x - 2) ≠ some UVISIT)) ∧
        (right = true → (x + 2 ≥ w ∨ rd maze y (x + 2) ≠ some UVISIT))) ∨
       (m.ret = 1 ∧ Carved maze x y w h m)) := by
  induction draws generalizing up down left right with
  | nil =>
    unfold rand_neighbour_loop
    split
    · exact Or.inl rfl
    · rename_i hf
      simp only [Bool.or_eq_true, not_or, Bool.not_eq_true] at hf
      obtain ⟨⟨⟨h1, h2⟩, h3⟩, h4⟩ := hf
      subst h1 h2 h3 h4
      exact Or.inr ⟨_, rfl, le_refl _, by simp, Or.inl ⟨rfl, rfl, rfl, rfl, by simp⟩⟩
  | cons r draws ih =>
    unfold rand_neighbour_loop
    split
    · rename_i hf
      split
      · -- UP
        by_cases hb : y - 2 ≤ 0
        · rw [if_pos hb]
          rcases ih false down left right with he | ⟨m, he, hl, _, hs⟩
          · exact Or.inl he
          · refine Or.inr ⟨m, he, by simp; omega, fun _ => by simp; omega, ?_⟩
            rcases hs with ⟨a, b, c, d, _, e, f, g⟩ | hs
            · exact Or.inl ⟨a, b, c, d, fun _ => Or.inl hb, e, f, g⟩
            · exact Or.inr hs
        · rw [if_neg hb]
          obtain ⟨c, hc⟩ := rd_some_of_range hd (y := y - 2) (x := x) (by omega) (by omega) (by omega) hx
          simp only [hc]
          by_cases hu : c ≠ UVISIT
          · rw [if_pos hu]
            rcases ih false down left right with he | ⟨m, he, hl, _, hs⟩
            · exact Or.inl he
            · refine Or.inr ⟨m, he, by simp; omega, fun _ => by simp; omega, ?_⟩
              rcases hs with ⟨a, b, c', d, _, e, f, g⟩ | hs
              · refine Or.inl ⟨a, b, c', d, fun _ => Or.inr ?_, e, f, g⟩
                intro hh; exact hu (Option.some.inj hh)
              · exact Or.inr hs
          · rw [if_neg hu]
            have hu' : c = UVISIT := not_not.mp hu
            obtain ⟨m', hm'⟩ := wr_some_of_range hd (y := y - 1) (x := x) VISIT
              (by omega) (by omega) (by omega) hx
            simp only [hm']
            refine Or.inr ⟨_, rfl, by simp, fun _ => by simp, Or.inr ⟨rfl, ?_⟩⟩
            exact ⟨x, y - 2, x, y - 1, Or.inl ⟨rfl, rfl, Or.inl ⟨rfl, rfl⟩⟩, rfl, rfl,
              by omega, by omega, by omega, by omega, hu' ▸ hc, hm'⟩
      · -- DOWN
        by_cases hb : y + 2 ≥ h
        · rw [if_pos hb]
          rcases ih up false left right with he | ⟨m, he, hl, _, hs⟩
          · exact Or.inl he
          · refine Or.inr ⟨m, he, by simp; omega, fun _ => by simp; omega, ?_⟩
            rcases hs with ⟨a, b, c, d, e, _, f, g⟩ | hs
            · exact Or.inl ⟨a, b, c, d, e, fun _ => Or.inl hb, f, g⟩
            · exact Or.inr hs
        · rw [if_neg hb]
          obtain ⟨c, hc⟩ := rd_some_of_range hd (y := y + 2) (x := x) (by omega) (by omega) (by omega) hx
          simp only [hc]
          by_cases hu : c ≠ UVISIT
          · rw [if_pos hu]
            rcases ih up false left right with he | ⟨m, he, hl, _, hs⟩
            · exact Or.inl he
            · refine Or.inr ⟨m, he, by simp; omega, fun _ => by simp; omega, ?_⟩
              rcases hs with ⟨a, b, c', d, e, _, f, g⟩ | hs
              · refine Or.inl ⟨a, b, c', d, e, fun _ => Or.inr ?_, f, g⟩
                intro hh; exact hu (Option.some.inj hh)
              · exact Or.inr hs
          · rw [if_neg hu]
            have hu' : c = UVISIT := not_not.mp hu
            obtain ⟨m', hm'⟩ := wr_some_of_range hd (y := y + 1) (x := x) VISIT
              (by omega) (by omega) (by omega) hx
            simp only [hm']
            refine Or.inr ⟨_, rfl, by simp, fun _ => by simp, Or.inr ⟨rfl, ?_⟩⟩
            exact ⟨x, y + 2, x, y + 1, Or.inl ⟨rfl, rfl, Or.inr ⟨rfl, rfl⟩⟩, rfl, rfl,
              by omega, by omega, by omega, by omega, hu' ▸ hc, hm'⟩
      · -- LEFT
        by_cases hb : x - 2 ≤ 0
        · rw [if_pos hb]
          rcases ih up down false right with he | ⟨m, he, hl, _, hs⟩
          · exact Or.inl he
          · refine Or.inr ⟨m, he, by simp; omega, fun _ => by simp; omega, ?_⟩
            rcases hs with ⟨a, b, c, d, e, f, _, g⟩ | hs
            · exact Or.inl ⟨a, b, c, d, e, f, fun _ => Or.inl hb, g⟩
            · exact Or.inr hs
        · rw [if_neg hb]
          obtain ⟨c, hc⟩ := rd_some_of_range hd (y := y) (x := x - 2) (by omega) hy (by omega) (by omega)
          simp only [hc]
          by_cases hu : c ≠ UVISIT
          · rw [if_pos hu]
            rcases ih up down false right with he | ⟨m, he, hl, _, hs⟩
            · exact Or.inl he
            · refine Or.inr ⟨m, he, by simp; omega, fun _ => by simp; omega, ?_⟩
              rcases hs with ⟨a, b, c', d, e, f, _, g⟩ | hs
              · refine Or.inl ⟨a, b, c', d, e, f, fun _ => Or.inr ?_, g⟩
                intro hh; exact hu (Option.some.inj hh)
              · exact Or.inr hs
          · rw [if_neg hu]
            have hu' : c = UVISIT := not_not.mp hu
            obtain ⟨m', hm'⟩ := wr_some_of_range hd (y := y) (x := x - 1) VISIT
              (by omega) hy (by omega) (by omega)
            simp only [hm']
            refine Or.inr ⟨_, rfl, by simp, fun _ => by simp, Or.inr ⟨rfl, ?_⟩⟩
            exact ⟨x - 2, y, x - 1, y, Or.inr ⟨rfl, rfl, Or.inl ⟨rfl, rfl⟩⟩, rfl, rfl,
              by omega, by omega, by omega, by omega, hu' ▸ hc, hm'⟩
      · -- RIGHT
        by_cases hb : x + 2 ≥ w
        · rw [if_pos hb]
          rcases ih up down left false with he | ⟨m, he, hl, _, hs⟩
          · exact Or.inl he
          · refine Or.inr ⟨m, he, by simp; omega, fun _ => by simp; omega, ?_⟩
            rcases hs with ⟨a, b, c, d, e, f, g, _⟩ | hs
            · exact Or.inl ⟨a, b, c, d, e, f, g, fun _ => Or.inl hb⟩
            · exact Or.inr hs
        · rw [if_neg hb]
          obtain ⟨c, hc⟩ := rd_some_of_range hd (y := y) (x := x + 2) (by omega) hy (by omega) (by omega)
          simp only [hc]
          by_cases hu : c ≠ UVISIT
          · rw [if_pos hu]
            rcases ih up down left false with he | ⟨m, he, hl, _, hs⟩
            · exact Or.inl he
            · refine Or.inr ⟨m, he, by simp; omega, fun _ => by simp; omega, ?_⟩
              rcases hs with ⟨a, b, c', d, e, f, g, _⟩ | hs
              · refine Or.inl ⟨a, b, c', d, e, f, g, fun _ => Or.inr ?_⟩
                intro hh; exact hu (Option.some.inj hh)
              · exact Or.inr hs
          · rw [if_neg hu]
            have hu' : c = UVISIT := not_not.mp hu
            obtain ⟨m', hm'⟩ := wr_some_of_range hd (y := y) (x := x + 1) VISIT
              (by omega) hy (by omega) (by omega)
            simp only [hm']
            refine Or.inr ⟨_, rfl, by simp, fun _ => by simp, Or.inr ⟨rfl, ?_⟩⟩
            exact ⟨x + 2, y, x + 1, y, Or.inr ⟨rfl, rfl, Or.inr ⟨rfl, rfl⟩⟩, rfl, rfl,
              by omega, by omega, by omega, by omega, hu' ▸ hc, hm'⟩
      · -- no case of the switch applies
        rcases ih up down left right with he | ⟨m, he, hl, _, hs⟩
        · exact Or.inl he
        · exact Or.inr ⟨m, he, by simp; omega, fun _ => by simp; omega, hs⟩
    · rename_i hf
      simp only [Bool.or_eq_true, not_or, Bool.not_eq_true] at hf
      obtain ⟨⟨⟨h1, h2⟩, h3⟩, h4⟩ := hf
      subst h1 h2 h3 h4
      exact Or.inr ⟨_, rfl, le_refl _, by simp, Or.inl ⟨rfl, rfl, rfl, rfl, by simp⟩⟩

/-! ## Cells, rooms and passages -/

theorem cell_wr {maze maze' : Maze} {y x v : Int} (hwr : wr maze y x v = some maze')
    (q : Int × Int) :
    cell maze' q = if q = (x, y) then some v else cell maze q := by
  unfold cell
  rw [rd_wr hwr]
  by_cases hq : q = (x, y)
  · subst hq; simp
  · have : ¬ (q.2 = y ∧ q.1 = x) := by
      rintro ⟨h1, h2⟩
      exact hq (Prod.ext h2 h1)
    simp [hq, this]

theorem cell_some_of_range {maze : Maze} {w h : Int} (hd : Dim maze w h) (p : Int × Int)
    (hx0 : 0 ≤ p.1) (hx : p.1 < w) (hy0 : 0 ≤ p.2) (hy : p.2 < h) : ∃ v, cell maze p = some v :=
  rd_some_of_range hd hy0 hy hx0 hx

theorem cell_range {maze : Maze} {w h : Int} (hd : Dim maze w h) {p : Int × Int} {v : Int}
    (hc : cell maze p = some v) : 0 ≤ p.1 ∧ p.1 < w ∧ 0 ≤ p.2 ∧ p.2 < h := by
  have := rd_range hd hc
  omega

theorem mem_interior {w h : Int} {p : Int × Int} : p ∈ interior w h ↔ Inner w h p := by
  simp only [interior, Finset.mem_product, Finset.mem_Icc, Inner]
  omega

theorem mem_rooms {w h : Int} {p : Int × Int} : p ∈ rooms w h ↔ Room w h p := by
  simp only [rooms, Finset.mem_filter, mem_interior, Room]

theorem mem_passages {maze : Maze} {w h : Int} {p : Int × Int} :
    p ∈ passages maze w h ↔ Passage w h p ∧ cell maze p = some VISIT := by
  simp only [passages, Finset.mem_filter, mem_interior, Passage]
  tauto

theorem mem_visitedRooms {maze : Maze} {w h : Int} {p : Int × Int} :
    p ∈ visitedRooms maze w h ↔ Room w h p ∧ cell maze p = some VISIT := by
  simp only [visitedRooms, Finset.mem_filter, mem_rooms]

/-- The odd numbers of `1 .. 2 k - 1` are `k` in number. -/
theorem card_odds (k : Nat) :
    ((Finset.Icc (1 : Int) (2 * k - 1)).filter fun x => x % 2 = 1).card = k := by
  have : (Finset.Icc (1 : Int) (2 * k - 1)).filter (fun x => x % 2 = 1)
      = (Finset.range k).image (fun i : Nat => 2 * (i : Int) + 1) := by
    ext x
    simp only [Finset.mem_filter, Finset.mem_Icc, Finset.mem_image, Finset.mem_range]
    constructor
    · rintro ⟨⟨h1, h2⟩, h3⟩
      exact ⟨(x / 2).toNat, by omega, by omega⟩
    · rintro ⟨i, hi, rfl⟩
      omega
  rw [this, Finset.card_image_of_injective, Finset.card_range]
  intro a b hab
  simp only at hab
  omega

theorem card_rooms (w h : Int) (hw : 3 ≤ w) (hh : 3 ≤ h) (hwo : w % 2 = 1) (hho : h % 2 = 1) :
    ((rooms w h).card : Int) = ((w - 1) / 2) * ((h - 1) / 2) := by
  have e : rooms w h = ((Finset.Icc (1 : Int) (w - 2)).filter fun x => x % 2 = 1) ×ˢ
      ((Finset.Icc (1 : Int) (h - 2)).filter fun x => x % 2 = 1) := by
    ext p
    simp only [rooms, interior, Finset.mem_filter, Finset.mem_product]
    tauto
  have ew : w - 2 = 2 * (((w - 1) / 2).toNat : Int) - 1 := by omega
  have eh : h - 2 = 2 * (((h - 1) / 2).toNat : Int) - 1 := by omega
  rw [e, Finset.card_product, ew, eh, card_odds, card_odds]
  push_cast
  have h1 : (((w - 1) / 2).toNat : Int) = (w - 1) / 2 := by omega
  have h2 : (((h - 1) / 2).toNat : Int) = (h - 1) / 2 := by omega
  rw [h1, h2]

/-! ## Cycles -/

/-- In a closed chain over at least three distinct points every point has two
different neighbours. -/
theorem cycle_two_neighbours {α : Type} (R : α → α → Prop) (a : α) (l : List α)
    (hlen : 2 ≤ l.length) (hnd : (a :: l).Nodup) (hch : List.Chain R a (l ++ [a]))
    (v : α) (hv : v ∈ a :: l) : ∃ p n, p ≠ n ∧ R p v ∧ R v n := by
  rcases List.mem_cons.mp hv with rfl | hv
  · -- the point is the base point: its neighbours are the two ends of `l`
    match l, hlen, hnd, hch with
    | b :: l', hlen, hnd, hch =>
      rcases List.eq_nil_or_concat l' with rfl | ⟨l'', z, rfl⟩
      · simp at hlen
      · refine ⟨z, b, ?_, ?_, ?_⟩
        · intro hzb
          subst hzb
          simp at hnd
        · have : List.Chain R v ((b :: l'') ++ z :: v :: []) := by
            simpa using hch
          exact (List.chain_append_cons_cons.mp this).2.1
        · exact (List.chain_cons.mp hch).1
  · obtain ⟨l1, l2, rfl⟩ := List.append_of_mem hv
    have hnd' : (a :: l1 ++ v :: l2).Nodup := by simpa using hnd
    rcases List.eq_nil_or_concat l1 with rfl | ⟨l1', p, rfl⟩
    · -- predecessor is the base point
      rcases l2 with _ | ⟨n, l2'⟩
      · simp at hlen
      · refine ⟨a, n, ?_, ?_, ?_⟩
        · intro han
          subst han
          simp at hnd
        · have : R a v ∧ R v n ∧ List.Chain R n (l2' ++ [a]) := by simpa using hch
          exact this.1
        · have : R a v ∧ R v n ∧ List.Chain R n (l2' ++ [a]) := by simpa using hch
          exact this.2.1
    · have hpv : R p v := by
        have : List.Chain R a (l1' ++ p :: v :: (l2 ++ [a])) := by simpa using hch
        exact (List.chain_append_cons_cons.mp this).2.1
      rcases l2 with _ | ⟨n, l2'⟩
      · refine ⟨p, a, ?_, hpv, ?_⟩
        · intro hpa
          subst hpa
          simp at hnd
        · have : List.Chain R a ((l1' ++ [p]) ++ v :: a :: []) := by simpa using hch
          exact (List.chain_append_cons_cons.mp this).2.1
      · refine ⟨p, n, ?_, hpv, ?_⟩
        · intro hpn
          subst hpn
          simp [List.nodup_append] at hnd
        · have : List.Chain R a ((l1' ++ [p]) ++ v :: n :: (l2' ++ [a])) := by simpa using hch
          exact (List.chain_append_cons_cons.mp this).2.1

/-! ## The invariant of `generate` -/

theorem linked_symm {maze : Maze} {w h : Int} {p q : Int × Int} (hl : Linked maze w h p q) :
    Linked maze w h q p := by
  obtain ⟨hp, hq, ha, hc⟩ := hl
  refine ⟨hq, hp, ?_, ?_⟩
  · simp only [Adj2] at ha ⊢; omega
  · have : mid q p = mid p q := by
      simp only [mid, Prod.mk.injEq]; constructor <;> congr 1 <;> omega
    rw [this]; exact hc

/-- A forward move keeps the invariant: the wall cell `(mx, my)` between the
current cell `(x, y)` and the unvisited room `(tx, ty)` is carved and the walk
stands on `(tx, ty)`. -/
theorem genInv_forward {w h : Int} (hwo : w % 2 = 1) (hho : h % 2 = 1)
    {E E1 E' : Maze} {x y tx ty mx my : Int} {st : Stack}
    (hinv : GenInv w h E (x, y) st)
    (hg : (tx = x ∧ mx = x ∧ ((ty = y - 2 ∧ my = y - 1) ∨ (ty = y + 2 ∧ my = y + 1))) ∨
          (ty = y ∧ my = y ∧ ((tx = x - 2 ∧ mx = x - 1) ∨ (tx = x + 2 ∧ mx = x + 1))))
    (htx0 : 0 < tx) (htx : tx < w) (hty0 : 0 < ty) (hty : ty < h)
    (hU : rd E ty tx = some UVISIT)
    (h1 : wr E my mx VISIT = some E1) (h2 : wr E1 ty tx VISIT = some E') :
    GenInv w h E' (tx, ty) ((x, y) :: st) := by
  have hcur : Room w h (x, y) := hinv.room _ (List.mem_cons_self _ _)
  have hcurv : cell E (x, y) = some VISIT := hinv.vis _ (List.mem_cons_self _ _)
  have hxo : x % 2 = 1 := hcur.2.1
  have hyo : y % 2 = 1 := hcur.2.2
  have hci : Inner w h (x, y) := hcur.1
  simp only [Inner] at hci
  have hUc : cell E (tx, ty) = some UVISIT := hU
  have ht : Room w h (tx, ty) := by
    simp only [Room, Inner]; omega
  have hm : Passage w h (mx, my) := by
    simp only [Passage, Inner]; omega
  have hcell : ∀ q, cell E' q =
      if q = (tx, ty) then some VISIT else if q = (mx, my) then some VISIT else cell E q := by
    intro q
    rw [cell_wr h2, cell_wr h1]
  have hmono : ∀ q, cell E q = some VISIT → cell E' q = some VISIT := by
    intro q hq
    rw [hcell]; split_ifs <;> simp [hq]
  have hsame : ∀ q, q ≠ (tx, ty) → q ≠ (mx, my) → cell E' q = cell E q := by
    intro q hq1 hq2
    rw [hcell, if_neg hq1, if_neg hq2]
  have hEt : cell E' (tx, ty) = some VISIT := by rw [hcell]; simp
  have hEm : cell E' (mx, my) = some VISIT := by rw [hcell]; simp
  have hroom_ne_m : ∀ p, Room w h p → p ≠ (mx, my) := by
    rintro ⟨px, py⟩ hp heq
    simp only [Prod.mk.injEq] at heq
    simp only [Room, Inner] at hp
    omega
  have hpass_ne_t : ∀ p, Passage w h p → p ≠ (tx, ty) := by
    rintro ⟨px, py⟩ hp heq
    simp only [Prod.mk.injEq] at heq
    simp only [Passage, Inner] at hp
    omega
  have hmfresh : cell E (mx, my) ≠ some VISIT := by
    apply hinv.fresh (tx, ty) (mx, my) ht hUc
    simp only [Adj]; omega
  have htnotin : (tx, ty) ∉ (x, y) :: st := by
    intro hmem
    have := hinv.vis _ hmem
    rw [hUc] at this
    exact absurd this (by decide)
  -- links of the new cells
  have hL1 : ∀ q, Linked E' w h (tx, ty) q → q = (x, y) := by
    rintro ⟨qx, qy⟩ ⟨_, hq, ha, hc⟩
    by_cases hmq : mid (tx, ty) (qx, qy) = (mx, my)
    · simp only [mid, Prod.mk.injEq] at hmq
      simp only [Adj2] at ha
      simp only [Prod.mk.injEq]
      omega
    · exfalso
      have hne : mid (tx, ty) (qx, qy) ≠ (tx, ty) := by
        simp only [mid, ne_eq, Prod.mk.injEq]
        simp only [Adj2] at ha
        omega
      rw [hsame _ hne hmq] at hc
      refine hinv.fresh (tx, ty) _ ht hUc ?_ hc
      simp only [Adj, mid]
      simp only [Adj2] at ha
      omega
  have hL2 : ∀ p q, Linked E' w h p q → p ≠ (tx, ty) → q ≠ (tx, ty) → Linked E w h p q := by
    rintro ⟨px, py⟩ ⟨qx, qy⟩ ⟨hp, hq, ha, hc⟩ hpt hqt
    refine ⟨hp, hq, ha, ?_⟩
    have hne : mid (px, py) (qx, qy) ≠ (tx, ty) := by
      simp only [mid, ne_eq, Prod.mk.injEq]
      simp only [Adj2] at ha
      simp only [Room, Inner] at hp hq ht
      omega
    have hnm : mid (px, py) (qx, qy) ≠ (mx, my) := by
      simp only [mid, ne_eq, Prod.mk.injEq]
      simp only [ne_eq, Prod.mk.injEq] at hpt hqt
      simp only [Adj2] at ha
      simp only [Room, Inner] at hp hq ht
      omega
    rw [hsame _ hne hnm] at hc
    exact hc
  refine
    { dim := wr_dim (wr_dim hinv.dim h1) h2
      room := ?_, vis := ?_, nodup := ?_, chain := ?_, last := ?_, typ_room := ?_,
      typ_pass := ?_, typ_else := ?_, fresh := ?_, count := ?_, acyc := ?_, conn := ?_,
      black := ?_ }
  · -- room
    intro p hp
    rcases List.mem_cons.mp hp with rfl | hp
    · exact ht
    · exact hinv.room p hp
  · -- vis
    intro p hp
    rcases List.mem_cons.mp hp with rfl | hp
    · exact hEt
    · exact hmono p (hinv.vis p hp)
  · -- nodup
    exact List.nodup_cons.mpr ⟨htnotin, hinv.nodup⟩
  · -- chain
    refine List.Chain'.cons ?_ hinv.chain
    simp only [Adj2]; omega
  · -- last
    have := hinv.last
    simpa [List.getLast?_cons_cons] using this
  · -- typ_room
    intro p hp
    by_cases hpt : p = (tx, ty)
    · right; rw [hpt]; exact hEt
    · rw [hsame p hpt (hroom_ne_m p hp)]; exact hinv.typ_room p hp
  · -- typ_pass
    intro p hp
    by_cases hpm : p = (mx, my)
    · right; rw [hpm]; exact hEm
    · rw [hsame p (hpass_ne_t p hp) hpm]; exact hinv.typ_pass p hp
  · -- typ_else
    intro p a b c d hnr hnp
    have hpt : p ≠ (tx, ty) := fun e => hnr (e ▸ ht)
    have hpm : p ≠ (mx, my) := fun e => hnp (e ▸ hm)
    rw [hsame p hpt hpm]; exact hinv.typ_else p a b c d hnr hnp
  · -- fresh
    intro p q hp hpu hadj
    have hpt : p ≠ (tx, ty) := by
      intro e; rw [e, hEt] at hpu; exact absurd hpu (by decide)
    have hpu' : cell E p = some UVISIT := by rw [← hsame p hpt (hroom_ne_m p hp)]; exact hpu
    have hpc : p ≠ (x, y) := by
      intro e; rw [e, hcurv] at hpu'; exact absurd hpu' (by decide)
    have hqt : q ≠ (tx, ty) := by
      obtain ⟨px, py⟩ := p
      obtain ⟨qx, qy⟩ := q
      simp only [ne_eq, Prod.mk.injEq]
      simp only [Adj] at hadj
      simp only [Room, Inner] at hp ht
      omega
    have hqm : q ≠ (mx, my) := by
      obtain ⟨px, py⟩ := p
      obtain ⟨qx, qy⟩ := q
      simp only [ne_eq, Prod.mk.injEq] at hpt hpc ⊢
      simp only [Adj] at hadj
      simp only [Room, Inner] at hp ht
      omega
    rw [hsame q hqt hqm]
    exact hinv.fresh p q hp hpu' hadj
  · -- count
    have e1 : passages E' w h = insert (mx, my) (passages E w h) := by
      ext q
      simp only [mem_passages, Finset.mem_insert]
      constructor
      · rintro ⟨hq, hv⟩
        by_cases hqm : q = (mx, my)
        · exact Or.inl hqm
        · right
          rw [hsame q (hpass_ne_t q hq) hqm] at hv
          exact ⟨hq, hv⟩
      · rintro (rfl | ⟨hq, hv⟩)
        · exact ⟨hm, hEm⟩
        · exact ⟨hq, hmono q hv⟩
    have e2 : visitedRooms E' w h = insert (tx, ty) (visitedRooms E w h) := by
      ext q
      simp only [mem_visitedRooms, Finset.mem_insert]
      constructor
      · rintro ⟨hq, hv⟩
        by_cases hqt : q = (tx, ty)
        · exact Or.inl hqt
        · right
          rw [hsame q hqt (hroom_ne_m q hq)] at hv
          exact ⟨hq, hv⟩
      · rintro (rfl | ⟨hq, hv⟩)
        · exact ⟨ht, hEt⟩
        · exact ⟨hq, hmono q hv⟩
    have n1 : (mx, my) ∉ passages E w h := by
      simp only [mem_passages, not_and]
      intro _; exact hmfresh
    have n2 : (tx, ty) ∉ visitedRooms E w h := by
      simp only [mem_visitedRooms, not_and]
      intro _; rw [hUc]; decide
    have := hinv.count
    simp only [passageCount] at this ⊢
    rw [e1, e2, Finset.card_insert_of_not_mem n1, Finset.card_insert_of_not_mem n2]
    omega
  · -- acyc
    rintro a l ⟨hlen, hnd, hch⟩
    by_cases htm : (tx, ty) ∈ a :: l
    · obtain ⟨p, n, hpn, hp, hn⟩ := cycle_two_neighbours _ a l hlen hnd hch _ htm
      exact hpn ((hL1 p (linked_symm hp)).trans (hL1 n hn).symm)
    · apply hinv.acyc a l
      refine ⟨hlen, hnd, ?_⟩
      rw [List.Chain.iff_mem] at hch
      refine hch.imp ?_
      rintro p q ⟨hp, hq, hl⟩
      have hq' : q ∈ a :: l := by
        simp only [List.mem_append, List.mem_singleton] at hq
        rcases hq with hq | rfl
        · exact List.mem_cons_of_mem _ hq
        · exact List.mem_cons_self _ _
      have hp' : p ∈ a :: l := by
        simp only [List.mem_cons, List.mem_append, List.mem_singleton] at hp ⊢
        tauto
      exact hL2 p q hl (fun e => htm (e ▸ hp')) (fun e => htm (e ▸ hq'))
  · -- conn
    have hjm : ∀ p, Joined E VISIT (w - 2, h - 2) p → Joined E' VISIT (w - 2, h - 2) p := by
      intro p hj
      refine Relation.ReflTransGen.mono ?_ hj
      rintro a b ⟨hab, ha, hb⟩
      exact ⟨hab, hmono a ha, hmono b hb⟩
    intro p hp hv
    by_cases hpt : p = (tx, ty)
    · subst hpt
      have hc := hjm _ (hinv.conn _ hcur hcurv)
      have s1 : StepIn E' VISIT (x, y) (mx, my) :=
        ⟨by simp only [Adj]; omega, hmono _ hcurv, hEm⟩
      have s2 : StepIn E' VISIT (mx, my) (tx, ty) :=
        ⟨by simp only [Adj]; omega, hEm, hEt⟩
      exact (hc.tail s1).tail s2
    · rw [hsame p hpt (hroom_ne_m p hp)] at hv
      exact hjm p (hinv.conn p hp hv)
  · -- black
    intro p q hp hv hnot hq hadj
    have hpt : p ≠ (tx, ty) := fun e => hnot (e ▸ List.mem_cons_self _ _)
    rw [hsame p hpt (hroom_ne_m p hp)] at hv
    exact hmono q (hinv.black p q hp hv (fun hmem => hnot (List.mem_cons_of_mem _ hmem)) hq hadj)


/-! ## Every room is reached -/

/-- Downward induction in steps of two. -/
theorem down_by_two (Q : Int → Prop) (a : Int) (ha : Q a)
    (hstep : ∀ x, x ≤ a → 3 ≤ x → x % 2 = a % 2 → Q x → Q (x - 2)) :
    ∀ x, 1 ≤ x → x ≤ a → x % 2 = a % 2 → Q x := by
  have key : ∀ k : Nat, 1 ≤ a - 2 * (k : Int) → Q (a - 2 * (k : Int)) := by
    intro k
    induction k with
    | zero => intro _; simpa using ha
    | succ k ih =>
      intro hk
      have := hstep (a - 2 * (k : Int)) (by omega) (by omega) (by omega) (ih (by omega))
      have e : a - 2 * ((k + 1 : Nat) : Int) = a - 2 * (k : Int) - 2 := by push_cast; ring
      rw [e]; exact this
  intro x hx1 hxa hpar
  have e : x = a - 2 * (((a - x) / 2).toNat : Int) := by omega
  rw [e]
  exact key _ (by omega)

/-- The sweep behind the termination test of `generate`, for a first move to
the left: the rooms are the odd points of `1 .. X` × `1 .. Y`, the walk started
in `(X, Y)`, moved to `(X - 2, Y)` and from there to a third room; if every
visited room other than the first two has only visited neighbours, then every
room is visited. -/
theorem sweep_left (X Y : Int) (hX : X % 2 = 1) (hY : Y % 2 = 1) (hX3 : 3 ≤ X) (hY1 : 1 ≤ Y)
    (P : Int → Int → Prop) (h0 : P X Y) (h1 : P (X - 2) Y)
    (h2 : (5 ≤ X ∧ P (X - 4) Y) ∨ (3 ≤ Y ∧ P (X - 2) (Y - 2)))
    (hcl : ∀ x y x' y' : Int, 1 ≤ x → x ≤ X → 1 ≤ y → y ≤ Y → x % 2 = 1 → y % 2 = 1 →
      1 ≤ x' → x' ≤ X → 1 ≤ y' → y' ≤ Y → P x y → ¬ (y = Y ∧ X - 2 ≤ x) →
      ((x' = x ∧ (y' = y - 2 ∨ y' = y + 2)) ∨ (y' = y ∧ (x' = x - 2 ∨ x' = x + 2))) → P x' y') :
    ∀ x y : Int, 1 ≤ x → x ≤ X → 1 ≤ y → y ≤ Y → x % 2 = 1 → y % 2 = 1 → P x y := by
  by_cases hY3 : 3 ≤ Y
  · -- the room above the second one
    have ha : P (X - 2) (Y - 2) := by
      rcases h2 with ⟨h5, h4⟩ | ⟨_, h⟩
      · have s1 : P (X - 4) (Y - 2) :=
          hcl (X - 4) Y (X - 4) (Y - 2) (by omega) (by omega) (by omega) (by omega) (by omega)
            (by omega) (by omega) (by omega) (by omega) (by omega) h4 (by omega) (by omega)
        exact hcl (X - 4) (Y - 2) (X - 2) (Y - 2) (by omega) (by omega) (by omega) (by omega)
          (by omega) (by omega) (by omega) (by omega) (by omega) (by omega) s1 (by omega)
          (by omega)
      · exact h
    -- the row above the bottom row
    have hb : P X (Y - 2) :=
      hcl (X - 2) (Y - 2) X (Y - 2) (by omega) (by omega) (by omega) (by omega) (by omega)
        (by omega) (by omega) (by omega) (by omega) (by omega) ha (by omega) (by omega)
    have hrow : ∀ x, 1 ≤ x → x ≤ X → x % 2 = 1 → P x (Y - 2) := by
      intro x hx1 hxX hxo
      refine down_by_two (fun x => P x (Y - 2)) X hb ?_ x hx1 hxX (by omega)
      intro x' hx'a hx'3 hx'o hP
      exact hcl x' (Y - 2) (x' - 2) (Y - 2) (by omega) (by omega) (by omega) (by omega) (by omega)
        (by omega) (by omega) (by omega) (by omega) (by omega) hP (by omega) (by omega)
    -- every row above
    have hup : ∀ x y, 1 ≤ x → x ≤ X → x % 2 = 1 → 1 ≤ y → y ≤ Y - 2 → y % 2 = 1 → P x y := by
      intro x y hx1 hxX hxo hy1 hyY hyo
      refine down_by_two (fun y => P x y) (Y - 2) (hrow x hx1 hxX hxo) ?_ y hy1 hyY (by omega)
      intro y' hy'a hy'3 hy'o hP
      exact hcl x y' x (y' - 2) (by omega) (by omega) (by omega) (by omega) (by omega)
        (by omega) (by omega) (by omega) (by omega) (by omega) hP (by omega) (by omega)
    intro x y hx1 hxX hy1 hyY hxo hyo
    by_cases hy : y ≤ Y - 2
    · exact hup x y hx1 hxX hxo hy1 hy hyo
    · have hyY' : y = Y := by omega
      subst hyY'
      by_cases hx : X - 2 ≤ x
      · have : x = X ∨ x = X - 2 := by omega
        rcases this with rfl | rfl
        · exact h0
        · exact h1
      · exact hcl x (y - 2) x y (by omega) (by omega) (by omega) (by omega) (by omega)
          (by omega) (by omega) (by omega) (by omega) (by omega)
          (hrow x hx1 hxX hxo) (by omega) (by omega)
  · -- a single row
    have hY' : Y = 1 := by omega
    subst hY'
    rcases h2 with ⟨h5, h4⟩ | ⟨h3, _⟩
    · intro x y hx1 hxX hy1 hyY hxo hyo
      have hy : y = 1 := by omega
      subst hy
      by_cases hx : X - 2 ≤ x
      · have : x = X ∨ x = X - 2 := by omega
        rcases this with rfl | rfl
        · exact h0
        · exact h1
      · refine down_by_two (fun x => P x 1) (X - 4) h4 ?_ x hx1 (by omega) (by omega)
        intro x' hx'a hx'3 hx'o hP
        exact hcl x' 1 (x' - 2) 1 (by omega) (by omega) (by omega) (by omega) (by omega)
          (by omega) (by omega) (by omega) (by omega) (by omega) hP (by omega) (by omega)
    · omega

/-- Backtracking keeps the invariant: the current cell has no unvisited
neighbour and the walk returns to the top of the stack. -/
theorem genInv_backtrack {w h : Int} {E : Maze} {x y : Int} {s1 : Int × Int} {st : Stack}
    (hinv : GenInv w h E (x, y) (s1 :: st)) (hstuck : Stuck E x y w h) :
    GenInv w h E s1 st := by
  refine
    { dim := hinv.dim
      room := fun p hp => hinv.room p (List.mem_cons_of_mem _ hp)
      vis := fun p hp => hinv.vis p (List.mem_cons_of_mem _ hp)
      nodup := (List.nodup_cons.mp hinv.nodup).2
      chain := hinv.chain.tail
      last := ?_
      typ_room := hinv.typ_room
      typ_pass := hinv.typ_pass
      typ_else := hinv.typ_else
      fresh := hinv.fresh
      count := hinv.count
      acyc := hinv.acyc
      conn := hinv.conn
      black := ?_ }
  · have := hinv.last
    simpa [List.getLast?_cons_cons] using this
  · intro p q hp hv hnot hq hadj
    by_cases hpc : p = (x, y)
    · subst hpc
      obtain ⟨qx, qy⟩ := q
      obtain ⟨s_up, s_down, s_left, s_right⟩ := hstuck
      have hqi := hq.1
      simp only [Inner] at hqi
      simp only [Adj2] at hadj
      have hne : cell E (qx, qy) ≠ some UVISIT := by
        simp only [cell]
        rcases hadj with ⟨e1, e2 | e2⟩ | ⟨e1, e2 | e2⟩
        · subst e1 e2
          rcases s_up with hb | hb
          · omega
          · exact hb
        · subst e1 e2
          rcases s_down with hb | hb
          · omega
          · exact hb
        · subst e1 e2
          rcases s_left with hb | hb
          · omega
          · exact hb
        · subst e1 e2
          rcases s_right with hb | hb
          · omega
          · exact hb
      rcases hinv.typ_room _ hq with hu | hv'
      · exact absurd hu hne
      · exact hv'
    · apply hinv.black p q hp hv ?_ hq hadj
      intro hmem
      rcases List.mem_cons.mp hmem with e | hmem'
      · exact hpc e
      · exact hnot hmem'

/-- When the walk has backtracked to the second cell of its path, every room
has been visited. -/
theorem genInv_all_visited {w h : Int} (hw : 3 ≤ w) (hh : 3 ≤ h) (hwo : w % 2 = 1)
    (hho : h % 2 = 1) {E : Maze} {c0 c1 c2 : Int × Int}
    (hinv : GenInv w h E c1 [c0]) (hc2 : Room w h c2) (hv2 : cell E c2 = some VISIT)
    (ha : Adj2 c2 c1) (hne : c2 ≠ c0) :
    ∀ p, Room w h p → cell E p = some VISIT := by
  have hc0 : c0 = (w - 2, h - 2) := by
    have := hinv.last
    simpa using this
  subst hc0
  have hr1 : Room w h c1 := hinv.room _ (List.mem_cons_self _ _)
  have hv1 : cell E c1 = some VISIT := hinv.vis _ (List.mem_cons_self _ _)
  have hv0 : cell E (w - 2, h - 2) = some VISIT := hinv.vis _ (by simp)
  have ha1 : Adj2 c1 (w - 2, h - 2) := by
    have := hinv.chain
    simpa [List.chain'_cons] using this
  obtain ⟨c1x, c1y⟩ := c1
  obtain ⟨c2x, c2y⟩ := c2
  simp only [Adj2] at ha ha1
  simp only [ne_eq, Prod.mk.injEq] at hne
  have hr1' := hr1
  have hc2' := hc2
  simp only [Room, Inner] at hr1' hc2'
  have hcl : ∀ p q, Room w h p → cell E p = some VISIT → p ≠ (c1x, c1y) → p ≠ (w - 2, h - 2) →
      Room w h q → Adj2 p q → cell E q = some VISIT := by
    intro p q hp hv hp1 hp0 hq hadj
    apply hinv.black p q hp hv ?_ hq hadj
    simp only [List.mem_cons, List.mem_singleton, List.not_mem_nil, or_false, not_or]
    exact ⟨hp1, hp0⟩
  rintro ⟨px, py⟩ hp
  have hp' := hp
  simp only [Room, Inner] at hp'
  by_cases hleft : c1y = h - 2
  · -- first move to the left
    have e1 : c1x = w - 2 - 2 := by omega
    subst hleft e1
    refine sweep_left (w - 2) (h - 2) (by omega) (by omega) (by omega) (by omega)
      (fun a b => cell E (a, b) = some VISIT) hv0 hv1 ?_ ?_ px py
      (by omega) (by omega) (by omega) (by omega) (by omega) (by omega)
    · by_cases hc : c2y = h - 2
      · left
        have : c2x = w - 2 - 4 := by omega
        subst hc this
        exact ⟨by omega, hv2⟩
      · right
        have e1 : c2x = w - 2 - 2 := by omega
        have e2 : c2y = h - 2 - 2 := by omega
        subst e1 e2
        exact ⟨by omega, hv2⟩
    · intro x y x' y' a1 a2 a3 a4 a5 a6 b1 b2 b3 b4 hP hnot hadj
      have hpar : x' % 2 = 1 ∧ y' % 2 = 1 := by omega
      refine hcl (x, y) (x', y') ?_ hP ?_ ?_ ?_ ?_
      · simp only [Room, Inner]; omega
      · simp only [ne_eq, Prod.mk.injEq]; omega
      · simp only [ne_eq, Prod.mk.injEq]; omega
      · simp only [Room, Inner]; omega
      · simp only [Adj2]; omega
  · -- first move upwards
    have e1 : c1x = w - 2 := by omega
    have e2 : c1y = h - 2 - 2 := by omega
    subst e1 e2
    refine sweep_left (h - 2) (w - 2) (by omega) (by omega) (by omega) (by omega)
      (fun b a => cell E (a, b) = some VISIT) hv0 hv1 ?_ ?_ py px
      (by omega) (by omega) (by omega) (by omega) (by omega) (by omega)
    · by_cases hc : c2x = w - 2
      · left
        have : c2y = h - 2 - 4 := by omega
        subst hc this
        exact ⟨by omega, hv2⟩
      · right
        have e1 : c2x = w - 2 - 2 := by omega
        have e2 : c2y = h - 2 - 2 := by omega
        subst e1 e2
        exact ⟨by omega, hv2⟩
    · intro y x y' x' a1 a2 a3 a4 a5 a6 b1 b2 b3 b4 hP hnot hadj
      have hpar : x' % 2 = 1 ∧ y' % 2 = 1 := by omega
      refine hcl (x, y) (x', y') ?_ hP ?_ ?_ ?_ ?_
      · simp only [Room, Inner]; omega
      · simp only [ne_eq, Prod.mk.injEq]; omega
      · simp only [ne_eq, Prod.mk.injEq]; omega
      · simp only [Room, Inner]; omega
      · simp only [Adj2]; omega

/-- The invariant holds when the loop of `generate` is entered on the cells
built by `init`. -/
theorem genInv_init {w h : Int} (hw : 3 ≤ w) (hh : 3 ≤ h) (hwo : w % 2 = 1) (hho : h % 2 = 1)
    {mallocs : List Bool} {maze E : Maze} (hinit : init w h mallocs = some maze)
    (hE : wr maze (h - 2) (w - 2) VISIT = some E) :
    GenInv w h E (w - 2, h - 2) [] := by
  have hd : Dim maze w h := init_dim w h (by omega) (by omega) mallocs maze hinit
  have hstart : Room w h (w - 2, h - 2) := by simp only [Room, Inner]; omega
  have hcell : ∀ q, cell E q = if q = (w - 2, h - 2) then some VISIT else cell maze q :=
    fun q => cell_wr hE q
  have hinitc : ∀ q : Int × Int, 0 ≤ q.1 → q.1 < w → 0 ≤ q.2 → q.2 < h →
      cell maze q = some (if q.2 % 2 = 0 ∨ q.1 % 2 = 0 then WALL else UVISIT) :=
    fun q a b c d => init_rd w h mallocs maze hinit q.1 q.2 a b c d
  have hnov : ∀ q, cell maze q ≠ some VISIT := by
    intro q hq
    obtain ⟨a, b, c, d⟩ := cell_range hd hq
    rw [hinitc q a b c d] at hq
    split_ifs at hq <;> exact absurd hq (by decide)
  have honly : ∀ q, cell E q = some VISIT → q = (w - 2, h - 2) := by
    intro q hq
    by_contra hne
    rw [hcell, if_neg hne] at hq
    exact hnov q hq
  have hEs : cell E (w - 2, h - 2) = some VISIT := by rw [hcell]; simp
  have hnolink : ∀ p q, ¬ Linked E w h p q := by
    rintro ⟨px, py⟩ ⟨qx, qy⟩ ⟨hp, hq, ha, hc⟩
    have := honly _ hc
    simp only [mid, Prod.mk.injEq] at this
    simp only [Adj2] at ha
    simp only [Room, Inner] at hp hq
    omega
  refine
    { dim := wr_dim hd hE
      room := ?_, vis := ?_, nodup := by simp, chain := by simp, last := by simp
      typ_room := ?_, typ_pass := ?_, typ_else := ?_, fresh := ?_, count := ?_, acyc := ?_
      conn := ?_, black := ?_ }
  · intro p hp
    simp only [List.mem_singleton] at hp
    subst hp; exact hstart
  · intro p hp
    simp only [List.mem_singleton] at hp
    subst hp; exact hEs
  · intro p hp
    by_cases hps : p = (w - 2, h - 2)
    · right; rw [hps]; exact hEs
    · left
      have hp' := hp
      simp only [Room, Inner] at hp'
      rw [hcell, if_neg hps, hinitc p (by omega) (by omega) (by omega) (by omega)]
      rw [if_neg (by omega)]
  · intro p hp
    left
    have hp' := hp
    simp only [Passage, Inner] at hp'
    have hps : p ≠ (w - 2, h - 2) := by
      intro e; rw [e] at hp'; simp only at hp'; omega
    rw [hcell, if_neg hps, hinitc p (by omega) (by omega) (by omega) (by omega)]
    rw [if_pos (by omega)]
  · intro p a b c d hnr hnp
    have hps : p ≠ (w - 2, h - 2) := fun e => hnr (e ▸ hstart)
    rw [hcell, if_neg hps, hinitc p a b c d]
    simp only [Room, Passage, Inner] at hnr hnp
    rw [if_pos (by omega)]
  · intro p q hp _ hadj hq
    have := honly q hq
    subst this
    simp only [Adj] at hadj
    simp only [Room, Inner] at hp
    omega
  · have e1 : passages E w h = ∅ := by
      ext q
      simp only [mem_passages, Finset.not_mem_empty, iff_false, not_and]
      intro hq hv
      have := honly q hv
      subst this
      simp only [Passage, Inner] at hq
      omega
    have e2 : visitedRooms E w h = {(w - 2, h - 2)} := by
      ext q
      simp only [mem_visitedRooms, Finset.mem_singleton]
      constructor
      · rintro ⟨_, hv⟩; exact honly q hv
      · rintro rfl; exact ⟨hstart, hEs⟩
    simp [passageCount, e1, e2]
  · rintro a l ⟨hlen, _, hch⟩
    match l, hlen, hch with
    | b :: l', _, hch =>
      exact hnolink a b (List.chain_cons.mp hch).1
  · intro p _ hv
    rw [honly p hv]
    exact Relation.ReflTransGen.refl
  · intro p q _ hv hnot
    exact absurd (honly p hv) (by simpa using hnot)

/-- Opening the doorways after the walk has visited every room yields a
generated maze. -/
theorem generated_of_inv {w h : Int} (hw : 3 ≤ w) (hh : 3 ≤ h) (hwo : w % 2 = 1)
    (hho : h % 2 = 1) {E M1 M : Maze} {cur : Int × Int} {st : Stack}
    (hinv : GenInv w h E cur st) (hall : ∀ p, Room w h p → cell E p = some VISIT)
    (hbig : 3 < w ∨ 3 < h) (h1 : wr E 1 0 VISIT = some M1) (h2 : wr M1 (h - 2) (w - 1) VISIT = some M) :
    Generated w h M := by
  have hcell : ∀ q, cell M q =
      if q = (w - 1, h - 2) then some VISIT else if q = (0, 1) then some VISIT else cell E q := by
    intro q
    rw [cell_wr h2, cell_wr h1]
  have hmono : ∀ q, cell E q = some VISIT → cell M q = some VISIT := by
    intro q hq
    rw [hcell]; split_ifs <;> simp [hq]
  have hsame : ∀ q, Inner w h q → cell M q = cell E q := by
    rintro ⟨qx, qy⟩ hq
    simp only [Inner] at hq
    rw [hcell, if_neg (by simp only [Prod.mk.injEq]; omega),
      if_neg (by simp only [Prod.mk.injEq]; omega)]
  have hpe : passages M w h = passages E w h := by
    ext q
    simp only [mem_passages]
    constructor
    · rintro ⟨hq, hv⟩; exact ⟨hq, by rw [← hsame q hq.1]; exact hv⟩
    · rintro ⟨hq, hv⟩; exact ⟨hq, by rw [hsame q hq.1]; exact hv⟩
  have hve : visitedRooms E w h = rooms w h := by
    ext q
    simp only [mem_visitedRooms, mem_rooms]
    exact ⟨fun hq => hq.1, fun hq => ⟨hq, hall q hq⟩⟩
  refine
    { big := hbig
      dim := wr_dim (wr_dim hinv.dim h1) h2
      rooms := fun p hp => hmono p (hall p hp)
      pass := ?_, entrance := ?_, exit := ?_, walls := ?_, count := ?_, acyc := ?_
      conn := ?_ }
  · intro p hp
    rw [hsame p hp.1]; exact hinv.typ_pass p hp
  · rw [hcell]; simp
  · rw [hcell]; simp
  · intro p a b c d hnr hnp e1 e2
    rw [hcell, if_neg e2, if_neg e1]
    exact hinv.typ_else p a b c d hnr hnp
  · have hc := hinv.count
    have hr := card_rooms w h hw hh hwo hho
    simp only [passageCount] at hc ⊢
    rw [hpe, ← hr, ← hve]
    exact_mod_cast hc
  · rintro a l ⟨hlen, hnd, hch⟩
    apply hinv.acyc a l
    refine ⟨hlen, hnd, hch.imp ?_⟩
    rintro ⟨px, py⟩ ⟨qx, qy⟩ ⟨hp, hq, ha, hc⟩
    refine ⟨hp, hq, ha, ?_⟩
    rw [← hsame]
    · exact hc
    · simp only [mid, Inner]
      simp only [Adj2] at ha
      simp only [Room, Inner] at hp hq
      omega
  · intro p hp
    have hin : ∀ a, cell E a = some VISIT → Inner w h a := by
      intro a ha
      by_contra hni
      obtain ⟨r1, r2, r3, r4⟩ := cell_range hinv.dim ha
      have := hinv.typ_else a r1 r2 r3 r4 (fun hr => hni hr.1) (fun hr => hni hr.1)
      rw [ha] at this
      exact absurd this (by decide)
    refine Relation.ReflTransGen.mono ?_ (hinv.conn p hp (hall p hp))
    rintro a b ⟨hab, ha, hb⟩
    exact ⟨hin a ha, hin b hb, hab, hmono a ha, hmono b hb⟩

/-! ## One round of `generate` -/

theorem generate_body_spec {w h : Int} (hw : 3 ≤ w) (hh : 3 ≤ h) (hwo : w % 2 = 1)
    (hho : h % 2 = 1) {s : Walk} (hok : GenOK w h s) :
    generate_body w h s = .error .noDraws ∨
    generate_body w h s = .error .nullDeref ∨
    (∃ s', generate_body w h s = .ok (.next s') ∧ GenOK w h s' ∧
      s'.draws.length < s.draws.length ∧
      (s'.mallocs = s.mallocs ∨ s'.mallocs = s.mallocs.tail)) ∨
    (∃ s', generate_body w h s = .ok (.brk s') ∧ GenInv w h s'.maze (s'.x, s'.y) s'.st ∧
      (∀ p, Room w h p → cell s'.maze p = some VISIT) ∧ (3 < w ∨ 3 < h)) ∨
    (∃ m, generate_body w h s = .ok (.ret 0 m) ∧ s.mallocs.headD true = false) := by
  obtain ⟨maze, x, y, st, draws, mallocs⟩ := s
  obtain ⟨E, hE, hinv⟩ := hok
  simp only at hE hinv
  have hcur : Room w h (x, y) := hinv.room _ (List.mem_cons_self _ _)
  have hci := hcur.1
  simp only [Inner] at hci
  rcases rand_neighbour_loop_spec hinv.dim (x := x) (y := y) (by omega) (by omega) (by omega)
    (by omega) draws true true true true with he | ⟨m, he, _, hlt, hs⟩
  · left
    simp only [generate_body, hE, rand_neighbour, he]
  · have hlt' : m.draws.length < draws.length := hlt rfl
    rcases hs with ⟨hr, hmz, hmx, hmy, s1, s2, s3, s4⟩ | ⟨hr, tx, ty, mx, my, hg, hmx, hmy,
      htx0, htx, hty0, hty, hU, hwm⟩
    · -- no neighbour: backtrack
      have hstuck : Stuck E x y w h := ⟨s1 rfl, s2 rfl, s3 rfl, s4 rfl⟩
      right
      match st, hinv with
      | [], _ =>
        left
        simp only [generate_body, hE, rand_neighbour, he, hr, ne_eq, not_true_eq_false,
          if_false]
      | [c1], _ =>
        left
        simp only [generate_body, hE, rand_neighbour, he, hr, ne_eq, not_true_eq_false,
          if_false, pop]
      | (sx, sy) :: c0 :: rest, hinv =>
        right
        have hb := genInv_backtrack hinv hstuck
        have hsv : cell E (sx, sy) = some VISIT := hb.vis _ (List.mem_cons_self _ _)
        by_cases hrest : rest = []
        · right; left
          subst hrest
          refine ⟨⟨m.maze, sx, sy, [c0], m.draws, mallocs⟩, ?_, ?_, ?_, ?_⟩
          · simp only [generate_body, hE, rand_neighbour, he, hr, ne_eq, not_true_eq_false,
              if_false, pop, if_true]
          · simp only [hmz]; exact hb
          · simp only [hmz]
            refine genInv_all_visited hw hh hwo hho hb hcur
              (hinv.vis _ (List.mem_cons_self _ _)) ?_ ?_
            · have := hinv.chain
              simp only [List.chain'_cons] at this
              exact this.1
            · have := hinv.nodup
              simp only [List.nodup_cons, List.mem_cons, not_or] at this
              exact this.1.2.1
          · have hne := hinv.nodup
            simp only [List.nodup_cons, List.mem_cons, not_or] at hne
            have hne' : (x, y) ≠ (sx, sy) := hne.1.1
            have hs := hb.room _ (List.mem_cons_self _ _)
            simp only [Room, Inner] at hs
            simp only [ne_eq, Prod.mk.injEq] at hne'
            omega
        · left
          refine ⟨⟨m.maze, sx, sy, c0 :: rest, m.draws, mallocs⟩, ?_, ?_, hlt', Or.inl rfl⟩
          · simp only [generate_body, hE, rand_neighbour, he, hr, ne_eq, not_true_eq_false,
              if_false, pop, hrest]
          · exact ⟨E, by simp only [hmz]; exact wr_same hsv, hb⟩
    · -- a neighbour was found: push and move
      right; right
      have hd1 : Dim m.maze w h := wr_dim hinv.dim hwm
      obtain ⟨E', hE'⟩ := wr_some_of_range hd1 (y := ty) (x := tx) VISIT (by omega) hty
        (by omega) htx
      have hfw := genInv_forward hwo hho hinv hg htx0 htx hty0 hty hU hwm hE'
      cases hmal : mallocs.headD true with
      | false =>
        right; right
        refine ⟨m.maze, ?_, rfl⟩
        simp only [generate_body, hE, rand_neighbour, he, hr, push, hmal, ne_eq, one_ne_zero,
          not_false_eq_true, if_true]
      | true =>
        left
        refine ⟨⟨m.maze, m.x, m.y, (x, y) :: st, m.draws, mallocs.tail⟩, ?_, ?_, hlt', Or.inr rfl⟩
        · simp only [generate_body, hE, rand_neighbour, he, hr, push, hmal, ne_eq, one_ne_zero,
            not_false_eq_true, if_true, Bool.true_eq_false, if_false]
        · refine ⟨E', ?_, ?_⟩
          · simp only [hmx, hmy]; exact hE'
          · simp only [hmx, hmy]; exact hfw

/-- The invariant holds when `generate` enters its loop on the cells of `init`. -/
theorem genOK_start {w h : Int} (hw : 3 ≤ w) (hh : 3 ≤ h) (hwo : w % 2 = 1) (hho : h % 2 = 1)
    {ms : List Bool} {maze : Maze} (hinit : init w h ms = some maze)
    (draws : List Nat) (mallocs : List Bool) :
    GenOK w h (generate_start maze w h draws mallocs) := by
  have hd : Dim maze w h := init_dim w h (by omega) (by omega) ms maze hinit
  obtain ⟨E, hE⟩ := wr_some_of_range hd (y := h - 2) (x := w - 2) VISIT (by omega) (by omega)
    (by omega) (by omega)
  exact ⟨E, hE, genInv_init hw hh hwo hho hinit hE⟩

/-- The loop of `generate`, started in a state that satisfies the invariant,
never leaves the cells; when it returns, it returns 0 after a failed allocation
or 1 with a generated maze. -/
theorem generate_loop_spec {w h : Int} (hw : 3 ≤ w) (hh : 3 ≤ h) (hwo : w % 2 = 1)
    (hho : h % 2 = 1) (n : Nat) {s : Walk} (hok : GenOK w h s) :
    generate_loop w h n s = .error .noDraws ∨
    generate_loop w h n s = .error .nullDeref ∨
    (∃ m, generate_loop w h n s = .ok (0, m) ∧ false ∈ s.mallocs) ∨
    (∃ m, generate_loop w h n s = .ok (1, m) ∧ Generated w h m) := by
  induction n generalizing s with
  | zero => left; rfl
  | succ n ih =>
    rcases generate_body_spec hw hh hwo hho hok with he | he | ⟨s', he, hok', _, hms⟩ |
      ⟨s', he, hinv, hall, hbig⟩ | ⟨m, he, hmal⟩
    · left; simp only [generate_loop, he]
    · right; left; simp only [generate_loop, he]
    · simp only [generate_loop, he]
      rcases ih hok' with h1 | h1 | ⟨m, h1, hf⟩ | h1
      · exact Or.inl h1
      · exact Or.inr (Or.inl h1)
      · refine Or.inr (Or.inr (Or.inl ⟨m, h1, ?_⟩))
        rcases hms with e | e
        · rw [← e]; exact hf
        · rw [e] at hf; exact List.mem_of_mem_tail hf
      · exact Or.inr (Or.inr (Or.inr h1))
    · right; right; right
      have hd := hinv.dim
      obtain ⟨M1, h1⟩ := wr_some_of_range hd (y := 1) (x := 0) VISIT (by omega) (by omega)
        (by omega) (by omega)
      obtain ⟨M, h2⟩ := wr_some_of_range (wr_dim hd h1) (y := h - 2) (x := w - 1) VISIT
        (by omega) (by omega) (by omega) (by omega)
      refine ⟨M, ?_, generated_of_inv hw hh hwo hho hinv hall hbig h1 h2⟩
      simp only [generate_loop, he, generate_finish, h1, h2]
    · right; right; left
      refine ⟨m, by simp only [generate_loop, he], ?_⟩
      cases hms : s.mallocs with
      | nil => rw [hms] at hmal; simp at hmal
      | cons b t =>
        rw [hms] at hmal
        simp only [List.headD_cons] at hmal
        subst hmal
        exact List.mem_cons_self _ _

/-- Shared form of the results on `generate`: on the cells of `init`, for odd
`w, h ≥ 3`, a run that returns 1 leaves a generated maze. -/
theorem generate_generated {w h : Int} (hw : 3 ≤ w) (hh : 3 ≤ h) (hwo : w % 2 = 1)
    (hho : h % 2 = 1) {ms : List Bool} {maze : Maze} (hinit : init w h ms = some maze)
    {draws : List Nat} {mallocs : List Bool} {m : Maze}
    (hgen : generate maze w h draws mallocs = .ok (1, m)) : Generated w h m := by
  unfold generate at hgen
  rcases generate_loop_spec hw hh hwo hho (draws.length + 1)
    (genOK_start hw hh hwo hho hinit draws mallocs) with he | he | ⟨m', he, _⟩ | ⟨m', he, hG⟩
  · rw [he] at hgen; cases hgen
  · rw [he] at hgen; cases hgen
  · rw [he] at hgen; cases hgen
  · rw [he] at hgen
    cases hgen
    exact hG

/-! ## `solve_rand_neighbour` -/

theorem solve_rand_neighbour_loop_spec {maze : Maze} {x y w h : Int} (hd : Dim maze w h)
    (hx0 : 0 < x) (hx : x < w - 1) (hy0 : 0 < y) (hy : y < h - 1)
    (draws : List Nat) (up down left right : Bool) :
    solve_rand_neighbour_loop maze x y w h draws up down left right = .error .noDraws ∨
    ∃ m, solve_rand_neighbour_loop maze x y w h draws up down left right = .ok m ∧
      m.draws.length ≤ draws.length ∧
      ((up || down || left || right) = true → m.draws.length < draws.length) ∧
      ((m.ret = 0 ∧ m.maze = maze ∧ m.x = x ∧ m.y = y ∧
        (up = true → (y - 1 ≤ 0 ∨ rd maze (y - 1) x ≠ some VISIT)) ∧
        (down = true → (y + 1 ≥ h - 1 ∨ rd maze (y + 1) x ≠ some VISIT)) ∧
        (left = true → (x - 1 ≤ 0 ∨ rd maze y (x - 1) ≠ some VISIT)) ∧
        (right = true → (x + 1 ≥ w - 1 ∨ rd maze y (x + 1) ≠ some VISIT))) ∨
       (m.ret = 1 ∧ Stepped maze x y w h m)) := by
  induction draws generalizing up down left right with
  | nil =>
    unfold solve_rand_neighbour_loop
    split
    · exact Or.inl rfl
    · rename_i hf
      simp only [Bool.or_eq_true, not_or, Bool.not_eq_true] at hf
      obtain ⟨⟨⟨h1, h2⟩, h3⟩, h4⟩ := hf
      subst h1 h2 h3 h4
      exact Or.inr ⟨_, rfl, le_refl _, by simp, Or.inl ⟨rfl, rfl, rfl, rfl, by simp⟩⟩
  | cons r draws ih =>
    unfold solve_rand_neighbour_loop
    split
    · rename_i hf
      split
      · -- UP
        by_cases hb : y - 1 ≤ 0
        · rw [if_pos hb]
          rcases ih false down left right with he | ⟨m, he, hl, _, hs⟩
          · exact Or.inl he
          · refine Or.inr ⟨m, he, by simp; omega, fun _ => by simp; omega, ?_⟩
            rcases hs with ⟨a, b, c, d, _, e, f, g⟩ | hs
            · exact Or.inl ⟨a, b, c, d, fun _ => Or.inl hb, e, f, g⟩
            · exact Or.inr hs
        · rw [if_neg hb]
          obtain ⟨c, hc⟩ := rd_some_of_range hd (y := y - 1) (x := x) (by omega) (by omega)
            (by omega) (by omega)
          simp only [hc]
          by_cases hu : c ≠ VISIT
          · rw [if_pos hu]
            rcases ih false down left right with he | ⟨m, he, hl, _, hs⟩
            · exact Or.inl he
            · refine Or.inr ⟨m, he, by simp; omega, fun _ => by simp; omega, ?_⟩
              rcases hs with ⟨a, b, c', d, _, e, f, g⟩ | hs
              · refine Or.inl ⟨a, b, c', d, fun _ => Or.inr ?_, e, f, g⟩
                intro hh; exact hu (Option.some.inj hh)
              · exact Or.inr hs
          · rw [if_neg hu]
            have hu' : c = VISIT := not_not.mp hu
            refine Or.inr ⟨_, rfl, by simp, fun _ => by simp, Or.inr ⟨rfl, ?_⟩⟩
            exact ⟨rfl, Or.inl ⟨rfl, Or.inl rfl⟩, by simp only; omega, by simp only; omega,
              by simp only; omega, by simp only; omega, hu' ▸ hc⟩
      · -- DOWN
        by_cases hb : y + 1 ≥ h - 1
        · rw [if_pos hb]
          rcases ih up false left right with he | ⟨m, he, hl, _, hs⟩
          · exact Or.inl he
          · refine Or.inr ⟨m, he, by simp; omega, fun _ => by simp; omega, ?_⟩
            rcases hs with ⟨a, b, c, d, e, _, f, g⟩ | hs
            · exact Or.inl ⟨a, b, c, d, e, fun _ => Or.inl hb, f, g⟩
            · exact Or.inr hs
        · rw [if_neg hb]
          obtain ⟨c, hc⟩ := rd_some_of_range hd (y := y + 1) (x := x) (by omega) (by omega)
            (by omega) (by omega)
          simp only [hc]
          by_cases hu : c ≠ VISIT
          · rw [if_pos hu]
            rcases ih up false left right with he | ⟨m, he, hl, _, hs⟩
            · exact Or.inl he
            · refine Or.inr ⟨m, he, by simp; omega, fun _ => by simp; omega, ?_⟩
              rcases hs with ⟨a, b, c', d, e, _, f, g⟩ | hs
              · refine Or.inl ⟨a, b, c', d, e, fun _ => Or.inr ?_, f, g⟩
                intro hh; exact hu (Option.some.inj hh)
              · exact Or.inr hs
          · rw [if_neg hu]
            have hu' : c = VISIT := not_not.mp hu
            refine Or.inr ⟨_, rfl, by simp, fun _ => by simp, Or.inr ⟨rfl, ?_⟩⟩
            exact ⟨rfl, Or.inl ⟨rfl, Or.inr rfl⟩, by simp only; omega, by simp only; omega,
              by simp only; omega, by simp only; omega, hu' ▸ hc⟩
      · -- LEFT
        by_cases hb : x - 1 ≤ 0
        · rw [if_pos hb]
          rcases ih up down false right with he | ⟨m, he, hl, _, hs⟩
          · exact Or.inl he
          · refine Or.inr ⟨m, he, by simp; omega, fun _ => by simp; omega, ?_⟩
            rcases hs with ⟨a, b, c, d, e, f, _, g⟩ | hs
            · exact Or.inl ⟨a, b, c, d, e, f, fun _ => Or.inl hb, g⟩
            · exact Or.inr hs
        · rw [if_neg hb]
          obtain ⟨c, hc⟩ := rd_some_of_range hd (y := y) (x := x - 1) (by omega) (by omega)
            (by omega) (by omega)
          simp only [hc]
          by_cases hu : c ≠ VISIT
          · rw [if_pos hu]
            rcases ih up down false right with he | ⟨m, he, hl, _, hs⟩
            · exact Or.inl he
            · refine Or.inr ⟨m, he, by simp; omega, fun _ => by simp; omega, ?_⟩
              rcases hs with ⟨a, b, c', d, e, f, _, g⟩ | hs
              · refine Or.inl ⟨a, b, c', d, e, f, fun _ => Or.inr ?_, g⟩
                intro hh; exact hu (Option.some.inj hh)
              · exact Or.inr hs
          · rw [if_neg hu]
            have hu' : c = VISIT := not_not.mp hu
            refine Or.inr ⟨_, rfl, by simp, fun _ => by simp, Or.inr ⟨rfl, ?_⟩⟩
            exact ⟨rfl, Or.inr ⟨rfl, Or.inl rfl⟩, by simp only; omega, by simp only; omega,
              by simp only; omega, by simp only; omega, hu' ▸ hc⟩
      · -- RIGHT
        by_cases hb : x + 1 ≥ w - 1
        · rw [if_pos hb]
          rcases ih up down left false with he | ⟨m, he, hl, _, hs⟩
          · exact Or.inl he
          · refine Or.inr ⟨m, he, by simp; omega, fun _ => by simp; omega, ?_⟩
            rcases hs with ⟨a, b, c, d, e, f, g, _⟩ | hs
            · exact Or.inl ⟨a, b, c, d, e, f, g, fun _ => Or.inl hb⟩
            · exact Or.inr hs
        · rw [if_neg hb]
          obtain ⟨c, hc⟩ := rd_some_of_range hd (y := y) (x := x + 1) (by omega) (by omega)
            (by omega) (by omega)
          simp only [hc]
          by_cases hu : c ≠ VISIT
          · rw [if_pos hu]
            rcases ih up down left false with he | ⟨m, he, hl, _, hs⟩
            · exact Or.inl he
            · refine Or.inr ⟨m, he, by simp; omega, fun _ => by simp; omega, ?_⟩
              rcases hs with ⟨a, b, c', d, e, f, g, _⟩ | hs
              · refine Or.inl ⟨a, b, c', d, e, f, g, fun _ => Or.inr ?_⟩
                intro hh; exact hu (Option.some.inj hh)
              · exact Or.inr hs
          · rw [if_neg hu]
            have hu' : c = VISIT := not_not.mp hu
            refine Or.inr ⟨_, rfl, by simp, fun _ => by simp, Or.inr ⟨rfl, ?_⟩⟩
            exact ⟨rfl, Or.inr ⟨rfl, Or.inr rfl⟩, by simp only; omega, by simp only; omega,
              by simp only; omega, by simp only; omega, hu' ▸ hc⟩
      · -- no case of the switch applies
        rcases ih up down left right with he | ⟨m, he, hl, _, hs⟩
        · exact Or.inl he
        · exact Or.inr ⟨m, he, by simp; omega, fun _ => by simp; omega, hs⟩
    · rename_i hf
      simp only [Bool.or_eq_true, not_or, Bool.not_eq_true] at hf
      obtain ⟨⟨⟨h1, h2⟩, h3⟩, h4⟩ := hf
      subst h1 h2 h3 h4
      exact Or.inr ⟨_, rfl, le_refl _, by simp, Or.inl ⟨rfl, rfl, rfl, rfl, by simp⟩⟩

/-! ## One round of `solve` -/

/-- The ways in which a round of `solve` can end when the current cell lies
inside the border; `E` are the cells once the current cell has been marked. -/
theorem solve_body_cases {w h : Int} {s : Walk} (hd : Dim s.maze w h)
    (hin : Inner w h (s.x, s.y)) :
    ∃ E, wr s.maze s.y s.x PATH = some E ∧
    (solve_body w h s = .error .noDraws ∨
     (SolStuck E s.x s.y w h ∧ s.st = [] ∧ solve_body w h s = .error .nullDeref) ∨
     (∃ d sx sy st' E2, SolStuck E s.x s.y w h ∧ s.st = (sx, sy) :: st' ∧
        wr E s.y s.x UPATH = some E2 ∧ d.length < s.draws.length ∧
        solve_body w h s = .ok (.next ⟨E2, sx, sy, st', d, s.mallocs⟩)) ∨
     (∃ m E2, Stepped E s.x s.y w h m ∧ (m.x = w - 2 ∧ m.y = h - 2) ∧
        wr E m.y m.x PATH = some E2 ∧
        solve_body w h s = .ok (.brk ⟨E2, m.x, m.y, s.st, m.draws, s.mallocs⟩)) ∨
     (∃ m, Stepped E s.x s.y w h m ∧ ¬ (m.x = w - 2 ∧ m.y = h - 2) ∧
        s.mallocs.headD true = false ∧ solve_body w h s = .ok (.ret 0 E)) ∨
     (∃ m, Stepped E s.x s.y w h m ∧ ¬ (m.x = w - 2 ∧ m.y = h - 2) ∧
        s.mallocs.headD true = true ∧ m.draws.length < s.draws.length ∧
        solve_body w h s =
          .ok (.next ⟨E, m.x, m.y, (s.x, s.y) :: s.st, m.draws, s.mallocs.tail⟩))) := by
  obtain ⟨maze, x, y, st, draws, mallocs⟩ := s
  simp only at hd hin ⊢
  have hci := hin
  simp only [Inner] at hci
  obtain ⟨E, hE⟩ := wr_some_of_range hd (y := y) (x := x) PATH (by omega) (by omega) (by omega)
    (by omega)
  have hdE : Dim E w h := wr_dim hd hE
  refine ⟨E, hE, ?_⟩
  rcases solve_rand_neighbour_loop_spec hdE (x := x) (y := y) (by omega) (by omega) (by omega)
    (by omega) draws true true true true with he | ⟨m, he, _, hlt, hs⟩
  · left
    simp only [solve_body, hE, solve_rand_neighbour, he]
  · have hlt' : m.draws.length < draws.length := hlt rfl
    right
    rcases hs with ⟨hr, hmz, hmx, hmy, s1, s2, s3, s4⟩ | ⟨hr, hst⟩
    · have hstuck : SolStuck E x y w h := ⟨s1 rfl, s2 rfl, s3 rfl, s4 rfl⟩
      obtain ⟨E2, hE2⟩ := wr_some_of_range hdE (y := y) (x := x) UPATH (by omega) (by omega)
        (by omega) (by omega)
      match st with
      | [] =>
        left
        refine ⟨hstuck, rfl, ?_⟩
        simp only [solve_body, hE, solve_rand_neighbour, he, hr, ne_eq, not_true_eq_false,
          if_false, hmz, hmx, hmy, hE2]
      | (sx, sy) :: st' =>
        right; left
        refine ⟨m.draws, sx, sy, st', E2, hstuck, rfl, hE2, hlt', ?_⟩
        simp only [solve_body, hE, solve_rand_neighbour, he, hr, ne_eq, not_true_eq_false,
          if_false, hmz, hmx, hmy, hE2, pop]
    · right; right
      have hst' := hst
      obtain ⟨hmz, hg, a1, a2, a3, a4, hv⟩ := hst'
      by_cases hgoal : m.x = w - 2 ∧ m.y = h - 2
      · left
        obtain ⟨E2, hE2⟩ := wr_some_of_range hdE (y := m.y) (x := m.x) PATH (by omega)
          (by omega) (by omega) (by omega)
        refine ⟨m, E2, hst, hgoal, hE2, ?_⟩
        simp only [solve_body, hE, solve_rand_neighbour, he, hr, ne_eq, one_ne_zero,
          not_false_eq_true, if_true, hgoal, and_self, hmz, hE2]
        rw [← hgoal.1, ← hgoal.2, hE2]
      · right
        cases hmal : mallocs.headD true with
        | false =>
          left
          refine ⟨m, hst, hgoal, rfl, ?_⟩
          simp only [solve_body, hE, solve_rand_neighbour, he, hr, ne_eq, one_ne_zero,
            not_false_eq_true, if_true, hgoal, if_false, push, hmal, hmz]
        | true =>
          right
          refine ⟨m, hst, hgoal, rfl, hlt', ?_⟩
          simp only [solve_body, hE, solve_rand_neighbour, he, hr, ne_eq, one_ne_zero,
            not_false_eq_true, if_true, hgoal, if_false, push, hmal, hmz, Bool.true_eq_false]

/-- A round of `solve` keeps the walk inside the border and never accesses a
cell outside the grid. -/
theorem solve_body_safe {w h : Int} {s : Walk} (hs : SolSafe w h s) :
    solve_body w h s ≠ .error .outOfBounds ∧
    (∀ s', solve_body w h s = .ok (.next s') → SolSafe w h s') ∧
    (∀ s', solve_body w h s = .ok (.brk s') → Dim s'.maze w h) := by
  obtain ⟨hd, hin, hst⟩ := hs
  obtain ⟨E, hE, hc⟩ := solve_body_cases hd hin
  have hdE := wr_dim hd hE
  rcases hc with he | ⟨_, _, he⟩ | ⟨d, sx, sy, st', E2, _, hst', hE2, _, he⟩ |
    ⟨m, E2, hm, _, hE2, he⟩ | ⟨m, _, _, _, he⟩ | ⟨m, hm, _, _, _, he⟩
  · rw [he]; exact ⟨by simp, fun s' h => (by cases h), fun s' h => (by cases h)⟩
  · rw [he]; exact ⟨by simp, fun s' h => (by cases h), fun s' h => (by cases h)⟩
  · rw [he]
    refine ⟨by simp, ?_, fun s' h => (by cases h)⟩
    intro s' h
    cases h
    refine ⟨wr_dim hdE hE2, hst _ (by rw [hst']; exact List.mem_cons_self _ _), ?_⟩
    intro p hp
    exact hst p (by rw [hst']; exact List.mem_cons_of_mem _ hp)
  · rw [he]
    refine ⟨by simp, fun s' h => (by cases h), ?_⟩
    intro s' h
    cases h
    exact wr_dim hdE hE2
  · rw [he]; exact ⟨by simp, fun s' h => (by cases h), fun s' h => (by cases h)⟩
  · rw [he]
    refine ⟨by simp, ?_, fun s' h => (by cases h)⟩
    intro s' h
    cases h
    obtain ⟨hmz, _, a1, a2, a3, a4, _⟩ := hm
    refine ⟨hdE, ⟨a1, a2, a3, a4⟩, ?_⟩
    intro p hp
    rcases List.mem_cons.mp hp with rfl | hp
    · exact hin
    · exact hst p hp

/-! ## The invariant of `solve` -/

theorem adj_symm {p q : Int × Int} (hpq : Adj p q) : Adj q p := by
  simp only [Adj] at hpq ⊢
  omega

/-- A forward move of `solve` keeps the invariant. -/
theorem solInv_forward {w h : Int} {M E E' : Maze} {x y : Int} {st : Stack} {m : Moved}
    (hinv : SolInv w h M E (x, y) st) (hm : Stepped E x y w h m)
    (hng : ¬ (m.x = w - 2 ∧ m.y = h - 2)) (hE' : wr E m.y m.x PATH = some E') :
    SolInv w h M E' (m.x, m.y) ((x, y) :: st) := by
  obtain ⟨_, hg, a1, a2, a3, a4, hv⟩ := hm
  have htv : cell E (m.x, m.y) = some VISIT := hv
  have hcell : ∀ q, cell E' q = if q = (m.x, m.y) then some PATH else cell E q :=
    fun q => cell_wr hE' q
  have hEt : cell E' (m.x, m.y) = some PATH := by rw [hcell]; simp
  have hsame : ∀ q, q ≠ (m.x, m.y) → cell E' q = cell E q := by
    intro q hq; rw [hcell, if_neg hq]
  have htin : Inner w h (m.x, m.y) := ⟨a1, a2, a3, a4⟩
  have htnot : (m.x, m.y) ∉ (x, y) :: st := by
    intro hmem
    have := (hinv.path _).mpr hmem
    rw [htv] at this
    exact absurd this (by decide)
  refine
    { dim := wr_dim hinv.dim hE'
      inner := ?_, path := ?_, nodup := List.nodup_cons.mpr ⟨htnot, hinv.nodup⟩
      chain := ?_, last := ?_, border := ?_, typ := ?_, goal := ?_, black := ?_ }
  · intro p hp
    rcases List.mem_cons.mp hp with rfl | hp
    · exact htin
    · exact hinv.inner p hp
  · intro p
    by_cases hpt : p = (m.x, m.y)
    · subst hpt
      simp [hEt]
    · rw [hsame p hpt, hinv.path p]
      simp [hpt]
  · refine List.Chain'.cons ?_ hinv.chain
    simp only [Adj]; omega
  · have := hinv.last
    simpa [List.getLast?_cons_cons] using this
  · intro p b1 b2 b3 b4 hni
    have hpt : p ≠ (m.x, m.y) := fun e => hni (e ▸ htin)
    rw [hsame p hpt]; exact hinv.border p b1 b2 b3 b4 hni
  · intro p hp
    by_cases hpt : p = (m.x, m.y)
    · subst hpt
      right
      rcases hinv.typ _ hp with ⟨_, hw⟩ | ⟨hM, _⟩
      · rw [htv] at hw; exact absurd hw (by decide)
      · exact ⟨hM, Or.inr (Or.inl hEt)⟩
    · rw [hsame p hpt]; exact hinv.typ p hp
  · have hgt : (w - 2, h - 2) ≠ (m.x, m.y) := by
      simp only [ne_eq, Prod.mk.injEq]
      intro e; exact hng ⟨e.1.symm, e.2.symm⟩
    rw [hsame _ hgt]; exact hinv.goal
  · intro p q hp hadj
    have hpt : p ≠ (m.x, m.y) := by
      intro e; rw [e, hEt] at hp; exact absurd hp (by decide)
    rw [hsame p hpt] at hp
    by_cases hqt : q = (m.x, m.y)
    · rw [hqt, hEt]; decide
    · rw [hsame q hqt]; exact hinv.black p q hp hadj

/-- Backtracking in `solve` keeps the invariant: the current cell, which has no
`VISIT` neighbour, becomes `UPATH` and the walk returns to the top of the
stack. -/
theorem solInv_backtrack {w h : Int} {M E E2 : Maze} {x y : Int} {s1 : Int × Int} {st : Stack}
    (hinv : SolInv w h M E (x, y) (s1 :: st)) (hstuck : SolStuck E x y w h)
    (hE2 : wr E y x UPATH = some E2) :
    SolInv w h M E2 s1 st := by
  have hcell : ∀ q, cell E2 q = if q = (x, y) then some UPATH else cell E q :=
    fun q => cell_wr hE2 q
  have hEc : cell E2 (x, y) = some UPATH := by rw [hcell]; simp
  have hsame : ∀ q, q ≠ (x, y) → cell E2 q = cell E q := by
    intro q hq; rw [hcell, if_neg hq]
  have hcin : Inner w h (x, y) := hinv.inner _ (List.mem_cons_self _ _)
  have hcp : cell E (x, y) = some PATH := (hinv.path _).mpr (List.mem_cons_self _ _)
  have hcnot : (x, y) ∉ s1 :: st := (List.nodup_cons.mp hinv.nodup).1
  refine
    { dim := wr_dim hinv.dim hE2
      inner := fun p hp => hinv.inner p (List.mem_cons_of_mem _ hp)
      path := ?_, nodup := (List.nodup_cons.mp hinv.nodup).2
      chain := hinv.chain.tail, last := ?_, border := ?_, typ := ?_, goal := ?_, black := ?_ }
  · intro p
    by_cases hpc : p = (x, y)
    · subst hpc
      rw [hEc]
      constructor
      · intro hh; exact absurd hh (by decide)
      · intro hh; exact absurd hh hcnot
    · rw [hsame p hpc, hinv.path p]
      simp [hpc]
  · have := hinv.last
    simpa [List.getLast?_cons_cons] using this
  · intro p b1 b2 b3 b4 hni
    have hpc : p ≠ (x, y) := fun e => hni (e ▸ hcin)
    rw [hsame p hpc]; exact hinv.border p b1 b2 b3 b4 hni
  · intro p hp
    by_cases hpc : p = (x, y)
    · subst hpc
      right
      rcases hinv.typ _ hp with ⟨_, hw⟩ | ⟨hM, _⟩
      · rw [hcp] at hw; exact absurd hw (by decide)
      · exact ⟨hM, Or.inr (Or.inr hEc)⟩
    · rw [hsame p hpc]; exact hinv.typ p hp
  · have hgc : (w - 2, h - 2) ≠ (x, y) := by
      intro e
      have := hinv.goal
      rw [e, hcp] at this
      exact absurd this (by decide)
    rw [hsame _ hgc]; exact hinv.goal
  · intro p q hp hadj
    have hq : cell E q ≠ some VISIT := by
      by_cases hpc : p = (x, y)
      · subst hpc
        obtain ⟨qx, qy⟩ := q
        obtain ⟨s_up, s_down, s_left, s_right⟩ := hstuck
        simp only [Inner] at hcin
        simp only [Adj] at hadj
        have hb : ∀ qx qy : Int, 0 ≤ qx → qx < w → 0 ≤ qy → qy < h →
            ¬ Inner w h (qx, qy) → cell E (qx, qy) ≠ some VISIT := by
          intro qx qy b1 b2 b3 b4 hni hh
          have := hinv.border (qx, qy) b1 b2 b3 b4 hni
          rw [hh] at this
          exact absurd this (by decide)
        rcases hadj with ⟨e1, e2 | e2⟩ | ⟨e1, e2 | e2⟩
        · subst e1 e2
          rcases s_up with hb' | hb'
          · exact hb _ _ (by omega) (by omega) (by omega) (by omega)
              (by simp only [Inner]; omega)
          · exact hb'
        · subst e1 e2
          rcases s_down with hb' | hb'
          · exact hb _ _ (by omega) (by omega) (by omega) (by omega)
              (by simp only [Inner]; omega)
          · exact hb'
        · subst e1 e2
          rcases s_left with hb' | hb'
          · exact hb _ _ (by omega) (by omega) (by omega) (by omega)
              (by simp only [Inner]; omega)
          · exact hb'
        · subst e1 e2
          rcases s_right with hb' | hb'
          · exact hb _ _ (by omega) (by omega) (by omega) (by omega)
              (by simp only [Inner]; omega)
          · exact hb'
      · rw [hsame p hpc] at hp
        exact hinv.black p q hp hadj
    by_cases hqc : q = (x, y)
    · rw [hqc, hEc]; decide
    · rw [hsame q hqc]; exact hq

/-- With the goal cell joined to `(1, 1)` the walk is never stuck on an empty
stack. -/
theorem solInv_not_stuck {w h : Int} {M E : Maze} {x y : Int}
    (hinv : SolInv w h M E (x, y) []) (hstuck : SolStuck E x y w h)
    (hconn : InnerJoined M w h VISIT (w - 2, h - 2) (1, 1)) : False := by
  have hcur : (x, y) = (1, 1) := by
    have := hinv.last
    simpa using this
  have hcin : Inner w h (x, y) := hinv.inner _ (List.mem_cons_self _ _)
  have hcp : cell E (x, y) = some PATH := (hinv.path _).mpr (List.mem_cons_self _ _)
  have hall : ∀ c, InnerJoined M w h VISIT (w - 2, h - 2) c → cell E c = some VISIT := by
    intro c hc
    induction hc with
    | refl => exact hinv.goal
    | @tail b c _ hstep ih =>
      obtain ⟨hbi, hci, hadj, hMb, hMc⟩ := hstep
      rcases hinv.typ c hci with ⟨hw, _⟩ | ⟨_, hv | hp | hu⟩
      · rw [hMc] at hw; exact absurd hw (by decide)
      · exact hv
      · exfalso
        have hcc : c = (x, y) := by
          have := (hinv.path c).mp hp
          simpa using this
        subst hcc
        obtain ⟨bx, by'⟩ := b
        obtain ⟨s_up, s_down, s_left, s_right⟩ := hstuck
        simp only [Inner] at hbi
        simp only [Adj] at hadj
        have ih' : rd E by' bx = some VISIT := ih
        rcases hadj with ⟨e1, e2 | e2⟩ | ⟨e1, e2 | e2⟩
        · have : by' = y + 1 := by omega
          subst e1 this
          rcases s_down with hb' | hb'
          · omega
          · exact hb' ih'
        · have : by' = y - 1 := by omega
          subst e1 this
          rcases s_up with hb' | hb'
          · omega
          · exact hb' ih'
        · have : bx = x + 1 := by omega
          subst e1 this
          rcases s_right with hb' | hb'
          · omega
          · exact hb' ih'
        · have : bx = x - 1 := by omega
          subst e1 this
          rcases s_left with hb' | hb'
          · omega
          · exact hb' ih'
      · exact absurd ih (hinv.black c _ hu (adj_symm hadj))
  have := hall (1, 1) hconn
  rw [← hcur, hcp] at this
  exact absurd this (by decide)

theorem generated_cell {w h : Int} {M : Maze} (hG : Generated w h M) {p : Int × Int} {v : Int}
    (hc : cell M p = some v) : v = WALL ∨ v = VISIT := by
  obtain ⟨b1, b2, b3, b4⟩ := cell_range hG.dim hc
  by_cases hr : Room w h p
  · rw [hG.rooms p hr] at hc; right; exact (Option.some.inj hc).symm
  · by_cases hp : Passage w h p
    · rcases hG.pass p hp with h1 | h1
      · rw [h1] at hc; left; exact (Option.some.inj hc).symm
      · rw [h1] at hc; right; exact (Option.some.inj hc).symm
    · by_cases he : p = (0, 1)
      · rw [he, hG.entrance] at hc; right; exact (Option.some.inj hc).symm
      · by_cases hx : p = (w - 1, h - 2)
        · rw [hx, hG.exit] at hc; right; exact (Option.some.inj hc).symm
        · rw [hG.walls p b1 b2 b3 b4 hr hp he hx] at hc
          left; exact (Option.some.inj hc).symm

/-- The invariant holds when the loop of `solve` is entered on a generated
maze whose doorways have been sealed. -/
theorem solInv_init {w h : Int} (hw : 3 ≤ w) (hh : 3 ≤ h) (hwo : w % 2 = 1) (hho : h % 2 = 1)
    {M M1 M2 E : Maze} (hG : Generated w h M) (h1 : wr M 1 0 WALL = some M1)
    (h2 : wr M1 (h - 2) (w - 1) WALL = some M2) (hE : wr M2 1 1 PATH = some E) :
    SolInv w h M E (1, 1) [] := by
  have hcell : ∀ q, cell E q = if q = (1, 1) then some PATH else
      if q = (w - 1, h - 2) then some WALL else if q = (0, 1) then some WALL else cell M q := by
    intro q
    rw [cell_wr hE, cell_wr h2, cell_wr h1]
  have hstart : Inner w h (1, 1) := by simp only [Inner]; omega
  have hEs : cell E (1, 1) = some PATH := by rw [hcell]; simp
  have hin : ∀ q, Inner w h q → q ≠ (1, 1) → cell E q = cell M q := by
    rintro ⟨qx, qy⟩ hq hne
    simp only [Inner] at hq
    rw [hcell, if_neg hne, if_neg (by simp only [Prod.mk.injEq]; omega),
      if_neg (by simp only [Prod.mk.injEq]; omega)]
  have hnp : ∀ q v, cell E q = some v → v = PATH → q = (1, 1) := by
    intro q v hq hv
    by_contra hne
    rw [hcell, if_neg hne] at hq
    split_ifs at hq
    · subst hv; exact absurd hq (by decide)
    · subst hv; exact absurd hq (by decide)
    · rcases generated_cell hG hq with e | e <;> (subst hv; exact absurd e (by decide))
  have hnu : ∀ q, cell E q ≠ some UPATH := by
    intro q hq
    rw [hcell] at hq
    split_ifs at hq
    · exact absurd hq (by decide)
    · exact absurd hq (by decide)
    · exact absurd hq (by decide)
    · rcases generated_cell hG hq with e | e <;> exact absurd e (by decide)
  refine
    { dim := wr_dim (wr_dim (wr_dim hG.dim h1) h2) hE
      inner := ?_, path := ?_, nodup := by simp, chain := by simp, last := by simp
      border := ?_, typ := ?_, goal := ?_, black := ?_ }
  · intro p hp
    simp only [List.mem_singleton] at hp
    subst hp; exact hstart
  · intro p
    simp only [List.mem_singleton]
    constructor
    · intro hp; exact hnp p _ hp rfl
    · rintro rfl; exact hEs
  · intro p b1 b2 b3 b4 hni
    have hp1 : p ≠ (1, 1) := fun e => hni (e ▸ hstart)
    rw [hcell, if_neg hp1]
    split_ifs with e1 e2
    · rfl
    · rfl
    · exact hG.walls p b1 b2 b3 b4 (fun hr => hni hr.1) (fun hr => hni hr.1) e2 e1
  · intro p hp
    by_cases hp1 : p = (1, 1)
    · subst hp1
      right
      exact ⟨hG.rooms _ (by simp only [Room, Inner]; omega), Or.inr (Or.inl hEs)⟩
    · rw [hin p hp hp1]
      by_cases hr : Room w h p
      · right; exact ⟨hG.rooms p hr, Or.inl (hG.rooms p hr)⟩
      · by_cases hpp : Passage w h p
        · rcases hG.pass p hpp with e | e
          · left; exact ⟨e, e⟩
          · right; exact ⟨e, Or.inl e⟩
        · have hpi := hp
          simp only [Inner] at hpi
          have e := hG.walls p (by omega) (by omega) (by omega) (by omega) hr hpp
            (by intro e; rw [e] at hpi; simp only at hpi; omega)
            (by intro e; rw [e] at hpi; simp only at hpi; omega)
          left; exact ⟨e, e⟩
  · have hgi : Inner w h (w - 2, h - 2) := by simp only [Inner]; omega
    have hg1 : (w - 2, h - 2) ≠ ((1 : Int), (1 : Int)) := by
      simp only [ne_eq, Prod.mk.injEq]
      have := hG.big
      omega
    rw [hin _ hgi hg1]
    exact hG.rooms _ (by simp only [Room, Inner]; omega)
  · intro p q hp
    exact absurd hp (hnu p)

/-- No cell is `UPATH` when the loop of `solve` is entered on a generated maze. -/
theorem solve_init_no_upath {w h : Int} {M M1 M2 E : Maze} (hG : Generated w h M)
    (h1 : wr M 1 0 WALL = some M1) (h2 : wr M1 (h - 2) (w - 1) WALL = some M2)
    (hE : wr M2 1 1 PATH = some E) : ∀ q, cell E q ≠ some UPATH := by
  intro q hq
  rw [cell_wr hE, cell_wr h2, cell_wr h1] at hq
  split_ifs at hq
  · exact absurd hq (by decide)
  · exact absurd hq (by decide)
  · exact absurd hq (by decide)
  · rcases generated_cell hG hq with e | e <;> exact absurd e (by decide)

/-- Reaching the goal cell and opening the doorways yields a solved maze; cells
marked before stay marked and no cell becomes `UPATH`. -/
theorem solved_of_goal {w h : Int} (hw : 3 ≤ w)
    {M E E2 E3 E4 : Maze} {x y : Int} {st : Stack} {m : Moved}
    (hinv : SolInv w h M E (x, y) st) (hm : Stepped E x y w h m)
    (hgoal : m.x = w - 2 ∧ m.y = h - 2) (hE2 : wr E m.y m.x PATH = some E2)
    (h3 : wr E2 1 0 PATH = some E3) (h4 : wr E3 (h - 2) (w - 1) PATH = some E4) :
    Solved w h M E4 ∧ (∀ p, Marked E p → Marked E4 p) ∧
      ∀ p, cell E4 p = some UPATH → cell E p = some UPATH := by
  obtain ⟨_, hg, a1, a2, a3, a4, hv⟩ := hm
  obtain ⟨gx, gy⟩ := hgoal
  rw [gx, gy] at hE2 hv
  rw [gx] at hg a1 a2
  rw [gy] at hg a3 a4
  have hgv : cell E (w - 2, h - 2) = some VISIT := hv
  have hcell : ∀ q, cell E4 q = if q = (w - 1, h - 2) then some PATH else
      if q = (0, 1) then some PATH else if q = (w - 2, h - 2) then some PATH else cell E q := by
    intro q
    rw [cell_wr h4, cell_wr h3, cell_wr hE2]
  have hgin : Inner w h (w - 2, h - 2) := ⟨a1, a2, a3, a4⟩
  have hex : ¬ Inner w h (w - 1, h - 2) := by simp only [Inner]; omega
  have hen : ¬ Inner w h ((0 : Int), (1 : Int)) := by simp only [Inner]; omega
  have hgnot : (w - 2, h - 2) ∉ (x, y) :: st := by
    intro hmem
    have := (hinv.path _).mpr hmem
    rw [hgv] at this
    exact absurd this (by decide)
  have hexnot : (w - 1, h - 2) ∉ (w - 2, h - 2) :: (x, y) :: st := by
    intro hmem
    rcases List.mem_cons.mp hmem with e | hmem
    · exact hex (e ▸ hgin)
    · exact hex (hinv.inner _ hmem)
  have hennot : ((0 : Int), (1 : Int)) ∉ (w - 1, h - 2) :: (w - 2, h - 2) :: (x, y) :: st := by
    intro hmem
    rcases List.mem_cons.mp hmem with e | hmem
    · simp only [Prod.mk.injEq] at e; omega
    · rcases List.mem_cons.mp hmem with e | hmem
      · exact hen (e ▸ hgin)
      · exact hen (hinv.inner _ hmem)
  constructor
  · refine
      { dim := wr_dim (wr_dim (wr_dim hinv.dim hE2) h3) h4
        route := ?_, typ := ?_, border := ?_ }
    · refine ⟨((w - 1, h - 2) :: (w - 2, h - 2) :: (x, y) :: st ++ [(0, 1)]).reverse,
        ?_, ?_, ?_, ?_, ?_⟩
      · rw [List.nodup_reverse]
        have : ((w - 1, h - 2) :: (w - 2, h - 2) :: (x, y) :: st ++ [(0, 1)]) =
            ((w - 1, h - 2) :: (w - 2, h - 2) :: (x, y) :: st) ++ [(0, 1)] := by simp
        rw [this, List.nodup_append]
        refine ⟨List.nodup_cons.mpr ⟨hexnot, List.nodup_cons.mpr ⟨hgnot, hinv.nodup⟩⟩,
          by simp, ?_⟩
        intro a ha hb
        simp only [List.mem_singleton] at hb
        subst hb
        exact hennot ha
      · rw [List.chain'_reverse]
        have hflip : ∀ a b, Adj a b → flip Adj a b := fun a b hab => adj_symm hab
        have hc1 : List.Chain' Adj ((w - 1, h - 2) :: (w - 2, h - 2) :: (x, y) :: st) := by
          refine List.Chain'.cons ?_ (List.Chain'.cons ?_ hinv.chain)
          · exact Or.inr ⟨rfl, Or.inl (by simp only; omega)⟩
          · simp only [Adj]; omega
        have hc2 : List.Chain' Adj
            (((w - 1, h - 2) :: (w - 2, h - 2) :: (x, y) :: st) ++ [(0, 1)]) := by
          refine List.Chain'.append hc1 (by simp) ?_
          intro a ha b hb
          have hl := hinv.last
          simp only [List.getLast?_cons_cons] at ha
          rw [hl] at ha
          simp only [Option.mem_def, Option.some.injEq] at ha
          simp only [List.head?_cons, Option.mem_def, Option.some.injEq] at hb
          subst ha hb
          exact Or.inr ⟨rfl, Or.inl (by norm_num)⟩
        exact hc2.imp hflip
      · simp
      · rw [List.getLast?_reverse]; rfl
      · intro p
        rw [hcell]
        simp only [List.mem_reverse, List.cons_append, List.mem_cons, List.mem_append,
          List.mem_singleton]
        by_cases e1 : p = (w - 1, h - 2)
        · simp [e1]
        · by_cases e2 : p = (0, 1)
          · simp [e2]
          · by_cases e3 : p = (w - 2, h - 2)
            · simp [e3]
            · rw [if_neg e1, if_neg e2, if_neg e3, hinv.path p]
              simp [e1, e2, e3]
    · intro p hp
      have e1 : p ≠ (w - 1, h - 2) := fun e => hex (e ▸ hp)
      have e2 : p ≠ (0, 1) := fun e => hen (e ▸ hp)
      rw [hcell, if_neg e1, if_neg e2]
      by_cases e3 : p = (w - 2, h - 2)
      · subst e3
        rw [if_pos rfl]
        right
        rcases hinv.typ _ hp with ⟨_, hw'⟩ | ⟨hM, _⟩
        · rw [hgv] at hw'; exact absurd hw' (by decide)
        · exact ⟨hM, Or.inr (Or.inl rfl)⟩
      · rw [if_neg e3]; exact hinv.typ p hp
    · intro p b1 b2 b3 b4 hni e2 e1
      have e3 : p ≠ (w - 2, h - 2) := fun e => hni (e ▸ hgin)
      rw [hcell, if_neg e1, if_neg e2, if_neg e3]
      exact hinv.border p b1 b2 b3 b4 hni
  · constructor
    · intro p hp
      simp only [Marked] at hp ⊢
      rw [hcell]
      split_ifs
      · left; rfl
      · left; rfl
      · left; rfl
      · exact hp
    · intro p hp
      rw [hcell] at hp
      split_ifs at hp
      · exact absurd hp (by decide)
      · exact absurd hp (by decide)
      · exact absurd hp (by decide)
      · exact hp

/-- A write does not change the shape of the cells. -/
theorem dim_of_wr {maze maze' : Maze} {w h : Int} {y x v : Int}
    (hwr : wr maze y x v = some maze') (hd : Dim maze' w h) : Dim maze w h := by
  obtain ⟨hl, hr⟩ := hd
  unfold wr at hwr
  split at hwr
  · split at hwr
    · simp at hwr
    · rename_i row hrow
      split at hwr
      · simp only [Option.some.injEq] at hwr
        subst hwr
        obtain ⟨i1, i2⟩ := List.getElem?_eq_some_iff.mp hrow
        refine ⟨by simpa using hl, ?_⟩
        intro r hmem
        obtain ⟨k, hk, rfl⟩ := List.getElem_of_mem hmem
        have hk' : k < (maze.set y.toNat (row.set x.toNat v)).length := by simpa using hk
        have := hr ((maze.set y.toNat (row.set x.toNat v))[k]) (List.getElem_mem _)
        by_cases hky : k = y.toNat
        · subst hky
          simp only [List.getElem_set_self, List.length_set] at this
          rw [i2]; exact this
        · rw [List.getElem_set_ne (Ne.symm hky)] at this
          exact this
      · simp at hwr
  · simp at hwr

/-- One round of `solve` from a state that satisfies the invariant: it never
faults except by running out of draws; it continues in a state that satisfies
the invariant, or leaves the loop with a solved maze at hand, or returns 0
after a failed allocation. Marked cells stay marked. -/
theorem solve_body_spec {w h : Int} (hw : 3 ≤ w) (hh : 3 ≤ h) {M : Maze} {s : Walk} {E : Maze}
    (hE : wr s.maze s.y s.x PATH = some E) (hinv : SolInv w h M E (s.x, s.y) s.st)
    (hconn : InnerJoined M w h VISIT (w - 2, h - 2) (1, 1)) :
    solve_body w h s = .error .noDraws ∨
    (∃ s' E', solve_body w h s = .ok (.next s') ∧ wr s'.maze s'.y s'.x PATH = some E' ∧
      SolInv w h M E' (s'.x, s'.y) s'.st ∧ s'.draws.length < s.draws.length ∧
      (s'.mallocs = s.mallocs ∨ s'.mallocs = s.mallocs.tail) ∧
      (∀ p, Marked E p → Marked E' p) ∧
      ∀ p, cell E' p = some UPATH → cell E p = some UPATH ∨ p = (s.x, s.y)) ∨
    (∃ s' E3 E4, solve_body w h s = .ok (.brk s') ∧ wr s'.maze 1 0 PATH = some E3 ∧
      wr E3 (h - 2) (w - 1) PATH = some E4 ∧ Solved w h M E4 ∧
      (∀ p, Marked E p → Marked E4 p) ∧
      ∀ p, cell E4 p = some UPATH → cell E p = some UPATH) ∨
    (∃ m, solve_body w h s = .ok (.ret 0 m) ∧ s.mallocs.headD true = false) := by
  have hd : Dim s.maze w h := dim_of_wr hE hinv.dim
  have hin : Inner w h (s.x, s.y) := hinv.inner _ (List.mem_cons_self _ _)
  obtain ⟨E0, hE0, hc⟩ := solve_body_cases hd hin
  have hEE : E = E0 := by rw [hE] at hE0; exact Option.some.inj hE0
  subst hEE
  have hdE := hinv.dim
  rcases hc with he | ⟨hst, hnil, he⟩ | ⟨d, sx, sy, st', E2, hst, hcons, hE2, hlt, he⟩ |
    ⟨m, E2, hm, hgoal, hE2, he⟩ | ⟨m, hm, hng, hmal, he⟩ | ⟨m, hm, hng, hmal, hlt, he⟩
  · exact Or.inl he
  · exfalso
    rw [hnil] at hinv
    exact solInv_not_stuck hinv hst hconn
  · right; left
    rw [hcons] at hinv
    have hb := solInv_backtrack hinv hst hE2
    have hsp : cell E2 (sx, sy) = some PATH := (hb.path _).mpr (List.mem_cons_self _ _)
    refine ⟨_, E2, he, wr_same hsp, hb, hlt, Or.inl rfl, ?_, ?_⟩
    · intro p hp
      simp only [Marked] at hp ⊢
      rw [cell_wr hE2]
      split_ifs
      · right; rfl
      · exact hp
    · intro p hp
      rw [cell_wr hE2] at hp
      split_ifs at hp with hpc
      · exact Or.inr hpc
      · exact Or.inl hp
  · right; right; left
    have hd2 := wr_dim hdE hE2
    obtain ⟨E3, h3⟩ := wr_some_of_range hd2 (y := 1) (x := 0) PATH (by omega) (by omega)
      (by omega) (by omega)
    obtain ⟨E4, h4⟩ := wr_some_of_range (wr_dim hd2 h3) (y := h - 2) (x := w - 1) PATH
      (by omega) (by omega) (by omega) (by omega)
    obtain ⟨hS, hM, hU⟩ := solved_of_goal hw hinv hm hgoal hE2 h3 h4
    exact ⟨_, E3, E4, he, h3, h4, hS, hM, hU⟩
  · right; right; right
    exact ⟨E, he, hmal⟩
  · right; left
    have hm' := hm
    obtain ⟨_, _, a1, a2, a3, a4, _⟩ := hm'
    obtain ⟨E', hE'⟩ := wr_some_of_range hdE (y := m.y) (x := m.x) PATH (by omega) (by omega)
      (by omega) (by omega)
    refine ⟨_, E', he, hE', solInv_forward hinv hm hng hE', hlt, Or.inr rfl, ?_, ?_⟩
    · intro p hp
      simp only [Marked] at hp ⊢
      rw [cell_wr hE']
      split_ifs
      · left; rfl
      · exact hp
    · intro p hp
      rw [cell_wr hE'] at hp
      split_ifs at hp
      · exact absurd hp (by decide)
      · exact Or.inl hp

/-- The loop of `solve`, started in a state that satisfies the invariant, never
reads through `NULL` and never leaves the cells; when it returns, it returns 0
after a failed allocation or 1 with a solved maze in which every cell marked
before is still marked and every `UPATH` cell was `UPATH` before or has been the
current cell of a round. -/
theorem solve_loop_spec {w h : Int} (hw : 3 ≤ w) (hh : 3 ≤ h) {M : Maze}
    (hconn : InnerJoined M w h VISIT (w - 2, h - 2) (1, 1)) (n : Nat) {s : Walk} {E : Maze}
    (hE : wr s.maze s.y s.x PATH = some E) (hinv : SolInv w h M E (s.x, s.y) s.st) :
    solve_loop w h n s = .error .noDraws ∨
    (∃ m, solve_loop w h n s = .ok (0, m) ∧ false ∈ s.mallocs) ∨
    (∃ m, solve_loop w h n s = .ok (1, m) ∧ Solved w h M m ∧ (∀ p, Marked E p → Marked m p) ∧
      ∀ p, cell m p = some UPATH → cell E p = some UPATH ∨
        ∃ k s', solve_steps w h k s = some s' ∧ (s'.x, s'.y) = p) := by
  induction n generalizing s E with
  | zero => left; rfl
  | succ n ih =>
    rcases solve_body_spec hw hh hE hinv hconn with
      he | ⟨s', E', he, hE', hinv', _, hms, hmk, hup⟩ |
      ⟨s', E3, E4, he, h3, h4, hS, hmk, hup⟩ | ⟨m, he, hmal⟩
    · left; simp only [solve_loop, he]
    · simp only [solve_loop, he]
      rcases ih hE' hinv' with h1 | ⟨m, h1, hf⟩ | ⟨m, h1, hS, hmk', hup'⟩
      · exact Or.inl h1
      · refine Or.inr (Or.inl ⟨m, h1, ?_⟩)
        rcases hms with e | e
        · rw [← e]; exact hf
        · rw [e] at hf; exact List.mem_of_mem_tail hf
      · refine Or.inr (Or.inr ⟨m, h1, hS, fun p hp => hmk' p (hmk p hp), ?_⟩)
        intro p hp
        rcases hup' p hp with h2 | ⟨k, s'', hk, hcur⟩
        · rcases hup p h2 with h3 | h3
          · exact Or.inl h3
          · exact Or.inr ⟨0, s, rfl, h3.symm⟩
        · exact Or.inr ⟨k + 1, s'', by simp only [solve_steps, he]; exact hk, hcur⟩
    · right; right
      exact ⟨E4, by simp only [solve_loop, he, solve_finish, h3, h4], hS, hmk,
        fun p hp => Or.inl (hup p hp)⟩
    · right; left
      refine ⟨m, by simp only [solve_loop, he], ?_⟩
      cases hms : s.mallocs with
      | nil => rw [hms] at hmal; simp at hmal
      | cons b t =>
        rw [hms] at hmal
        simp only [List.headD_cons] at hmal
        subst hmal
        exact List.mem_cons_self _ _

/-! ## Runs of the loops -/

theorem generate_steps_ok {w h : Int} (hw : 3 ≤ w) (hh : 3 ≤ h) (hwo : w % 2 = 1)
    (hho : h % 2 = 1) (n : Nat) {s0 s : Walk} (hok : GenOK w h s0)
    (hrun : generate_steps w h n s0 = some s) : GenOK w h s := by
  induction n generalizing s0 with
  | zero =>
    simp only [generate_steps, Option.some.injEq] at hrun
    subst hrun; exact hok
  | succ n ih =>
    rcases generate_body_spec hw hh hwo hho hok with he | he | ⟨s', he, hok', _, _⟩ |
      ⟨s', he, _, _, _⟩ | ⟨m, he, _⟩
    · simp [generate_steps, he] at hrun
    · simp [generate_steps, he] at hrun
    · simp only [generate_steps, he] at hrun
      exact ih hok' hrun
    · simp [generate_steps, he] at hrun
    · simp [generate_steps, he] at hrun

theorem solve_start_safe {w h : Int} (hw : 3 ≤ w) (hh : 3 ≤ h) {maze : Maze}
    (hd : Dim maze w h) (draws : List Nat) (mallocs : List Bool) :
    ∃ s0, solve_start maze w h draws mallocs = some s0 ∧ SolSafe w h s0 := by
  obtain ⟨M1, h1⟩ := wr_some_of_range hd (y := 1) (x := 0) WALL (by omega) (by omega)
    (by omega) (by omega)
  obtain ⟨M2, h2⟩ := wr_some_of_range (wr_dim hd h1) (y := h - 2) (x := w - 1) WALL
    (by omega) (by omega) (by omega) (by omega)
  refine ⟨⟨M2, 1, 1, [], draws, mallocs⟩, by simp only [solve_start, h1, h2], ?_⟩
  refine ⟨wr_dim (wr_dim hd h1) h2, ?_, by simp⟩
  simp only [Inner]; omega

theorem solve_steps_safe {w h : Int} (n : Nat) {s0 s : Walk} (hok : SolSafe w h s0)
    (hrun : solve_steps w h n s0 = some s) : SolSafe w h s := by
  induction n generalizing s0 with
  | zero =>
    simp only [solve_steps, Option.some.injEq] at hrun
    subst hrun; exact hok
  | succ n ih =>
    obtain ⟨_, hnext, _⟩ := solve_body_safe hok
    simp only [solve_steps] at hrun
    split at hrun
    · rename_i s' he
      exact ih (hnext s' he) hrun
    · simp at hrun

theorem solve_loop_safe {w h : Int} (hw : 3 ≤ w) (hh : 3 ≤ h) (n : Nat) {s : Walk}
    (hok : SolSafe w h s) : solve_loop w h n s ≠ .error .outOfBounds := by
  induction n generalizing s with
  | zero => simp [solve_loop]
  | succ n ih =>
    obtain ⟨hne, hnext, hbrk⟩ := solve_body_safe hok
    simp only [solve_loop]
    split
    · rename_i e he
      intro heq
      simp only [Except.error.injEq] at heq
      subst heq
      exact hne he
    · rename_i s' he
      exact ih (hnext s' he)
    · rename_i s' he
      have hd := hbrk s' he
      obtain ⟨M1, h1⟩ := wr_some_of_range hd (y := 1) (x := 0) PATH (by omega) (by omega)
        (by omega) (by omega)
      obtain ⟨M2, h2⟩ := wr_some_of_range (wr_dim hd h1) (y := h - 2) (x := w - 1) PATH
        (by omega) (by omega) (by omega) (by omega)
      simp [solve_finish, h1, h2]
    · simp

/-- A run of `solve` that returns passes through the states of `solve_steps`. -/
theorem solve_loop_of_steps {w h : Int} (k : Nat) {s0 s : Walk}
    (hrun : solve_steps w h k s0 = some s) {N : Nat} {r : Int × Maze}
    (hres : solve_loop w h N s0 = .ok r) : ∃ n, solve_loop w h n s = .ok r := by
  induction k generalizing s0 N with
  | zero =>
    simp only [solve_steps, Option.some.injEq] at hrun
    subst hrun; exact ⟨N, hres⟩
  | succ k ih =>
    simp only [solve_steps] at hrun
    split at hrun
    · rename_i s' he
      cases N with
      | zero => simp [solve_loop] at hres
      | succ N =>
        simp only [solve_loop, he] at hres
        exact ih hrun hres
    · simp at hrun

/-! ## The bound on the number of rounds is no restriction -/

/-- Every round consumes a draw: more rounds than draws are never needed, so
the bound `draws.length + 1` used by `generate` does not cut a run short. -/
theorem generate_loop_fuel {w h : Int} (hw : 3 ≤ w) (hh : 3 ≤ h) (hwo : w % 2 = 1)
    (hho : h % 2 = 1) (n : Nat) {s : Walk} (hok : GenOK w h s) (hn : s.draws.length < n) :
    generate_loop w h (n + 1) s = generate_loop w h n s := by
  induction n generalizing s with
  | zero => omega
  | succ n ih =>
    rcases generate_body_spec hw hh hwo hho hok with he | he | ⟨s', he, hok', hlt, _⟩ |
      ⟨s', he, _⟩ | ⟨m, he, _⟩
    · simp only [generate_loop, he]
    · simp only [generate_loop, he]
    · have := ih hok' (by omega)
      simp only [generate_loop, he] at this ⊢
      exact this
    · simp only [generate_loop, he]
    · simp only [generate_loop, he]

/-- Every round consumes a draw: the bound `draws.length + 1` used by `solve`
does not cut a run short. -/
theorem solve_loop_fuel {w h : Int} (n : Nat) {s : Walk} (hok : SolSafe w h s)
    (hn : s.draws.length < n) : solve_loop w h (n + 1) s = solve_loop w h n s := by
  induction n generalizing s with
  | zero => omega
  | succ n ih =>
    obtain ⟨hd, hin, hst⟩ := hok
    obtain ⟨_, hnext, _⟩ := solve_body_safe ⟨hd, hin, hst⟩
    obtain ⟨E, hE, hc⟩ := solve_body_cases hd hin
    rcases hc with he | ⟨_, _, he⟩ | ⟨d, sx, sy, st', E2, _, _, _, hlt, he⟩ |
      ⟨m, E2, _, _, _, he⟩ | ⟨m, _, _, _, he⟩ | ⟨m, _, _, _, hlt, he⟩
    · simp only [solve_loop, he]
    · simp only [solve_loop, he]
    · have := ih (hnext _ he) (by simp only; omega)
      simp only [solve_loop, he] at this ⊢
      exact this
    · simp only [solve_loop, he]
    · simp only [solve_loop, he]
    · have := ih (hnext _ he) (by simp only; omega)
      simp only [solve_loop, he] at this ⊢
      exact this

/-- A run of `solve` keeps the invariant along the states of `solve_steps`. -/
theorem solve_steps_inv {w h : Int} (hw : 3 ≤ w) (hh : 3 ≤ h) {M : Maze}
    (hconn : InnerJoined M w h VISIT (w - 2, h - 2) (1, 1)) (k : Nat) (s0 : Walk) {s : Walk}
    {E0 : Maze}
    (hE0 : wr s0.maze s0.y s0.x PATH = some E0) (hinv : SolInv w h M E0 (s0.x, s0.y) s0.st)
    (hrun : solve_steps w h k s0 = some s) :
    ∃ E, wr s.maze s.y s.x PATH = some E ∧ SolInv w h M E (s.x, s.y) s.st := by
  induction k generalizing s0 E0 with
  | zero =>
    simp only [solve_steps, Option.some.injEq] at hrun
    subst hrun; exact ⟨E0, hE0, hinv⟩
  | succ k ih =>
    rcases solve_body_spec hw hh hE0 hinv hconn with he | ⟨s', E', he, hE', hinv', _, _, _⟩ |
      ⟨s', E3, E4, he, _, _, _, _⟩ | ⟨m, he, _⟩
    · simp [solve_steps, he] at hrun
    · simp only [solve_steps, he] at hrun
      exact ih s' hE' hinv' hrun
    · simp [solve_steps, he] at hrun
    · simp [solve_steps, he] at hrun

/-- Shared form of the results on `solve`: on a generated maze, a run that
returns 1 leaves a solved maze; the current cell of every round of the run is
marked in it, and every `UPATH` cell has been the current cell of a round. -/
theorem solve_solved {w h : Int} (hw : 3 ≤ w) (hh : 3 ≤ h) (hwo : w % 2 = 1) (hho : h % 2 = 1)
    {M : Maze} (hG : Generated w h M) {draws : List Nat} {mallocs : List Bool} {m : Maze}
    (hsol : solve M w h draws mallocs = .ok (1, m)) :
    Solved w h M m ∧
    (∀ s0, solve_start M w h draws mallocs = some s0 →
      ∀ n s, solve_steps w h n s0 = some s → Marked m (s.x, s.y)) ∧
    ∀ p, cell m p = some UPATH → ∃ s0 n s, solve_start M w h draws mallocs = some s0 ∧
      solve_steps w h n s0 = some s ∧ (s.x, s.y) = p := by
  have hconn : InnerJoined M w h VISIT (w - 2, h - 2) (1, 1) :=
    hG.conn (1, 1) (by simp only [Room, Inner]; omega)
  obtain ⟨M1, h1⟩ := wr_some_of_range hG.dim (y := 1) (x := 0) WALL (by omega) (by omega)
    (by omega) (by omega)
  obtain ⟨M2, h2⟩ := wr_some_of_range (wr_dim hG.dim h1) (y := h - 2) (x := w - 1) WALL
    (by omega) (by omega) (by omega) (by omega)
  obtain ⟨E, hE⟩ := wr_some_of_range (wr_dim (wr_dim hG.dim h1) h2) (y := 1) (x := 1) PATH
    (by omega) (by omega) (by omega) (by omega)
  have hinv := solInv_init hw hh hwo hho hG h1 h2 hE
  have hstart : solve_start M w h draws mallocs = some ⟨M2, 1, 1, [], draws, mallocs⟩ := by
    simp only [solve_start, h1, h2]
  simp only [solve, hstart] at hsol
  refine ⟨?_, ?_, ?_⟩
  · rcases solve_loop_spec hw hh hconn (draws.length + 1)
      (s := ⟨M2, 1, 1, [], draws, mallocs⟩) hE hinv with he | ⟨m', he, _⟩ | ⟨m', he, hS, _⟩
    · rw [he] at hsol; cases hsol
    · rw [he] at hsol; cases hsol
    · rw [he] at hsol; cases hsol; exact hS
  · intro s0 hs0 n s hrun
    rw [hstart] at hs0
    cases hs0
    obtain ⟨Es, hEs, hinvs⟩ := solve_steps_inv hw hh hconn n
      ⟨M2, 1, 1, [], draws, mallocs⟩ hE hinv hrun
    obtain ⟨n', hres⟩ := solve_loop_of_steps n hrun hsol
    have hcur : Marked Es (s.x, s.y) :=
      Or.inl ((hinvs.path _).mpr (List.mem_cons_self _ _))
    rcases solve_loop_spec hw hh hconn n' hEs hinvs with he | ⟨m', he, _⟩ | ⟨m', he, _, hmk, _⟩
    · rw [he] at hres; cases hres
    · rw [he] at hres; cases hres
    · rw [he] at hres; cases hres; exact hmk _ hcur
  · rcases solve_loop_spec hw hh hconn (draws.length + 1)
      (s := ⟨M2, 1, 1, [], draws, mallocs⟩) hE hinv with
      he | ⟨m', he, _⟩ | ⟨m', he, _, _, hup⟩
    · rw [he] at hsol; cases hsol
    · rw [he] at hsol; cases hsol
    · rw [he] at hsol
      cases hsol
      intro p hp
      rcases hup p hp with h0 | ⟨k, s', hk, hcur⟩
      · exact absurd h0 (solve_init_no_upath hG h1 h2 hE p)
      · exact ⟨_, k, s', hstart, hk, hcur⟩

/-! ## The claims -/

/-- C1: for odd `w, h ≥ 3`, any draws and any allocator outcomes, when
`generate` returns 1 on the grid built by `init w h`, the carved passages are
one fewer than the room cells, that is `((w-1)/2) * ((h-1)/2) - 1`, and the
graph of room cells and carved passages has no cycle. -/
theorem generate_spanning_tree (w h : Int) (hw : 3 ≤ w) (hh : 3 ≤ h) (hwo : w % 2 = 1)
    (hho : h % 2 = 1) (ms : List Bool) (maze : Maze) (hinit : init w h ms = some maze)
    (draws : List Nat) (mallocs : List Bool) (m : Maze)
    (hgen : generate maze w h draws mallocs = .ok (1, m)) :
    (passageCount m w h : Int) = ((rooms w h).card : Int) - 1 ∧
    ((rooms w h).card : Int) = ((w - 1) / 2) * ((h - 1) / 2) ∧
    Acyclic m w h := by
  have hG := generate_generated hw hh hwo hho hinit hgen
  have hr := card_rooms w h hw hh hwo hho
  have hc := hG.count
  exact ⟨by omega, hr, hG.acyc⟩

theorem generate_spanning_tree_witness :
    (passageCount [[2, 2, 2, 2, 2], [1, 1, 1, 1, 2], [2, 1, 2, 1, 2], [2, 1, 2, 1, 1],
        [2, 2, 2, 2, 2]] 5 5 : Int) = ((rooms 5 5).card : Int) - 1 ∧
    ((rooms 5 5).card : Int) = ((5 - 1) / 2) * ((5 - 1) / 2) ∧
    Acyclic [[2, 2, 2, 2, 2], [1, 1, 1, 1, 2], [2, 1, 2, 1, 2], [2, 1, 2, 1, 1],
        [2, 2, 2, 2, 2]] 5 5 :=
  generate_spanning_tree 5 5 (by decide) (by decide) (by decide) (by decide) []
    [[2, 2, 2, 2, 2], [2, 0, 2, 0, 2], [2, 2, 2, 2, 2], [2, 0, 2, 0, 2], [2, 2, 2, 2, 2]]
    (by decide) [0, 2, 1, 0, 1, 2, 3, 0, 1, 2, 3] [] _ rfl

/-- C2: for odd `w, h ≥ 3`, when a round of `generate` on the grid of
`init w h` leaves the loop through the test `st->next == NULL`, every room cell
is `VISIT` and joined to the start cell `(w-2, h-2)` by a chain of neighbouring
`VISIT` cells, and no cell of the grid is `UVISIT`. -/
theorem generate_exit_visits_all (w h : Int) (hw : 3 ≤ w) (hh : 3 ≤ h) (hwo : w % 2 = 1)
    (hho : h % 2 = 1) (ms : List Bool) (maze : Maze) (hinit : init w h ms = some maze)
    (draws : List Nat) (mallocs : List Bool) (n : Nat) (s s' : Walk)
    (hrun : generate_steps w h n (generate_start maze w h draws mallocs) = some s)
    (hbrk : generate_body w h s = .ok (.brk s')) :
    (∀ p, Room w h p →
      cell s'.maze p = some VISIT ∧ Joined s'.maze VISIT (w - 2, h - 2) p) ∧
    ∀ p, cell s'.maze p ≠ some UVISIT := by
  have hok := generate_steps_ok hw hh hwo hho n (genOK_start hw hh hwo hho hinit draws mallocs)
    hrun
  rcases generate_body_spec hw hh hwo hho hok with he | he | ⟨s'', he, _⟩ |
    ⟨s'', he, hinv, hall, _⟩ | ⟨m, he, _⟩
  · rw [he] at hbrk; cases hbrk
  · rw [he] at hbrk; cases hbrk
  · rw [he] at hbrk; cases hbrk
  · rw [he] at hbrk
    cases hbrk
    refine ⟨fun p hp => ⟨hall p hp, hinv.conn p hp (hall p hp)⟩, ?_⟩
    intro p hp
    obtain ⟨b1, b2, b3, b4⟩ := cell_range hinv.dim hp
    by_cases hr : Room w h p
    · rw [hall p hr] at hp; exact absurd hp (by decide)
    · by_cases hpp : Passage w h p
      · rcases hinv.typ_pass p hpp with e | e <;> (rw [e] at hp; exact absurd hp (by decide))
      · rw [hinv.typ_else p b1 b2 b3 b4 hr hpp] at hp; exact absurd hp (by decide)
  · rw [he] at hbrk; cases hbrk

theorem generate_exit_visits_all_witness :
    (∀ p, Room 5 5 p →
      cell [[2, 2, 2, 2, 2], [2, 1, 1, 1, 2], [2, 1, 2, 1, 2], [2, 1, 2, 1, 2],
        [2, 2, 2, 2, 2]] p = some VISIT ∧
      Joined [[2, 2, 2, 2, 2], [2, 1, 1, 1, 2], [2, 1, 2, 1, 2], [2, 1, 2, 1, 2],
        [2, 2, 2, 2, 2]] VISIT (5 - 2, 5 - 2) p) ∧
    ∀ p, cell [[2, 2, 2, 2, 2], [2, 1, 1, 1, 2], [2, 1, 2, 1, 2], [2, 1, 2, 1, 2],
        [2, 2, 2, 2, 2]] p ≠ some UVISIT :=
  generate_exit_visits_all 5 5 (by decide) (by decide) (by decide) (by decide) []
    [[2, 2, 2, 2, 2], [2, 0, 2, 0, 2], [2, 2, 2, 2, 2], [2, 0, 2, 0, 2], [2, 2, 2, 2, 2]]
    (by decide) [0, 2, 1, 0, 1, 2, 3, 0, 1, 2, 3] [] 4
    ⟨[[2, 2, 2, 2, 2], [2, 1, 1, 1, 2], [2, 1, 2, 1, 2], [2, 1, 2, 1, 2], [2, 2, 2, 2, 2]],
      1, 1, [(3, 1), (3, 3)], [0, 1, 2, 3], []⟩
    ⟨[[2, 2, 2, 2, 2], [2, 1, 1, 1, 2], [2, 1, 2, 1, 2], [2, 1, 2, 1, 2], [2, 2, 2, 2, 2]],
      3, 1, [(3, 3)], [], []⟩ rfl rfl

/-- C4: for odd `w, h ≥ 3`, a maze left by a successful `generate` and a run of
`solve` on it that returns 1: the `PATH` cells of the final grid are exactly the
cells of one simple chain of neighbouring cells from the entrance `(0, 1)` to
the exit `(w-1, h-2)`, and every cell that was the current cell of a round of
the walk and is not on that chain is `UPATH`. -/
theorem solve_marks_route (w h : Int) (hw : 3 ≤ w) (hh : 3 ≤ h) (hwo : w % 2 = 1)
    (hho : h % 2 = 1) (ms : List Bool) (maze : Maze) (hinit : init w h ms = some maze)
    (gdraws : List Nat) (gmallocs : List Bool) (M : Maze)
    (hgen : generate maze w h gdraws gmallocs = .ok (1, M))
    (draws : List Nat) (mallocs : List Bool) (m : Maze)
    (hsol : solve M w h draws mallocs = .ok (1, m)) :
    ∃ r : List (Int × Int), r.Nodup ∧ List.Chain' Adj r ∧ r.head? = some (0, 1) ∧
      r.getLast? = some (w - 1, h - 2) ∧ (∀ p, cell m p = some PATH ↔ p ∈ r) ∧
      ∀ s0, solve_start M w h draws mallocs = some s0 →
        ∀ n s, solve_steps w h n s0 = some s → (s.x, s.y) ∉ r →
          cell m (s.x, s.y) = some UPATH := by
  have hG := generate_generated hw hh hwo hho hinit hgen
  obtain ⟨hS, hmk, _⟩ := solve_solved hw hh hwo hho hG hsol
  obtain ⟨r, r1, r2, r3, r4, r5⟩ := hS.route
  refine ⟨r, r1, r2, r3, r4, r5, ?_⟩
  intro s0 hs0 n s hrun hnot
  rcases hmk s0 hs0 n s hrun with hp | hu
  · exact absurd ((r5 _).mp hp) hnot
  · exact hu

theorem solve_marks_route_witness :
    ∃ r : List (Int × Int), r.Nodup ∧ List.Chain' Adj r ∧ r.head? = some (0, 1) ∧
      r.getLast? = some (5 - 1, 5 - 2) ∧
      (∀ p, cell [[2, 2, 2, 2, 2], [3, 3, 3, 3, 2], [2, 4, 2, 3, 2], [2, 4, 2, 3, 3],
        [2, 2, 2, 2, 2]] p = some PATH ↔ p ∈ r) ∧
      ∀ s0, solve_start [[2, 2, 2, 2, 2], [1, 1, 1, 1, 2], [2, 1, 2, 1, 2], [2, 1, 2, 1, 1],
          [2, 2, 2, 2, 2]] 5 5 [1, 1, 0, 1, 2, 3, 0, 1, 2, 3, 3, 3, 1, 1] [] = some s0 →
        ∀ n s, solve_steps 5 5 n s0 = some s → (s.x, s.y) ∉ r →
          cell [[2, 2, 2, 2, 2], [3, 3, 3, 3, 2], [2, 4, 2, 3, 2], [2, 4, 2, 3, 3],
            [2, 2, 2, 2, 2]] (s.x, s.y) = some UPATH :=
  solve_marks_route 5 5 (by decide) (by decide) (by decide) (by decide) []
    [[2, 2, 2, 2, 2], [2, 0, 2, 0, 2], [2, 2, 2, 2, 2], [2, 0, 2, 0, 2], [2, 2, 2, 2, 2]]
    (by decide) [0, 2, 1, 0, 1, 2, 3, 0, 1, 2, 3] [] _ rfl
    [1, 1, 0, 1, 2, 3, 0, 1, 2, 3, 3, 3, 1, 1] [] _ rfl

/-- C10: for odd `w, h ≥ 3` and any draws and allocator outcomes, `generate` on
the grid of `init w h` and `solve` on any grid of `h` rows of `w` cells never
read or write a cell outside the grid (no round and no run ends in
`outOfBounds`), and at the head of every round the current cell satisfies
`1 ≤ x ≤ w-2` and `1 ≤ y ≤ h-2`. -/
theorem walks_stay_in_grid (w h : Int) (hw : 3 ≤ w) (hh : 3 ≤ h) (hwo : w % 2 = 1)
    (hho : h % 2 = 1) (draws : List Nat) (mallocs : List Bool) :
    (∀ ms maze, init w h ms = some maze →
      generate maze w h draws mallocs ≠ .error .outOfBounds ∧
      ∀ n s, generate_steps w h n (generate_start maze w h draws mallocs) = some s →
        generate_body w h s ≠ .error .outOfBounds ∧
        1 ≤ s.x ∧ s.x ≤ w - 2 ∧ 1 ≤ s.y ∧ s.y ≤ h - 2) ∧
    (∀ maze, Dim maze w h →
      solve maze w h draws mallocs ≠ .error .outOfBounds ∧
      ∀ s0, solve_start maze w h draws mallocs = some s0 →
        ∀ n s, solve_steps w h n s0 = some s →
          solve_body w h s ≠ .error .outOfBounds ∧
          1 ≤ s.x ∧ s.x ≤ w - 2 ∧ 1 ≤ s.y ∧ s.y ≤ h - 2) := by
  constructor
  · intro ms maze hinit
    have hok0 := genOK_start hw hh hwo hho hinit draws mallocs
    constructor
    · unfold generate
      rcases generate_loop_spec hw hh hwo hho (draws.length + 1) hok0 with he | he |
        ⟨m, he, _⟩ | ⟨m, he, _⟩ <;> (rw [he]; simp)
    · intro n s hrun
      have hok := generate_steps_ok hw hh hwo hho n hok0 hrun
      constructor
      · rcases generate_body_spec hw hh hwo hho hok with he | he | ⟨s', he, _⟩ |
          ⟨s', he, _⟩ | ⟨m, he, _⟩ <;> (rw [he]; simp)
      · obtain ⟨E, _, hinv⟩ := hok
        have hr := hinv.room _ (List.mem_cons_self _ _)
        simp only [Room, Inner] at hr
        omega
  · intro maze hd
    obtain ⟨s0, hs0, hsafe⟩ := solve_start_safe hw hh hd draws mallocs
    constructor
    · simp only [solve, hs0]
      exact solve_loop_safe hw hh _ hsafe
    · intro s0' hs0' n s hrun
      rw [hs0] at hs0'
      cases hs0'
      have hs := solve_steps_safe n hsafe hrun
      refine ⟨(solve_body_safe hs).1, ?_⟩
      obtain ⟨_, hin, _⟩ := hs
      simp only [Inner] at hin
      omega

theorem walks_stay_in_grid_witness :
    (∀ ms maze, init 5 5 ms = some maze →
      generate maze 5 5 [0, 2, 1, 0, 1, 2, 3] [] ≠ .error .outOfBounds ∧
      ∀ n s, generate_steps 5 5 n (generate_start maze 5 5 [0, 2, 1, 0, 1, 2, 3] []) = some s →
        generate_body 5 5 s ≠ .error .outOfBounds ∧
        1 ≤ s.x ∧ s.x ≤ 5 - 2 ∧ 1 ≤ s.y ∧ s.y ≤ 5 - 2) ∧
    (∀ maze, Dim maze 5 5 →
      solve maze 5 5 [0, 2, 1, 0, 1, 2, 3] [] ≠ .error .outOfBounds ∧
      ∀ s0, solve_start maze 5 5 [0, 2, 1, 0, 1, 2, 3] [] = some s0 →
        ∀ n s, solve_steps 5 5 n s0 = some s →
          solve_body 5 5 s ≠ .error .outOfBounds ∧
          1 ≤ s.x ∧ s.x ≤ 5 - 2 ∧ 1 ≤ s.y ∧ s.y ≤ 5 - 2) :=
  walks_stay_in_grid 5 5 (by decide) (by decide) (by decide) (by decide) [0, 2, 1, 0, 1, 2, 3] []

/-! ## Termination of `solve` -/

theorem drawsFrom_succ (f : Nat → Nat) (i k : Nat) :
    drawsFrom f i (k + 1) = f i :: drawsFrom f (i + 1) k := by
  simp [drawsFrom, List.range'_succ]

theorem drawsFrom_add (f : Nat → Nat) (i a b : Nat) :
    drawsFrom f i (a + b) = drawsFrom f i a ++ drawsFrom f (i + a) b := by
  unfold drawsFrom
  rw [← List.map_append, List.range'_append_1, Nat.add_comm b a]

theorem mem_drawsFrom {f : Nat → Nat} {i k j : Nat} (h1 : i ≤ j) (h2 : j < i + k) :
    f j ∈ drawsFrom f i k := by
  simp only [drawsFrom, List.mem_map]
  exact ⟨j, List.mem_range'_1.mpr ⟨h1, h2⟩, rfl⟩

theorem covers_of_fair {f : Nat → Nat} (hf : Fair f) (i : Nat) :
    ∃ K, Covers (drawsFrom f i K) true true true true := by
  obtain ⟨j0, h0, e0⟩ := hf 0 (by omega) i
  obtain ⟨j1, h1, e1⟩ := hf 1 (by omega) i
  obtain ⟨j2, h2, e2⟩ := hf 2 (by omega) i
  obtain ⟨j3, h3, e3⟩ := hf 3 (by omega) i
  refine ⟨j0 + j1 + j2 + j3 + 1, ?_, ?_, ?_, ?_⟩
  · intro _; exact ⟨f j0, mem_drawsFrom h0 (by omega), e0⟩
  · intro _; exact ⟨f j1, mem_drawsFrom h1 (by omega), e1⟩
  · intro _; exact ⟨f j2, mem_drawsFrom h2 (by omega), e2⟩
  · intro _; exact ⟨f j3, mem_drawsFrom h3 (by omega), e3⟩

theorem solve_rand_neighbour_loop_done (maze : Maze) (x y w h : Int) (X : List Nat) :
    solve_rand_neighbour_loop maze x y w h X false false false false
      = .ok ⟨0, maze, x, y, X⟩ := by
  cases X <;> simp [solve_rand_neighbour_loop]

/-- One draw of `solve_rand_neighbour`: it either moves, or rejects the drawn
direction and goes on with the flag of that direction cleared. -/
theorem solve_rand_neighbour_loop_draw {maze : Maze} {x y w h : Int} (hd : Dim maze w h)
    (hx0 : 0 < x) (hx : x < w - 1) (hy0 : 0 < y) (hy : y < h - 1)
    (r : Nat) (up down left right : Bool) (hany : (up || down || left || right) = true) :
    (∃ x' y', ∀ X, solve_rand_neighbour_loop maze x y w h (r :: X) up down left right
        = .ok ⟨1, maze, x', y', X⟩) ∨
    (∃ up' down' left' right',
      (∀ X, solve_rand_neighbour_loop maze x y w h (r :: X) up down left right
        = solve_rand_neighbour_loop maze x y w h X up' down' left' right') ∧
      (up' = true → up = true ∧ r % 4 ≠ 0) ∧ (down' = true → down = true ∧ r % 4 ≠ 1) ∧
      (left' = true → left = true ∧ r % 4 ≠ 2) ∧ (right' = true → right = true ∧ r % 4 ≠ 3)) := by
  have hr4 : r % 4 = 0 ∨ r % 4 = 1 ∨ r % 4 = 2 ∨ r % 4 = 3 := by omega
  rcases hr4 with h0 | h0 | h0 | h0
  · -- UP
    by_cases hb : y - 1 ≤ 0
    · right
      refine ⟨false, down, left, right, ?_, by simp, ?_, ?_, ?_⟩
      · intro X; simp only [solve_rand_neighbour_loop, hany, if_true, h0, hb]
      all_goals (intro hh; exact ⟨hh, by omega⟩)
    · obtain ⟨c, hc⟩ := rd_some_of_range hd (y := y - 1) (x := x) (by omega) (by omega)
        (by omega) (by omega)
      by_cases hu : c ≠ VISIT
      · right
        refine ⟨false, down, left, right, ?_, by simp, ?_, ?_, ?_⟩
        · intro X
          simp only [solve_rand_neighbour_loop, hany, if_true, h0, hb, if_false, hc]
          rw [if_pos hu]
        all_goals (intro hh; exact ⟨hh, by omega⟩)
      · left
        refine ⟨x, y - 1, ?_⟩
        intro X; simp only [solve_rand_neighbour_loop, hany, if_true, h0, hb, if_false, hc, hu]
  · -- DOWN
    by_cases hb : y + 1 ≥ h - 1
    · right
      refine ⟨up, false, left, right, ?_, ?_, by simp, ?_, ?_⟩
      · intro X; simp only [solve_rand_neighbour_loop, hany, if_true, h0, hb]
      all_goals (intro hh; exact ⟨hh, by omega⟩)
    · obtain ⟨c, hc⟩ := rd_some_of_range hd (y := y + 1) (x := x) (by omega) (by omega)
        (by omega) (by omega)
      by_cases hu : c ≠ VISIT
      · right
        refine ⟨up, false, left, right, ?_, ?_, by simp, ?_, ?_⟩
        · intro X
          simp only [solve_rand_neighbour_loop, hany, if_true, h0, hb, if_false, hc]
          rw [if_pos hu]
        all_goals (intro hh; exact ⟨hh, by omega⟩)
      · left
        refine ⟨x, y + 1, ?_⟩
        intro X; simp only [solve_rand_neighbour_loop, hany, if_true, h0, hb, if_false, hc, hu]
  · -- LEFT
    by_cases hb : x - 1 ≤ 0
    · right
      refine ⟨up, down, false, right, ?_, ?_, ?_, by simp, ?_⟩
      · intro X; simp only [solve_rand_neighbour_loop, hany, if_true, h0, hb]
      all_goals (intro hh; exact ⟨hh, by omega⟩)
    · obtain ⟨c, hc⟩ := rd_some_of_range hd (y := y) (x := x - 1) (by omega) (by omega)
        (by omega) (by omega)
      by_cases hu : c ≠ VISIT
      · right
        refine ⟨up, down, false, right, ?_, ?_, ?_, by simp, ?_⟩
        · intro X
          simp only [solve_rand_neighbour_loop, hany, if_true, h0, hb, if_false, hc]
          rw [if_pos hu]
        all_goals (intro hh; exact ⟨hh, by omega⟩)
      · left
        refine ⟨x - 1, y, ?_⟩
        intro X; simp only [solve_rand_neighbour_loop, hany, if_true, h0, hb, if_false, hc, hu]
  · -- RIGHT
    by_cases hb : x + 1 ≥ w - 1
    · right
      refine ⟨up, down, left, false, ?_, ?_, ?_, ?_, by simp⟩
      · intro X; simp only [solve_rand_neighbour_loop, hany, if_true, h0, hb]
      all_goals (intro hh; exact ⟨hh, by omega⟩)
    · obtain ⟨c, hc⟩ := rd_some_of_range hd (y := y) (x := x + 1) (by omega) (by omega)
        (by omega) (by omega)
      by_cases hu : c ≠ VISIT
      · right
        refine ⟨up, down, left, false, ?_, ?_, ?_, ?_, by simp⟩
        · intro X
          simp only [solve_rand_neighbour_loop, hany, if_true, h0, hb, if_false, hc]
          rw [if_pos hu]
        all_goals (intro hh; exact ⟨hh, by omega⟩)
      · left
        refine ⟨x + 1, y, ?_⟩
        intro X; simp only [solve_rand_neighbour_loop, hany, if_true, h0, hb, if_false, hc, hu]

/-- Along draws in which every direction still flagged turns up,
`solve_rand_neighbour` returns after finitely many draws. -/
theorem solve_rand_neighbour_loop_progress {maze : Maze} {x y w h : Int} (hd : Dim maze w h)
    (hx0 : 0 < x) (hx : x < w - 1) (hy0 : 0 < y) (hy : y < h - 1) (f : Nat → Nat)
    (K i : Nat) (up down left right : Bool)
    (hcov : Covers (drawsFrom f i K) up down left right) :
    ∃ k ret x' y', ∀ X,
      solve_rand_neighbour_loop maze x y w h (drawsFrom f i k ++ X) up down left right
        = .ok ⟨ret, maze, x', y', X⟩ := by
  induction K generalizing i up down left right with
  | zero =>
    obtain ⟨c1, c2, c3, c4⟩ := hcov
    simp only [drawsFrom, List.range'_zero, List.map_nil, List.not_mem_nil, false_and,
      exists_false, imp_false, Bool.not_eq_true] at c1 c2 c3 c4
    subst c1 c2 c3 c4
    exact ⟨0, 0, x, y, fun X => by
      simpa [drawsFrom] using solve_rand_neighbour_loop_done maze x y w h X⟩
  | succ K ih =>
    by_cases hany : (up || down || left || right) = true
    · rw [drawsFrom_succ] at hcov
      rcases solve_rand_neighbour_loop_draw hd hx0 hx hy0 hy (f i) up down left right hany with
        ⟨x', y', hmv⟩ | ⟨up', down', left', right', hcl, f1, f2, f3, f4⟩
      · refine ⟨1, 1, x', y', ?_⟩
        intro X
        have : drawsFrom f i 1 ++ X = f i :: X := by simp [drawsFrom]
        rw [this]; exact hmv X
      · have hcov' : Covers (drawsFrom f (i + 1) K) up' down' left' right' := by
          obtain ⟨c1, c2, c3, c4⟩ := hcov
          refine ⟨?_, ?_, ?_, ?_⟩
          · intro hh
            obtain ⟨d, hd1, hd2⟩ := c1 (f1 hh).1
            rcases List.mem_cons.mp hd1 with e | e
            · exact absurd (e ▸ hd2) (f1 hh).2
            · exact ⟨d, e, hd2⟩
          · intro hh
            obtain ⟨d, hd1, hd2⟩ := c2 (f2 hh).1
            rcases List.mem_cons.mp hd1 with e | e
            · exact absurd (e ▸ hd2) (f2 hh).2
            · exact ⟨d, e, hd2⟩
          · intro hh
            obtain ⟨d, hd1, hd2⟩ := c3 (f3 hh).1
            rcases List.mem_cons.mp hd1 with e | e
            · exact absurd (e ▸ hd2) (f3 hh).2
            · exact ⟨d, e, hd2⟩
          · intro hh
            obtain ⟨d, hd1, hd2⟩ := c4 (f4 hh).1
            rcases List.mem_cons.mp hd1 with e | e
            · exact absurd (e ▸ hd2) (f4 hh).2
            · exact ⟨d, e, hd2⟩
        obtain ⟨k, ret, x', y', hk⟩ := ih (i + 1) up' down' left' right' hcov'
        refine ⟨k + 1, ret, x', y', ?_⟩
        intro X
        rw [drawsFrom_succ, List.cons_append, hcl]
        exact hk X
    · simp only [Bool.or_eq_true, not_or, Bool.not_eq_true] at hany
      obtain ⟨⟨⟨h1, h2⟩, h3⟩, h4⟩ := hany
      subst h1 h2 h3 h4
      exact ⟨0, 0, x, y, fun X => by
        simpa [drawsFrom] using solve_rand_neighbour_loop_done maze x y w h X⟩

theorem visitCount_pos {maze : Maze} {w h : Int} {p : Int × Int} (hin : Inner w h p)
    (hv : cell maze p = some VISIT) : 1 ≤ visitCount maze w h := by
  apply Finset.card_pos.mpr
  exact ⟨p, Finset.mem_filter.mpr ⟨mem_interior.mpr hin, hv⟩⟩

theorem visitCount_mark {E E' : Maze} {w h : Int} {x y v : Int}
    (hwr : wr E y x v = some E') (hin : Inner w h (x, y)) (hv : cell E (x, y) = some VISIT)
    (hne : v ≠ VISIT) : visitCount E' w h + 1 = visitCount E w h := by
  have e : (interior w h).filter (fun p => cell E' p = some VISIT)
      = ((interior w h).filter (fun p => cell E p = some VISIT)).erase (x, y) := by
    ext q
    simp only [Finset.mem_filter, Finset.mem_erase, cell_wr hwr]
    by_cases hq : q = (x, y)
    · subst hq
      simp only [if_true, Option.some.injEq, ne_eq, not_true_eq_false, false_and, and_false,
        iff_false, not_and]
      intro _ hh; exact hne hh
    · simp [hq]
  have hmem : (x, y) ∈ (interior w h).filter (fun p => cell E p = some VISIT) :=
    Finset.mem_filter.mpr ⟨mem_interior.mpr hin, hv⟩
  simp only [visitCount]
  rw [e, Finset.card_erase_of_mem hmem]
  have := Finset.card_pos.mpr ⟨_, hmem⟩
  omega

theorem visitCount_same {E E' : Maze} {w h : Int} {x y v : Int}
    (hwr : wr E y x v = some E') (hv : cell E (x, y) ≠ some VISIT)
    (hne : v ≠ VISIT) : visitCount E' w h = visitCount E w h := by
  simp only [visitCount]
  congr 1
  ext q
  simp only [Finset.mem_filter, cell_wr hwr]
  by_cases hq : q = (x, y)
  · subst hq
    simp only [if_true, Option.some.injEq]
    constructor
    · rintro ⟨_, hh⟩; exact absurd hh hne
    · rintro ⟨_, hh⟩; exact absurd hh hv
  · simp [hq]

/-- With draws in which every direction keeps turning up and an allocator that
never fails, the loop of `solve` returns 1 after finitely many draws. -/
theorem solve_loop_terminates {w h : Int} (hw : 3 ≤ w) (hh : 3 ≤ h) {M : Maze}
    (hconn : InnerJoined M w h VISIT (w - 2, h - 2) (1, 1)) {f : Nat → Nat} (hf : Fair f)
    (μ : Nat) (maze : Maze) (x y : Int) (st : Stack) (mallocs : List Bool) (E : Maze) (i : Nat)
    (hE : wr maze y x PATH = some E) (hinv : SolInv w h M E (x, y) st)
    (hall : ∀ b ∈ mallocs, b = true) (hμ : 2 * visitCount E w h + st.length ≤ μ) :
    ∃ k, ∀ X fuel, k < fuel →
      ∃ m', solve_loop w h fuel ⟨maze, x, y, st, drawsFrom f i k ++ X, mallocs⟩ = .ok (1, m') := by
  induction μ generalizing maze x y st mallocs E i with
  | zero =>
    have hgi : Inner w h (w - 2, h - 2) := by simp only [Inner]; omega
    have := visitCount_pos hgi hinv.goal
    omega
  | succ μ ih =>
    have hin : Inner w h (x, y) := hinv.inner _ (List.mem_cons_self _ _)
    have hci := hin
    simp only [Inner] at hci
    have hdE := hinv.dim
    have hcp : cell E (x, y) = some PATH := (hinv.path _).mpr (List.mem_cons_self _ _)
    obtain ⟨K, hcov⟩ := covers_of_fair hf i
    obtain ⟨k1, ret, x', y', hrn⟩ := solve_rand_neighbour_loop_progress hdE (x := x) (y := y)
      (by omega) (by omega) (by omega) (by omega) f K i true true true true hcov
    rcases solve_rand_neighbour_loop_spec hdE (x := x) (y := y) (by omega) (by omega)
      (by omega) (by omega) (drawsFrom f i k1 ++ []) true true true true with
      he | ⟨m, he, _, hlt, hs⟩
    · rw [hrn []] at he; cases he
    · rw [hrn []] at he
      cases he
      have hk1 : 0 < k1 := by
        have := hlt rfl
        simp [drawsFrom] at this
        omega
      rcases hs with ⟨hr, _, hmx, hmy, s1, s2, s3, s4⟩ | ⟨hr, hst⟩
      · -- stuck
        simp only at hr hmx hmy
        have hmx' := hmx.symm
        have hmy' := hmy.symm
        subst hr hmx' hmy'
        have hstuck : SolStuck E x y w h := ⟨s1 rfl, s2 rfl, s3 rfl, s4 rfl⟩
        match st, hinv, hμ with
        | [], hinv, _ => exact absurd (solInv_not_stuck hinv hstuck hconn) id
        | (sx, sy) :: st', hinv, hμ =>
          obtain ⟨E2, hE2⟩ := wr_some_of_range hdE (y := y) (x := x) UPATH (by omega) (by omega)
            (by omega) (by omega)
          have hb := solInv_backtrack hinv hstuck hE2
          have hsp : cell E2 (sx, sy) = some PATH := (hb.path _).mpr (List.mem_cons_self _ _)
          have hvc : visitCount E2 w h = visitCount E w h :=
            visitCount_same hE2 (by rw [hcp]; decide) (by decide)
          obtain ⟨k2, hk2⟩ := ih E2 sx sy st' mallocs E2 (i + k1) (wr_same hsp) hb hall
            (by simp only [List.length_cons] at hμ; omega)
          refine ⟨k1 + k2, ?_⟩
          intro X fuel hfuel
          cases fuel with
          | zero => omega
          | succ fuel =>
            obtain ⟨m', hm'⟩ := hk2 X fuel (by omega)
            refine ⟨m', ?_⟩
            rw [drawsFrom_add, List.append_assoc]
            simp only [solve_loop, solve_body, hE, solve_rand_neighbour, hrn, ne_eq,
              not_true_eq_false, if_false, hE2, pop]
            exact hm'
      · simp only at hr
        subst hr
        have hst' := hst
        obtain ⟨_, _, a1, a2, a3, a4, hv⟩ := hst'
        simp only at a1 a2 a3 a4 hv
        by_cases hgoal : x' = w - 2 ∧ y' = h - 2
        · -- the goal cell is reached
          obtain ⟨gx, gy⟩ := hgoal
          subst gx gy
          obtain ⟨E2, hE2⟩ := wr_some_of_range hdE (y := h - 2) (x := w - 2) PATH (by omega)
            (by omega) (by omega) (by omega)
          have hd2 := wr_dim hdE hE2
          obtain ⟨E3, h3⟩ := wr_some_of_range hd2 (y := 1) (x := 0) PATH (by omega) (by omega)
            (by omega) (by omega)
          obtain ⟨E4, h4⟩ := wr_some_of_range (wr_dim hd2 h3) (y := h - 2) (x := w - 1) PATH
            (by omega) (by omega) (by omega) (by omega)
          refine ⟨k1, ?_⟩
          intro X fuel hfuel
          cases fuel with
          | zero => omega
          | succ fuel =>
            refine ⟨E4, ?_⟩
            simp only [solve_loop, solve_body, hE, solve_rand_neighbour, hrn, ne_eq,
              one_ne_zero, not_false_eq_true, if_true, and_self, hE2, solve_finish,
              h3, h4]
        · -- a forward move
          obtain ⟨E', hE'⟩ := wr_some_of_range hdE (y := y') (x := x') PATH (by omega)
            (by omega) (by omega) (by omega)
          have hfw := solInv_forward hinv hst hgoal hE'
          have hvc : visitCount E' w h + 1 = visitCount E w h :=
            visitCount_mark hE' ⟨a1, a2, a3, a4⟩ hv (by decide)
          have hmal : mallocs.headD true = true := by
            cases mallocs with
            | nil => rfl
            | cons b t => exact hall b (List.mem_cons_self _ _)
          have hall' : ∀ b ∈ mallocs.tail, b = true :=
            fun b hb => hall b (List.mem_of_mem_tail hb)
          obtain ⟨k2, hk2⟩ := ih E x' y' ((x, y) :: st) mallocs.tail E' (i + k1) hE' hfw hall'
            (by simp only [List.length_cons]; omega)
          refine ⟨k1 + k2, ?_⟩
          intro X fuel hfuel
          cases fuel with
          | zero => omega
          | succ fuel =>
            obtain ⟨m', hm'⟩ := hk2 X fuel (by omega)
            refine ⟨m', ?_⟩
            rw [drawsFrom_add, List.append_assoc]
            simp only [solve_loop, solve_body, hE, solve_rand_neighbour, hrn, ne_eq,
              one_ne_zero, not_false_eq_true, if_true, hgoal, if_false, push, hmal,
              Bool.true_eq_false]
            exact hm'

theorem joined_of_chain {maze : Maze} {v : Int} (r : List (Int × Int)) (a b : Int × Int)
    (hch : List.Chain' Adj r) (hall : ∀ p ∈ r, cell maze p = some v)
    (hhead : r.head? = some a) (hlast : r.getLast? = some b) : Joined maze v a b := by
  induction r generalizing a with
  | nil => simp at hhead
  | cons c r ih =>
    simp only [List.head?_cons, Option.some.injEq] at hhead
    subst hhead
    cases r with
    | nil =>
      simp only [List.getLast?_singleton, Option.some.injEq] at hlast
      subst hlast
      exact Relation.ReflTransGen.refl
    | cons d r' =>
      rw [List.getLast?_cons_cons] at hlast
      have hcd := (List.chain'_cons.mp hch).1
      have hrest := (List.chain'_cons.mp hch).2
      have hj := ih d hrest (fun p hp => hall p (List.mem_cons_of_mem _ hp)) rfl hlast
      exact Relation.ReflTransGen.head
        ⟨hcd, hall _ (List.mem_cons_self _ _), hall _ (by simp)⟩ hj

theorem solve_rand_neighbour_loop_up_only (maze : Maze) (n : Nat) (up : Bool) :
    solve_rand_neighbour_loop maze 1 1 5 5 (List.replicate n 0) up true true true
      = .error .noDraws := by
  induction n generalizing up with
  | zero => simp [solve_rand_neighbour_loop]
  | succ n ih =>
    simp only [List.replicate_succ, solve_rand_neighbour_loop, Bool.or_true, if_true]
    exact ih false

/-- C3 (as stated) fails: on the maze that `generate` carves from `init 5 5`
with the draws 0, 2, 1, 0, 1, 2, 3, 0, 1, 2, 3, a run of `solve` in which every
draw is 0 never returns, however many draws it is given: in `(1, 1)` the
direction UP is rejected again and again and no other direction is ever
tried. -/
theorem solve_constant_draws_never_returns :
    init 5 5 [] = some [[2, 2, 2, 2, 2], [2, 0, 2, 0, 2], [2, 2, 2, 2, 2], [2, 0, 2, 0, 2],
      [2, 2, 2, 2, 2]] ∧
    generate [[2, 2, 2, 2, 2], [2, 0, 2, 0, 2], [2, 2, 2, 2, 2], [2, 0, 2, 0, 2],
      [2, 2, 2, 2, 2]] 5 5 [0, 2, 1, 0, 1, 2, 3, 0, 1, 2, 3] []
      = .ok (1, [[2, 2, 2, 2, 2], [1, 1, 1, 1, 2], [2, 1, 2, 1, 2], [2, 1, 2, 1, 1],
        [2, 2, 2, 2, 2]]) ∧
    ∀ n : Nat, solve [[2, 2, 2, 2, 2], [1, 1, 1, 1, 2], [2, 1, 2, 1, 2], [2, 1, 2, 1, 1],
      [2, 2, 2, 2, 2]] 5 5 (List.replicate n 0) [] = .error .noDraws := by
  refine ⟨by decide, rfl, ?_⟩
  intro n
  have hs : solve_start [[2, 2, 2, 2, 2], [1, 1, 1, 1, 2], [2, 1, 2, 1, 2], [2, 1, 2, 1, 1],
      [2, 2, 2, 2, 2]] 5 5 (List.replicate n 0) []
      = some ⟨[[2, 2, 2, 2, 2], [2, 1, 1, 1, 2], [2, 1, 2, 1, 2], [2, 1, 2, 1, 2],
        [2, 2, 2, 2, 2]], 1, 1, [], List.replicate n 0, []⟩ := by
    simp [solve_start, wr]
  have hw : wr [[2, 2, 2, 2, 2], [2, 1, 1, 1, 2], [2, 1, 2, 1, 2], [2, 1, 2, 1, 2],
      [2, 2, 2, 2, 2]] 1 1 PATH
      = some [[2, 2, 2, 2, 2], [2, 3, 1, 1, 2], [2, 1, 2, 1, 2], [2, 1, 2, 1, 2],
        [2, 2, 2, 2, 2]] := by decide
  simp only [solve, hs, List.length_replicate, solve_loop, solve_body, hw, solve_rand_neighbour,
    solve_rand_neighbour_loop_up_only]

/-- C3 (amended): for odd `w, h ≥ 3` and a maze left by a successful `generate`
on the grid of `init w h`, for every unending sequence of draws in which each of
the four directions keeps turning up and every allocator that does not fail,
`solve` returns after finitely many draws `k` (whatever draws follow them), it
returns 1, and in the resulting grid the entrance `(0, 1)` and the exit
`(w-1, h-2)` are `PATH` and joined by a chain of neighbouring `PATH` cells. -/
theorem solve_finds_path (w h : Int) (hw : 3 ≤ w) (hh : 3 ≤ h) (hwo : w % 2 = 1)
    (hho : h % 2 = 1) (ms : List Bool) (maze : Maze) (hinit : init w h ms = some maze)
    (gdraws : List Nat) (gmallocs : List Bool) (M : Maze)
    (hgen : generate maze w h gdraws gmallocs = .ok (1, M))
    (f : Nat → Nat) (hf : Fair f) (mallocs : List Bool) (hall : ∀ b ∈ mallocs, b = true) :
    ∃ k, ∀ X, ∃ m, solve M w h (drawsFrom f 0 k ++ X) mallocs = .ok (1, m) ∧
      cell m (0, 1) = some PATH ∧ cell m (w - 1, h - 2) = some PATH ∧
      Joined m PATH (0, 1) (w - 1, h - 2) := by
  have hG := generate_generated hw hh hwo hho hinit hgen
  have hconn : InnerJoined M w h VISIT (w - 2, h - 2) (1, 1) :=
    hG.conn (1, 1) (by simp only [Room, Inner]; omega)
  obtain ⟨M1, h1⟩ := wr_some_of_range hG.dim (y := 1) (x := 0) WALL (by omega) (by omega)
    (by omega) (by omega)
  obtain ⟨M2, h2⟩ := wr_some_of_range (wr_dim hG.dim h1) (y := h - 2) (x := w - 1) WALL
    (by omega) (by omega) (by omega) (by omega)
  obtain ⟨E, hE⟩ := wr_some_of_range (wr_dim (wr_dim hG.dim h1) h2) (y := 1) (x := 1) PATH
    (by omega) (by omega) (by omega) (by omega)
  have hinv := solInv_init hw hh hwo hho hG h1 h2 hE
  obtain ⟨k, hk⟩ := solve_loop_terminates hw hh hconn hf _ M2 1 1 [] mallocs E 0 hE hinv hall
    (le_refl _)
  refine ⟨k, ?_⟩
  intro X
  obtain ⟨m, hm⟩ := hk X ((drawsFrom f 0 k ++ X).length + 1) (by
    simp [drawsFrom]; omega)
  have hsol : solve M w h (drawsFrom f 0 k ++ X) mallocs = .ok (1, m) := by
    simp only [solve, solve_start, h1, h2]
    exact hm
  obtain ⟨hS, _, _⟩ := solve_solved hw hh hwo hho hG hsol
  obtain ⟨r, _, r2, r3, r4, r5⟩ := hS.route
  have hp : ∀ p ∈ r, cell m p = some PATH := fun p hp => (r5 p).mpr hp
  refine ⟨m, hsol, ?_, ?_, joined_of_chain r _ _ r2 hp r3 r4⟩
  · exact hp _ (List.mem_of_mem_head? r3)
  · exact hp _ (List.mem_of_mem_getLast? r4)

theorem solve_finds_path_witness :
    ∃ k, ∀ X, ∃ m, solve [[2, 2, 2, 2, 2], [1, 1, 1, 1, 2], [2, 1, 2, 1, 2], [2, 1, 2, 1, 1],
        [2, 2, 2, 2, 2]] 5 5 (drawsFrom (fun j => j) 0 k ++ X) [] = .ok (1, m) ∧
      cell m (0, 1) = some PATH ∧ cell m (5 - 1, 5 - 2) = some PATH ∧
      Joined m PATH (0, 1) (5 - 1, 5 - 2) :=
  solve_finds_path 5 5 (by decide) (by decide) (by decide) (by decide) []
    [[2, 2, 2, 2, 2], [2, 0, 2, 0, 2], [2, 2, 2, 2, 2], [2, 0, 2, 0, 2], [2, 2, 2, 2, 2]]
    (by decide) [0, 2, 1, 0, 1, 2, 3, 0, 1, 2, 3] [] _ rfl (fun j => j)
    (fun d _ i => ⟨4 * i + d, by omega, by show (4 * i + d) % 4 = d; omega⟩) [] (by simp)

/-! ## The 5 × 5 maze -/

theorem passages_5x5 (maze : Maze) :
    passages maze 5 5 =
      ({(2, 1), (1, 2), (3, 2), (2, 3)} : Finset (Int × Int)).filter
        fun p => cell maze p = some VISIT := by
  ext ⟨x, y⟩
  simp only [mem_passages, Passage, Inner, Finset.mem_filter, Finset.mem_insert,
    Finset.mem_singleton, Prod.mk.injEq]
  constructor
  · rintro ⟨hp, hv⟩; exact ⟨by omega, hv⟩
  · rintro ⟨hp, hv⟩; exact ⟨by omega, hv⟩

/-- In a generated 5 × 5 maze exactly one of the four cells between the rooms
is still `WALL`; the other three are `VISIT`. -/
theorem generated_5x5_passages {M : Maze} (hG : Generated 5 5 M) :
    ∃ c ∈ [((2 : Int), (1 : Int)), (1, 2), (3, 2), (2, 3)], cell M c = some WALL ∧
      ∀ c' ∈ [((2 : Int), (1 : Int)), (1, 2), (3, 2), (2, 3)], c' ≠ c →
        cell M c' = some VISIT := by
  have hc := hG.count
  have h3 : passageCount M 5 5 = 3 := by
    have : ((5 : Int) - 1) / 2 * ((5 - 1) / 2) = 4 := by decide
    rw [this] at hc
    omega
  simp only [passageCount, passages_5x5] at h3
  have h4 := Finset.filter_card_add_filter_neg_card_eq_card
    (s := ({(2, 1), (1, 2), (3, 2), (2, 3)} : Finset (Int × Int)))
    (fun p => cell M p = some VISIT)
  have hS : ({(2, 1), (1, 2), (3, 2), (2, 3)} : Finset (Int × Int)).card = 4 := by decide
  rw [h3, hS] at h4
  have h1 : (({(2, 1), (1, 2), (3, 2), (2, 3)} : Finset (Int × Int)).filter
      fun p => ¬ cell M p = some VISIT).card = 1 := by omega
  obtain ⟨c, hc1⟩ := Finset.card_eq_one.mp h1
  have hcm : c ∈ ({(2, 1), (1, 2), (3, 2), (2, 3)} : Finset (Int × Int)).filter
      fun p => ¬ cell M p = some VISIT := by rw [hc1]; exact Finset.mem_singleton_self c
  obtain ⟨hcS, hcv⟩ := Finset.mem_filter.mp hcm
  have hpass : ∀ q ∈ ({(2, 1), (1, 2), (3, 2), (2, 3)} : Finset (Int × Int)),
      Passage 5 5 q := by
    rintro ⟨qx, qy⟩ hq
    simp only [Finset.mem_insert, Finset.mem_singleton, Prod.mk.injEq] at hq
    simp only [Passage, Inner]
    omega
  refine ⟨c, by simpa using hcS, ?_, ?_⟩
  · rcases hG.pass c (hpass c hcS) with e | e
    · exact e
    · exact absurd e hcv
  · intro c' hc' hne
    have hc'S : c' ∈ ({(2, 1), (1, 2), (3, 2), (2, 3)} : Finset (Int × Int)) := by
      simpa using hc'
    by_contra hnv
    have : c' ∈ ({(2, 1), (1, 2), (3, 2), (2, 3)} : Finset (Int × Int)).filter
        fun p => ¬ cell M p = some VISIT := Finset.mem_filter.mpr ⟨hc'S, hnv⟩
    rw [hc1] at this
    exact hne (Finset.mem_singleton.mp this)

/-- C8 (as stated) fails: on the grid of `init 5 5`, a run of `generate` whose
first `push` cannot allocate returns 0, not 1, and leaves three rooms
`UVISIT`. -/
theorem generate_5x5_allocation_failure :
    init 5 5 [] = some [[2, 2, 2, 2, 2], [2, 0, 2, 0, 2], [2, 2, 2, 2, 2], [2, 0, 2, 0, 2],
      [2, 2, 2, 2, 2]] ∧
    generate [[2, 2, 2, 2, 2], [2, 0, 2, 0, 2], [2, 2, 2, 2, 2], [2, 0, 2, 0, 2],
      [2, 2, 2, 2, 2]] 5 5 [0] [false]
      = .ok (0, [[2, 2, 2, 2, 2], [2, 0, 2, 0, 2], [2, 2, 2, 1, 2], [2, 0, 2, 1, 2],
        [2, 2, 2, 2, 2]]) :=
  ⟨by decide, rfl⟩

/-- C8 (amended): every run of `generate` on the grid of `init 5 5` that
returns, returns 1, or 0 after a failed allocation; when it returns 1 the four
room cells are `VISIT`, exactly three of the four cells `(2,1)`, `(1,2)`,
`(3,2)`, `(2,3)` between them are `VISIT` and the fourth is `WALL`, and the
entrance `(0,1)` and the exit `(4,3)` are `VISIT`. -/
theorem generate_5x5_outcome (ms : List Bool) (maze : Maze) (hinit : init 5 5 ms = some maze)
    (draws : List Nat) (mallocs : List Bool) (r : Int) (m : Maze)
    (hgen : generate maze 5 5 draws mallocs = .ok (r, m)) :
    (r = 1 ∨ (r = 0 ∧ false ∈ mallocs)) ∧
    (r = 1 →
      (cell m (1, 1) = some VISIT ∧ cell m (1, 3) = some VISIT ∧
        cell m (3, 1) = some VISIT ∧ cell m (3, 3) = some VISIT) ∧
      (∃ c ∈ [((2 : Int), (1 : Int)), (1, 2), (3, 2), (2, 3)], cell m c = some WALL ∧
        ∀ c' ∈ [((2 : Int), (1 : Int)), (1, 2), (3, 2), (2, 3)], c' ≠ c →
          cell m c' = some VISIT) ∧
      cell m (0, 1) = some VISIT ∧ cell m (4, 3) = some VISIT) := by
  have hgen' := hgen
  unfold generate at hgen'
  rcases generate_loop_spec (w := 5) (h := 5) (by decide) (by decide) (by decide) (by decide)
    (draws.length + 1) (genOK_start (by decide) (by decide) (by decide) (by decide) hinit
      draws mallocs) with he | he | ⟨m', he, hf⟩ | ⟨m', he, hG⟩
  · rw [he] at hgen'; cases hgen'
  · rw [he] at hgen'; cases hgen'
  · rw [he] at hgen'
    cases hgen'
    exact ⟨Or.inr ⟨rfl, hf⟩, fun h => absurd h (by decide)⟩
  · rw [he] at hgen'
    cases hgen'
    refine ⟨Or.inl rfl, fun _ => ⟨⟨?_, ?_, ?_, ?_⟩, generated_5x5_passages hG, hG.entrance,
      hG.exit⟩⟩
    all_goals (apply hG.rooms; simp only [Room, Inner]; omega)

theorem generate_5x5_outcome_witness :
    (((1 : Int) = 1 ∨ ((1 : Int) = 0 ∧ false ∈ ([] : List Bool)))) ∧
    ((1 : Int) = 1 →
      (cell [[2, 2, 2, 2, 2], [1, 1, 1, 1, 2], [2, 1, 2, 1, 2], [2, 1, 2, 1, 1],
          [2, 2, 2, 2, 2]] (1, 1) = some VISIT ∧
        cell [[2, 2, 2, 2, 2], [1, 1, 1, 1, 2], [2, 1, 2, 1, 2], [2, 1, 2, 1, 1],
          [2, 2, 2, 2, 2]] (1, 3) = some VISIT ∧
        cell [[2, 2, 2, 2, 2], [1, 1, 1, 1, 2], [2, 1, 2, 1, 2], [2, 1, 2, 1, 1],
          [2, 2, 2, 2, 2]] (3, 1) = some VISIT ∧
        cell [[2, 2, 2, 2, 2], [1, 1, 1, 1, 2], [2, 1, 2, 1, 2], [2, 1, 2, 1, 1],
          [2, 2, 2, 2, 2]] (3, 3) = some VISIT) ∧
      (∃ c ∈ [((2 : Int), (1 : Int)), (1, 2), (3, 2), (2, 3)],
        cell [[2, 2, 2, 2, 2], [1, 1, 1, 1, 2], [2, 1, 2, 1, 2], [2, 1, 2, 1, 1],
          [2, 2, 2, 2, 2]] c = some WALL ∧
        ∀ c' ∈ [((2 : Int), (1 : Int)), (1, 2), (3, 2), (2, 3)], c' ≠ c →
          cell [[2, 2, 2, 2, 2], [1, 1, 1, 1, 2], [2, 1, 2, 1, 2], [2, 1, 2, 1, 1],
            [2, 2, 2, 2, 2]] c' = some VISIT) ∧
      cell [[2, 2, 2, 2, 2], [1, 1, 1, 1, 2], [2, 1, 2, 1, 2], [2, 1, 2, 1, 1],
        [2, 2, 2, 2, 2]] (0, 1) = some VISIT ∧
      cell [[2, 2, 2, 2, 2], [1, 1, 1, 1, 2], [2, 1, 2, 1, 2], [2, 1, 2, 1, 1],
        [2, 2, 2, 2, 2]] (4, 3) = some VISIT) :=
  generate_5x5_outcome []
    [[2, 2, 2, 2, 2], [2, 0, 2, 0, 2], [2, 2, 2, 2, 2], [2, 0, 2, 0, 2], [2, 2, 2, 2, 2]]
    (by decide) [0, 2, 1, 0, 1, 2, 3, 0, 1, 2, 3] [] 1 _ rfl

/-- In a simple chain every point other than its two ends has two different
neighbours on the chain. -/
theorem chain_two_neighbours {α : Type} (R : α → α → Prop) (r : List α) (hnd : r.Nodup)
    (hch : List.Chain' R r) (v : α) (hv : v ∈ r) (hh : r.head? ≠ some v)
    (hl : r.getLast? ≠ some v) : ∃ p n, p ∈ r ∧ n ∈ r ∧ p ≠ n ∧ R p v ∧ R v n := by
  obtain ⟨l1, l2, rfl⟩ := List.append_of_mem hv
  rcases List.eq_nil_or_concat l1 with rfl | ⟨l1', p, rfl⟩
  · simp at hh
  · rcases l2 with _ | ⟨n, l2'⟩
    · simp at hl
    · refine ⟨p, n, by simp, by simp, ?_, ?_, ?_⟩
      · intro hpn
        subst hpn
        simp [List.nodup_append] at hnd
      · have : List.Chain' R (l1' ++ p :: v :: (n :: l2')) := by simpa using hch
        exact (List.chain'_append_cons_cons.mp this).2.1
      · have : List.Chain' R ((l1' ++ [p]) ++ v :: n :: l2') := by simpa using hch
        exact (List.chain'_append_cons_cons.mp this).2.1

/-- The first point of a chain that does not end there has a neighbour on the
chain. -/
theorem chain_head_neighbour {α : Type} (R : α → α → Prop) (r : List α)
    (hch : List.Chain' R r) (a : α) (hh : r.head? = some a) (hl : r.getLast? ≠ some a) :
    ∃ n, n ∈ r ∧ R a n := by
  match r, hch, hh, hl with
  | [c], _, hh, hl =>
    simp only [List.head?_cons, Option.some.injEq] at hh
    subst hh
    simp at hl
  | c :: d :: r', hch, hh, _ =>
    simp only [List.head?_cons, Option.some.injEq] at hh
    subst hh
    exact ⟨d, by simp, (List.chain'_cons.mp hch).1⟩

/-- C9 (as stated) fails: on the maze that `generate` carves from `init 5 5`
with the draws 0, 2, 1, 0, 1, 2, 3, 0, 1, 2, 3, the run of `solve` with the draws
3, 3, 1, 1 walks straight to the goal and returns 1; the room `(1, 3)`, which is
not on the route, is never entered and stays `VISIT`, it is not `UPATH`. -/
theorem solve_5x5_room_left_visit :
    generate [[2, 2, 2, 2, 2], [2, 0, 2, 0, 2], [2, 2, 2, 2, 2], [2, 0, 2, 0, 2],
      [2, 2, 2, 2, 2]] 5 5 [0, 2, 1, 0, 1, 2, 3, 0, 1, 2, 3] []
      = .ok (1, [[2, 2, 2, 2, 2], [1, 1, 1, 1, 2], [2, 1, 2, 1, 2], [2, 1, 2, 1, 1],
        [2, 2, 2, 2, 2]]) ∧
    solve [[2, 2, 2, 2, 2], [1, 1, 1, 1, 2], [2, 1, 2, 1, 2], [2, 1, 2, 1, 1],
      [2, 2, 2, 2, 2]] 5 5 [3, 3, 1, 1] []
      = .ok (1, [[2, 2, 2, 2, 2], [3, 3, 3, 3, 2], [2, 1, 2, 3, 2], [2, 1, 2, 3, 3],
        [2, 2, 2, 2, 2]]) ∧
    cell [[2, 2, 2, 2, 2], [3, 3, 3, 3, 2], [2, 1, 2, 3, 2], [2, 1, 2, 3, 3],
      [2, 2, 2, 2, 2]] (1, 3) = some VISIT ∧
    cell [[2, 2, 2, 2, 2], [3, 3, 3, 3, 2], [2, 1, 2, 3, 2], [2, 1, 2, 3, 3],
      [2, 2, 2, 2, 2]] (1, 3) ≠ some UPATH :=
  ⟨rfl, rfl, by decide, by decide⟩

/-- On a solved 5 × 5 maze the `PATH` cells run from `(1, 1)` to `(3, 3)` either
through `(3, 1)` or through `(1, 3)`; the two cells between the rooms on that
side are carved, and the room on the other side is `UPATH` or still `VISIT`. -/
theorem solved_5x5 {M m : Maze} (hG : Generated 5 5 M) (hS : Solved 5 5 M m) :
    cell m (0, 1) = some PATH ∧ cell m (4, 3) = some PATH ∧
    cell m (1, 1) = some PATH ∧ cell m (3, 3) = some PATH ∧
    ((cell M (2, 1) = some VISIT ∧ cell M (3, 2) = some VISIT ∧ cell m (3, 1) = some PATH ∧
        (cell m (1, 3) = some UPATH ∨ cell m (1, 3) = some VISIT)) ∨
     (cell M (1, 2) = some VISIT ∧ cell M (2, 3) = some VISIT ∧ cell m (1, 3) = some PATH ∧
        (cell m (3, 1) = some UPATH ∨ cell m (3, 1) = some VISIT))) := by
  obtain ⟨r, rnd, rch, rh, rl, rp⟩ := hS.route
  simp only [show ((5 : Int) - 1, (5 : Int) - 2) = ((4 : Int), (3 : Int)) from rfl] at rl
  have hP0 : cell m (0, 1) = some PATH := (rp _).mpr (List.mem_of_mem_head? rh)
  have hP4 : cell m (4, 3) = some PATH := (rp _).mpr (List.mem_of_mem_getLast? rl)
  -- where a `PATH` cell can lie
  have hPin : ∀ c : Int × Int, cell m c = some PATH →
      c = (0, 1) ∨ c = (4, 3) ∨ Inner 5 5 c := by
    intro c hc
    by_contra hcon
    simp only [not_or] at hcon
    obtain ⟨b1, b2, b3, b4⟩ := cell_range hS.dim hc
    have := hS.border c b1 b2 b3 b4 hcon.2.2 hcon.1 hcon.2.1
    rw [hc] at this
    exact absurd this (by decide)
  have hPM : ∀ c : Int × Int, cell m c = some PATH → Inner 5 5 c → cell M c = some VISIT := by
    intro c hc hin
    rcases hS.typ c hin with ⟨_, hw⟩ | ⟨hM, _⟩
    · rw [hc] at hw; exact absurd hw (by decide)
    · exact hM
  have hn22 : cell m (2, 2) ≠ some PATH := by
    intro hc
    have h1 := hPM _ hc (by simp only [Inner]; omega)
    have h2 := hG.walls (2, 2) (by norm_num) (by norm_num) (by norm_num) (by norm_num)
      (by simp only [Room, Inner]; omega) (by simp only [Passage, Inner]; omega)
      (by simp) (by simp)
    rw [h1] at h2
    exact absurd h2 (by decide)
  -- two neighbours of a `PATH` cell that is not a doorway
  have hN : ∀ v a b : Int × Int, cell m v = some PATH → v ≠ (0, 1) → v ≠ (4, 3) →
      (∀ q, Adj v q → cell m q = some PATH → q = a ∨ q = b) →
      cell m a = some PATH ∧ cell m b = some PATH := by
    intro v a b hv h0 h4 hnb
    obtain ⟨p, n, hp, hn, hpn, hpv, hvn⟩ := chain_two_neighbours Adj r rnd rch v ((rp v).mp hv)
      (by rw [rh]; intro e; exact h0 (Option.some.inj e).symm)
      (by rw [rl]; intro e; exact h4 (Option.some.inj e).symm)
    have hp' := (rp p).mpr hp
    have hn' := (rp n).mpr hn
    rcases hnb p (adj_symm hpv) hp' with e1 | e1 <;> rcases hnb n hvn hn' with e2 | e2
    · exact absurd (e1.trans e2.symm) hpn
    · subst e1 e2; exact ⟨hp', hn'⟩
    · subst e1 e2; exact ⟨hn', hp'⟩
    · exact absurd (e1.trans e2.symm) hpn
  -- the room next to the entrance
  have hP1 : cell m (1, 1) = some PATH := by
    obtain ⟨n, hn, han⟩ := chain_head_neighbour Adj r rch (0, 1) rh
      (by rw [rl]; intro e; simp at e)
    have hn' := (rp n).mpr hn
    obtain ⟨nx, ny⟩ := n
    have hc := hPin _ hn'
    simp only [Adj] at han
    simp only [Inner, Prod.mk.injEq] at hc
    have : nx = 1 ∧ ny = 1 := by omega
    obtain ⟨rfl, rfl⟩ := this
    exact hn'
  have hP3 : cell m (3, 3) = some PATH := by
    have := hS.route
    -- the exit has a neighbour on the chain: reverse the chain
    obtain ⟨n, hn, han⟩ := chain_head_neighbour Adj r.reverse
      (by rw [List.chain'_reverse]; exact rch.imp (fun a b hab => adj_symm hab)) (4, 3)
      (by rw [List.head?_reverse]; exact rl)
      (by rw [List.getLast?_reverse, rh]; intro e; simp at e)
    have hn' := (rp n).mpr (List.mem_reverse.mp hn)
    obtain ⟨nx, ny⟩ := n
    have hc := hPin _ hn'
    simp only [Adj] at han
    simp only [Inner, Prod.mk.injEq] at hc
    have : nx = 3 ∧ ny = 3 := by omega
    obtain ⟨rfl, rfl⟩ := this
    exact hn'
  -- neighbours of the cells on the two ways round
  have nb21 : ∀ q, Adj ((2 : Int), (1 : Int)) q → cell m q = some PATH → q = (1, 1) ∨ q = (3, 1) := by
    rintro ⟨qx, qy⟩ hadj hq
    have hc := hPin _ hq
    simp only [Adj] at hadj
    simp only [Inner, Prod.mk.injEq] at hc ⊢
    have : (qx = 1 ∧ qy = 1) ∨ (qx = 3 ∧ qy = 1) ∨ (qx = 2 ∧ qy = 2) := by omega
    rcases this with h | h | ⟨rfl, rfl⟩
    · exact Or.inl h
    · exact Or.inr h
    · exact absurd hq hn22
  have nb31 : ∀ q, Adj ((3 : Int), (1 : Int)) q → cell m q = some PATH → q = (2, 1) ∨ q = (3, 2) := by
    rintro ⟨qx, qy⟩ hadj hq
    have hc := hPin _ hq
    simp only [Adj] at hadj
    simp only [Inner, Prod.mk.injEq] at hc ⊢
    omega
  have nb12 : ∀ q, Adj ((1 : Int), (2 : Int)) q → cell m q = some PATH → q = (1, 1) ∨ q = (1, 3) := by
    rintro ⟨qx, qy⟩ hadj hq
    have hc := hPin _ hq
    simp only [Adj] at hadj
    simp only [Inner, Prod.mk.injEq] at hc ⊢
    have : (qx = 1 ∧ qy = 1) ∨ (qx = 1 ∧ qy = 3) ∨ (qx = 2 ∧ qy = 2) := by omega
    rcases this with h | h | ⟨rfl, rfl⟩
    · exact Or.inl h
    · exact Or.inr h
    · exact absurd hq hn22
  have nb13 : ∀ q, Adj ((1 : Int), (3 : Int)) q → cell m q = some PATH → q = (1, 2) ∨ q = (2, 3) := by
    rintro ⟨qx, qy⟩ hadj hq
    have hc := hPin _ hq
    simp only [Adj] at hadj
    simp only [Inner, Prod.mk.injEq] at hc ⊢
    omega
  have hroom : ∀ c : Int × Int, Room 5 5 c → cell m c ≠ some PATH →
      cell m c = some UPATH ∨ cell m c = some VISIT := by
    intro c hc hnp
    rcases hS.typ c hc.1 with ⟨hw, _⟩ | ⟨_, h1 | h1 | h1⟩
    · rw [hG.rooms c hc] at hw; exact absurd hw (by decide)
    · exact Or.inr h1
    · exact absurd h1 hnp
    · exact Or.inl h1
  have hr13 : Room 5 5 ((1 : Int), (3 : Int)) := by simp only [Room, Inner]; omega
  have hr31 : Room 5 5 ((3 : Int), (1 : Int)) := by simp only [Room, Inner]; omega
  refine ⟨hP0, hP4, hP1, hP3, ?_⟩
  by_cases h21 : cell m (2, 1) = some PATH
  · -- round by `(3, 1)`
    left
    have h31 := (hN (2, 1) (1, 1) (3, 1) h21 (by simp) (by simp) nb21).2
    have h32 := (hN (3, 1) (2, 1) (3, 2) h31 (by simp) (by simp) nb31).2
    have hM21 := hPM _ h21 (by simp only [Inner]; omega)
    have hM32 := hPM _ h32 (by simp only [Inner]; omega)
    refine ⟨hM21, hM32, h31, hroom _ hr13 ?_⟩
    intro h13
    obtain ⟨h12, h23⟩ := hN (1, 3) (1, 2) (2, 3) h13 (by simp) (by simp) nb13
    have hM12 := hPM _ h12 (by simp only [Inner]; omega)
    have hM23 := hPM _ h23 (by simp only [Inner]; omega)
    obtain ⟨c, hc, hcw, _⟩ := generated_5x5_passages hG
    simp only [List.mem_cons, List.mem_singleton, List.not_mem_nil, or_false] at hc
    rcases hc with rfl | rfl | rfl | rfl
    · rw [hM21] at hcw; exact absurd hcw (by decide)
    · rw [hM12] at hcw; exact absurd hcw (by decide)
    · rw [hM32] at hcw; exact absurd hcw (by decide)
    · rw [hM23] at hcw; exact absurd hcw (by decide)
  · -- round by `(1, 3)`
    right
    have nb11 : ∀ q, Adj ((1 : Int), (1 : Int)) q → cell m q = some PATH →
        q = (0, 1) ∨ q = (1, 2) := by
      rintro ⟨qx, qy⟩ hadj hq
      have hc := hPin _ hq
      simp only [Adj] at hadj
      simp only [Inner, Prod.mk.injEq] at hc ⊢
      have : (qx = 0 ∧ qy = 1) ∨ (qx = 1 ∧ qy = 2) ∨ (qx = 2 ∧ qy = 1) := by omega
      rcases this with h | h | ⟨rfl, rfl⟩
      · exact Or.inl h
      · exact Or.inr h
      · exact absurd hq h21
    have h12 := (hN (1, 1) (0, 1) (1, 2) hP1 (by decide) (by decide) nb11).2
    have h13 := (hN (1, 2) (1, 1) (1, 3) h12 (by simp) (by simp) nb12).2
    have h23 := (hN (1, 3) (1, 2) (2, 3) h13 (by simp) (by simp) nb13).2
    have hM12 := hPM _ h12 (by simp only [Inner]; omega)
    have hM23 := hPM _ h23 (by simp only [Inner]; omega)
    refine ⟨hM12, hM23, h13, hroom _ hr31 ?_⟩
    intro h31
    exact h21 (hN (3, 1) (2, 1) (3, 2) h31 (by simp) (by simp) nb31).1

/-- C9 (amended): for a 5 × 5 maze left by a successful `generate` and a run of
`solve` on it that returns 1: the entrance `(0,1)`, the exit `(4,3)` and the
rooms `(1,1)` and `(3,3)` are `PATH`; the route between them runs through
`(3,1)` (then `(2,1)` and `(3,2)` are carved) or through `(1,3)` (then `(1,2)`
and `(2,3)` are carved), that room is `PATH`, and the other room, which is off
the route, is `UPATH` or still `VISIT`. It is `UPATH` if the walk entered it
(every cell that was the current cell of a round is `PATH` or `UPATH`) and
still `VISIT` if not (every `UPATH` cell was the current cell of a round). -/
theorem solve_5x5_marking (ms : List Bool) (maze : Maze) (hinit : init 5 5 ms = some maze)
    (gdraws : List Nat) (gmallocs : List Bool) (M : Maze)
    (hgen : generate maze 5 5 gdraws gmallocs = .ok (1, M))
    (draws : List Nat) (mallocs : List Bool) (m : Maze)
    (hsol : solve M 5 5 draws mallocs = .ok (1, m)) :
    (cell m (0, 1) = some PATH ∧ cell m (4, 3) = some PATH ∧
      cell m (1, 1) = some PATH ∧ cell m (3, 3) = some PATH ∧
      ((cell M (2, 1) = some VISIT ∧ cell M (3, 2) = some VISIT ∧ cell m (3, 1) = some PATH ∧
          (cell m (1, 3) = some UPATH ∨ cell m (1, 3) = some VISIT)) ∨
       (cell M (1, 2) = some VISIT ∧ cell M (2, 3) = some VISIT ∧ cell m (1, 3) = some PATH ∧
          (cell m (3, 1) = some UPATH ∨ cell m (3, 1) = some VISIT)))) ∧
    (∀ s0, solve_start M 5 5 draws mallocs = some s0 →
      ∀ n s, solve_steps 5 5 n s0 = some s →
        cell m (s.x, s.y) = some PATH ∨ cell m (s.x, s.y) = some UPATH) ∧
    ∀ p, cell m p = some UPATH → ∃ s0 n s, solve_start M 5 5 draws mallocs = some s0 ∧
      solve_steps 5 5 n s0 = some s ∧ (s.x, s.y) = p := by
  have hG := generate_generated (w := 5) (h := 5) (by decide) (by decide) (by decide)
    (by decide) hinit hgen
  obtain ⟨hS, hmk, hup⟩ := solve_solved (w := 5) (h := 5) (by decide) (by decide) (by decide)
    (by decide) hG hsol
  exact ⟨solved_5x5 hG hS, hmk, hup⟩

theorem solve_5x5_marking_witness :
    (cell [[2, 2, 2, 2, 2], [3, 3, 3, 3, 2], [2, 4, 2, 3, 2], [2, 4, 2, 3, 3],
        [2, 2, 2, 2, 2]] (0, 1) = some PATH ∧
      cell [[2, 2, 2, 2, 2], [3, 3, 3, 3, 2], [2, 4, 2, 3, 2], [2, 4, 2, 3, 3],
        [2, 2, 2, 2, 2]] (4, 3) = some PATH ∧
      cell [[2, 2, 2, 2, 2], [3, 3, 3, 3, 2], [2, 4, 2, 3, 2], [2, 4, 2, 3, 3],
        [2, 2, 2, 2, 2]] (1, 1) = some PATH ∧
      cell [[2, 2, 2, 2, 2], [3, 3, 3, 3, 2], [2, 4, 2, 3, 2], [2, 4, 2, 3, 3],
        [2, 2, 2, 2, 2]] (3, 3) = some PATH ∧
      ((cell [[2, 2, 2, 2, 2], [1, 1, 1, 1, 2], [2, 1, 2, 1, 2], [2, 1, 2, 1, 1],
          [2, 2, 2, 2, 2]] (2, 1) = some VISIT ∧
        cell [[2, 2, 2, 2, 2], [1, 1, 1, 1, 2], [2, 1, 2, 1, 2], [2, 1, 2, 1, 1],
          [2, 2, 2, 2, 2]] (3, 2) = some VISIT ∧
        cell [[2, 2, 2, 2, 2], [3, 3, 3, 3, 2], [2, 4, 2, 3, 2], [2, 4, 2, 3, 3],
          [2, 2, 2, 2, 2]] (3, 1) = some PATH ∧
        (cell [[2, 2, 2, 2, 2], [3, 3, 3, 3, 2], [2, 4, 2, 3, 2], [2, 4, 2, 3, 3],
            [2, 2, 2, 2, 2]] (1, 3) = some UPATH ∨
          cell [[2, 2, 2, 2, 2], [3, 3, 3, 3, 2], [2, 4, 2, 3, 2], [2, 4, 2, 3, 3],
            [2, 2, 2, 2, 2]] (1, 3) = some VISIT)) ∨
       (cell [[2, 2, 2, 2, 2], [1, 1, 1, 1, 2], [2, 1, 2, 1, 2], [2, 1, 2, 1, 1],
          [2, 2, 2, 2, 2]] (1, 2) = some VISIT ∧
        cell [[2, 2, 2, 2, 2], [1, 1, 1, 1, 2], [2, 1, 2, 1, 2], [2, 1, 2, 1, 1],
          [2, 2, 2, 2, 2]] (2, 3) = some VISIT ∧
        cell [[2, 2, 2, 2, 2], [3, 3, 3, 3, 2], [2, 4, 2, 3, 2], [2, 4, 2, 3, 3],
          [2, 2, 2, 2, 2]] (1, 3) = some PATH ∧
        (cell [[2, 2, 2, 2, 2], [3, 3, 3, 3, 2], [2, 4, 2, 3, 2], [2, 4, 2, 3, 3],
            [2, 2, 2, 2, 2]] (3, 1) = some UPATH ∨
          cell [[2, 2, 2, 2, 2], [3, 3, 3, 3, 2], [2, 4, 2, 3, 2], [2, 4, 2, 3, 3],
            [2, 2, 2, 2, 2]] (3, 1) = some VISIT)))) ∧
    (∀ s0, solve_start [[2, 2, 2, 2, 2], [1, 1, 1, 1, 2], [2, 1, 2, 1, 2], [2, 1, 2, 1, 1],
        [2, 2, 2, 2, 2]] 5 5 [1, 1, 0, 1, 2, 3, 0, 1, 2, 3, 0, 3, 3, 1, 1] [] = some s0 →
      ∀ n s, solve_steps 5 5 n s0 = some s →
        cell [[2, 2, 2, 2, 2], [3, 3, 3, 3, 2], [2, 4, 2, 3, 2], [2, 4, 2, 3, 3],
          [2, 2, 2, 2, 2]] (s.x, s.y) = some PATH ∨
        cell [[2, 2, 2, 2, 2], [3, 3, 3, 3, 2], [2, 4, 2, 3, 2], [2, 4, 2, 3, 3],
          [2, 2, 2, 2, 2]] (s.x, s.y) = some UPATH) ∧
    ∀ p, cell [[2, 2, 2, 2, 2], [3, 3, 3, 3, 2], [2, 4, 2, 3, 2], [2, 4, 2, 3, 3],
        [2, 2, 2, 2, 2]] p = some UPATH →
      ∃ s0 n s, solve_start [[2, 2, 2, 2, 2], [1, 1, 1, 1, 2], [2, 1, 2, 1, 2], [2, 1, 2, 1, 1],
          [2, 2, 2, 2, 2]] 5 5 [1, 1, 0, 1, 2, 3, 0, 1, 2, 3, 0, 3, 3, 1, 1] [] = some s0 ∧
        solve_steps 5 5 n s0 = some s ∧ (s.x, s.y) = p :=
  solve_5x5_marking []
    [[2, 2, 2, 2, 2], [2, 0, 2, 0, 2], [2, 2, 2, 2, 2], [2, 0, 2, 0, 2], [2, 2, 2, 2, 2]]
    (by decide) [0, 2, 1, 0, 1, 2, 3, 0, 1, 2, 3] [] _ rfl
    [1, 1, 0, 1, 2, 3, 0, 1, 2, 3, 0, 3, 3, 1, 1] [] _ rfl

/-! ## The stack -/

/-- `free_stack` empties every stack. -/
theorem free_stack_nil (s : Stack) : free_stack s = [] := by
  induction s with
  | nil => rfl
  | cons _ _ ih => simpa only [free_stack] using ih

/-- C14: the backtrack stack is LIFO. When `push` on the stack `s` with the
coordinate `(x, y)` returns 1, the new stack has `(x, y)` as its top item and
`s` as its remainder, so `pop` gives back exactly `s`; `pop` leaves the empty
stack empty; `free_stack` turns every stack into the empty stack. -/
theorem stack_lifo (s : Stack) (x y : Int) (node : Bool) (s' : Stack)
    (hpush : push s x y node = (1, s')) :
    s' = (x, y) :: s ∧ s'.head? = some (x, y) ∧ s'.tail = s ∧ pop s' = s ∧
    pop [] = [] ∧ ∀ t : Stack, free_stack t = [] := by
  cases node with
  | false => simp [push] at hpush
  | true =>
    simp only [push, Bool.true_eq_false, if_false, Prod.mk.injEq, true_and] at hpush
    subst hpush
    exact ⟨rfl, rfl, rfl, rfl, rfl, free_stack_nil⟩

theorem stack_lifo_witness :
    [((3 : Int), (1 : Int)), (3, 3)] = (3, 1) :: [(3, 3)] ∧
    [((3 : Int), (1 : Int)), (3, 3)].head? = some (3, 1) ∧
    [((3 : Int), (1 : Int)), (3, 3)].tail = [(3, 3)] ∧
    pop [((3 : Int), (1 : Int)), (3, 3)] = [(3, 3)] ∧
    pop [] = [] ∧ ∀ t : Stack, free_stack t = [] :=
  stack_lifo [(3, 3)] 3 1 true _ rfl

/-! ## `solve` never reads through an empty stack on a generated maze -/

/-- On a generated maze `solve` enters its loop with the invariant in place. -/
theorem solve_start_inv {w h : Int} (hw : 3 ≤ w) (hh : 3 ≤ h) (hwo : w % 2 = 1)
    (hho : h % 2 = 1) {M : Maze} (hG : Generated w h M) (draws : List Nat)
    (mallocs : List Bool) :
    InnerJoined M w h VISIT (w - 2, h - 2) (1, 1) ∧
    ∃ s0 E, solve_start M w h draws mallocs = some s0 ∧ s0.draws = draws ∧
      wr s0.maze s0.y s0.x PATH = some E ∧ SolInv w h M E (s0.x, s0.y) s0.st := by
  have hconn : InnerJoined M w h VISIT (w - 2, h - 2) (1, 1) :=
    hG.conn (1, 1) (by simp only [Room, Inner]; omega)
  obtain ⟨M1, h1⟩ := wr_some_of_range hG.dim (y := 1) (x := 0) WALL (by omega) (by omega)
    (by omega) (by omega)
  obtain ⟨M2, h2⟩ := wr_some_of_range (wr_dim hG.dim h1) (y := h - 2) (x := w - 1) WALL
    (by omega) (by omega) (by omega) (by omega)
  obtain ⟨E, hE⟩ := wr_some_of_range (wr_dim (wr_dim hG.dim h1) h2) (y := 1) (x := 1) PATH
    (by omega) (by omega) (by omega) (by omega)
  have hinv := solInv_init hw hh hwo hho hG h1 h2 hE
  refine ⟨hconn, ⟨M2, 1, 1, [], draws, mallocs⟩, E, ?_, rfl, hE, hinv⟩
  simp only [solve_start, h1, h2]

/-- C11: on a maze produced by a successful `generate`, for every sequence of
draws, `solve` never pops an empty stack: at every round of its loop, when
`solve_rand_neighbour` returns 0 the backtrack stack is non-empty, so the
round does not read through `NULL`, and neither does the whole call. -/
theorem solve_never_pops_empty (w h : Int) (hw : 3 ≤ w) (hh : 3 ≤ h) (hwo : w % 2 = 1)
    (hho : h % 2 = 1) (ms : List Bool) (maze : Maze) (hinit : init w h ms = some maze)
    (gdraws : List Nat) (gmallocs : List Bool) (M : Maze)
    (hgen : generate maze w h gdraws gmallocs = .ok (1, M))
    (draws : List Nat) (mallocs : List Bool) :
    solve M w h draws mallocs ≠ .error .nullDeref ∧
    ∃ s0, solve_start M w h draws mallocs = some s0 ∧
      ∀ n s, solve_steps w h n s0 = some s →
        solve_body w h s ≠ .error .nullDeref ∧
        ∀ E m, wr s.maze s.y s.x PATH = some E →
          solve_rand_neighbour E s.x s.y w h s.draws = .ok m → m.ret = 0 → s.st ≠ [] := by
  have hG := generate_generated hw hh hwo hho hinit hgen
  obtain ⟨hconn, s0, E0, hstart, hdr, hE0, hinv0⟩ :=
    solve_start_inv hw hh hwo hho hG draws mallocs
  refine ⟨?_, s0, hstart, ?_⟩
  · simp only [solve, hstart]
    rcases solve_loop_spec hw hh hconn (draws.length + 1) hE0 hinv0 with
      he | ⟨m', he, _⟩ | ⟨m', he, _⟩
    · rw [he]; intro hc; cases hc
    · rw [he]; intro hc; cases hc
    · rw [he]; intro hc; cases hc
  · intro n s hrun
    obtain ⟨Es, hEs, hinvs⟩ := solve_steps_inv hw hh hconn n s0 hE0 hinv0 hrun
    have hbody : solve_body w h s ≠ .error .nullDeref ∧
        solve_body w h s ≠ .error .outOfBounds := by
      rcases solve_body_spec hw hh hEs hinvs hconn with he | ⟨s', E', he, _⟩ |
        ⟨s', E3, E4, he, _⟩ | ⟨m', he, _⟩ <;>
      · rw [he]; exact ⟨fun hc => (by cases hc), fun hc => (by cases hc)⟩
    refine ⟨hbody.1, ?_⟩
    intro E m hE hm hret hst
    have hb : solve_body w h s = .error .nullDeref ∨ solve_body w h s = .error .outOfBounds := by
      simp only [solve_body, hE, hm, hret, ne_eq, not_true_eq_false, if_false, hst]
      cases wr m.maze m.y m.x UPATH with
      | none => exact Or.inr rfl
      | some _ => exact Or.inl rfl
    rcases hb with hb | hb
    · exact hbody.1 hb
    · exact hbody.2 hb

theorem solve_never_pops_empty_witness :
    solve [[2, 2, 2, 2, 2], [1, 1, 1, 1, 2], [2, 1, 2, 1, 2], [2, 1, 2, 1, 1],
        [2, 2, 2, 2, 2]] 5 5 [1, 1, 0, 1, 2, 3, 0, 1, 2, 3, 0, 3, 3, 1, 1] []
      ≠ .error .nullDeref ∧
    ∃ s0, solve_start [[2, 2, 2, 2, 2], [1, 1, 1, 1, 2], [2, 1, 2, 1, 2], [2, 1, 2, 1, 1],
        [2, 2, 2, 2, 2]] 5 5 [1, 1, 0, 1, 2, 3, 0, 1, 2, 3, 0, 3, 3, 1, 1] [] = some s0 ∧
      ∀ n s, solve_steps 5 5 n s0 = some s →
        solve_body 5 5 s ≠ .error .nullDeref ∧
        ∀ E m, wr s.maze s.y s.x PATH = some E →
          solve_rand_neighbour E s.x s.y 5 5 s.draws = .ok m → m.ret = 0 → s.st ≠ [] :=
  solve_never_pops_empty 5 5 (by decide) (by decide) (by decide) (by decide) []
    [[2, 2, 2, 2, 2], [2, 0, 2, 0, 2], [2, 2, 2, 2, 2], [2, 0, 2, 0, 2], [2, 2, 2, 2, 2]]
    (by decide) [0, 2, 1, 0, 1, 2, 3, 0, 1, 2, 3] [] _ rfl
    [1, 1, 0, 1, 2, 3, 0, 1, 2, 3, 0, 3, 3, 1, 1] []

/-! ## One call of `rand_neighbour` -/

/-- C16: for odd `w, h`, a grid of `h` rows of `w` cells and a current cell
`(x, y)` with odd coordinates inside the grid (so that `w, h ≥ 3`), a call of
`rand_neighbour` either runs out of draws or returns. If it returns 1, the current cell has moved
exactly two cells in one direction to a cell that was `UVISIT` and satisfies
`1 ≤ x' ≤ w-2`, `1 ≤ y' ≤ h-2`, the cell between the old and the new position
is `VISIT` and no other cell has changed. If it returns 0, every cell two
steps away is outside the interior or not `UVISIT`, and the grid and the
current cell are unchanged. -/
theorem rand_neighbour_moves (w h : Int) (hwo : w % 2 = 1)
    (hho : h % 2 = 1) (maze : Maze) (hd : Dim maze w h) (x y : Int)
    (hx0 : 0 < x) (hx : x < w) (hy0 : 0 < y) (hy : y < h) (hxo : x % 2 = 1) (hyo : y % 2 = 1)
    (draws : List Nat) :
    rand_neighbour maze x y w h draws = .error .noDraws ∨
    ∃ m, rand_neighbour maze x y w h draws = .ok m ∧
      ((m.ret = 1 ∧ Adj2 (x, y) (m.x, m.y) ∧ cell maze (m.x, m.y) = some UVISIT ∧
          1 ≤ m.x ∧ m.x ≤ w - 2 ∧ 1 ≤ m.y ∧ m.y ≤ h - 2 ∧
          cell m.maze (mid (x, y) (m.x, m.y)) = some VISIT ∧
          ∀ q, q ≠ mid (x, y) (m.x, m.y) → cell m.maze q = cell maze q) ∨
       (m.ret = 0 ∧ m.maze = maze ∧ m.x = x ∧ m.y = y ∧
          ∀ q, Adj2 (x, y) q →
            ¬ (1 ≤ q.1 ∧ q.1 ≤ w - 2 ∧ 1 ≤ q.2 ∧ q.2 ≤ h - 2) ∨ cell maze q ≠ some UVISIT)) := by
  rcases rand_neighbour_loop_spec hd hx0 hx hy0 hy draws true true true true with he |
    ⟨m, he, _, _, hres⟩
  · exact Or.inl he
  · refine Or.inr ⟨m, he, ?_⟩
    rcases hres with ⟨hret, hm, hmx, hmy, hu, hdn, hl, hr⟩ | ⟨hret, hcar⟩
    · refine Or.inr ⟨hret, hm, hmx, hmy, ?_⟩
      rintro ⟨qx, qy⟩ hq
      simp only [Adj2] at hq
      simp only [cell]
      rcases hq with ⟨e1, e2 | e2⟩ | ⟨e1, e2 | e2⟩
      · subst e1; subst e2
        rcases hu rfl with hb | hb
        · exact Or.inl (by omega)
        · exact Or.inr hb
      · subst e1; subst e2
        rcases hdn rfl with hb | hb
        · exact Or.inl (by omega)
        · exact Or.inr hb
      · subst e1; subst e2
        rcases hl rfl with hb | hb
        · exact Or.inl (by omega)
        · exact Or.inr hb
      · subst e1; subst e2
        rcases hr rfl with hb | hb
        · exact Or.inl (by omega)
        · exact Or.inr hb
    · obtain ⟨tx, ty, mx, my, hgeo, hmx, hmy, h1, h2, h3, h4, hrd, hwr⟩ := hcar
      have hmid : mid (x, y) (m.x, m.y) = (mx, my) := by
        simp only [mid, hmx, hmy, Prod.mk.injEq]
        omega
      refine Or.inl ⟨hret, ?_, ?_, ?_, ?_, ?_, ?_, ?_, ?_⟩
      · simp only [Adj2, hmx, hmy]; omega
      · simp only [cell, hmx, hmy]; exact hrd
      · omega
      · omega
      · omega
      · omega
      · rw [hmid, cell_wr hwr, if_pos rfl]
      · intro q hq
        rw [hmid] at hq
        rw [cell_wr hwr, if_neg hq]

theorem rand_neighbour_moves_witness :
    rand_neighbour [[2, 2, 2, 2, 2], [2, 0, 2, 0, 2], [2, 2, 2, 2, 2], [2, 0, 2, 1, 2],
        [2, 2, 2, 2, 2]] 3 3 5 5 [1, 0] = .error .noDraws ∨
    ∃ m, rand_neighbour [[2, 2, 2, 2, 2], [2, 0, 2, 0, 2], [2, 2, 2, 2, 2], [2, 0, 2, 1, 2],
        [2, 2, 2, 2, 2]] 3 3 5 5 [1, 0] = .ok m ∧
      ((m.ret = 1 ∧ Adj2 (3, 3) (m.x, m.y) ∧
          cell [[2, 2, 2, 2, 2], [2, 0, 2, 0, 2], [2, 2, 2, 2, 2], [2, 0, 2, 1, 2],
            [2, 2, 2, 2, 2]] (m.x, m.y) = some UVISIT ∧
          1 ≤ m.x ∧ m.x ≤ 5 - 2 ∧ 1 ≤ m.y ∧ m.y ≤ 5 - 2 ∧
          cell m.maze (mid (3, 3) (m.x, m.y)) = some VISIT ∧
          ∀ q, q ≠ mid (3, 3) (m.x, m.y) → cell m.maze q =
            cell [[2, 2, 2, 2, 2], [2, 0, 2, 0, 2], [2, 2, 2, 2, 2], [2, 0, 2, 1, 2],
              [2, 2, 2, 2, 2]] q) ∨
       (m.ret = 0 ∧ m.maze = [[2, 2, 2, 2, 2], [2, 0, 2, 0, 2], [2, 2, 2, 2, 2],
            [2, 0, 2, 1, 2], [2, 2, 2, 2, 2]] ∧ m.x = 3 ∧ m.y = 3 ∧
          ∀ q, Adj2 (3, 3) q →
            ¬ (1 ≤ q.1 ∧ q.1 ≤ 5 - 2 ∧ 1 ≤ q.2 ∧ q.2 ≤ 5 - 2) ∨
            cell [[2, 2, 2, 2, 2], [2, 0, 2, 0, 2], [2, 2, 2, 2, 2], [2, 0, 2, 1, 2],
              [2, 2, 2, 2, 2]] q ≠ some UVISIT)) :=
  rand_neighbour_moves 5 5 (by decide) (by decide) _
    (by unfold Dim; decide) 3 3 (by decide) (by decide) (by decide) (by decide) (by decide) (by decide)
    [1, 0]

/-! ## The border and the pillars after `generate` -/

/-- C17: for odd `w, h ≥ 3`, the current cell of every round of `generate` on
the grid of `init w h` lies strictly inside the border, and after a successful
`generate` every cell on row 0, row `h-1`, column 0 or column `w-1` is `WALL`
except the two doorways `(0, 1)` and `(w-1, h-2)`, which are `VISIT`; every
cell with both coordinates even is `WALL`. -/
theorem generate_keeps_border (w h : Int) (hw : 3 ≤ w) (hh : 3 ≤ h) (hwo : w % 2 = 1)
    (hho : h % 2 = 1) (ms : List Bool) (maze : Maze) (hinit : init w h ms = some maze)
    (draws : List Nat) (mallocs : List Bool) :
    (∀ n s, generate_steps w h n (generate_start maze w h draws mallocs) = some s →
      0 < s.x ∧ s.x < w - 1 ∧ 0 < s.y ∧ s.y < h - 1) ∧
    ∀ m, generate maze w h draws mallocs = .ok (1, m) →
      cell m (0, 1) = some VISIT ∧ cell m (w - 1, h - 2) = some VISIT ∧
      (∀ p : Int × Int, 0 ≤ p.1 → p.1 < w → 0 ≤ p.2 → p.2 < h →
        (p.2 = 0 ∨ p.2 = h - 1 ∨ p.1 = 0 ∨ p.1 = w - 1) →
        p ≠ (0, 1) → p ≠ (w - 1, h - 2) → cell m p = some WALL) ∧
      ∀ p : Int × Int, 0 ≤ p.1 → p.1 < w → 0 ≤ p.2 → p.2 < h →
        p.1 % 2 = 0 → p.2 % 2 = 0 → cell m p = some WALL := by
  constructor
  · intro n s hrun
    obtain ⟨E, _, hinv⟩ := generate_steps_ok hw hh hwo hho n
      (genOK_start hw hh hwo hho hinit draws mallocs) hrun
    have hr := hinv.room _ (List.mem_cons_self _ _)
    simp only [Room, Inner] at hr
    omega
  · intro m hgen
    have hG := generate_generated hw hh hwo hho hinit hgen
    refine ⟨hG.entrance, hG.exit, ?_, ?_⟩
    · intro p a1 a2 a3 a4 hb n1 n2
      refine hG.walls p a1 a2 a3 a4 ?_ ?_ n1 n2
      · simp only [Room, Inner]; omega
      · simp only [Passage, Inner]; omega
    · rintro ⟨px, py⟩ a1 a2 a3 a4 e1 e2
      simp only at a1 a2 a3 a4 e1 e2
      refine hG.walls _ a1 a2 a3 a4 ?_ ?_ ?_ ?_
      · simp only [Room, Inner]; omega
      · simp only [Passage, Inner]; omega
      · simp only [ne_eq, Prod.mk.injEq]; omega
      · simp only [ne_eq, Prod.mk.injEq]; omega

theorem generate_keeps_border_witness :
    (∀ n s, generate_steps 5 5 n (generate_start [[2, 2, 2, 2, 2], [2, 0, 2, 0, 2],
        [2, 2, 2, 2, 2], [2, 0, 2, 0, 2], [2, 2, 2, 2, 2]] 5 5
        [0, 2, 1, 0, 1, 2, 3, 0, 1, 2, 3] []) = some s →
      0 < s.x ∧ s.x < 5 - 1 ∧ 0 < s.y ∧ s.y < 5 - 1) ∧
    ∀ m, generate [[2, 2, 2, 2, 2], [2, 0, 2, 0, 2], [2, 2, 2, 2, 2], [2, 0, 2, 0, 2],
        [2, 2, 2, 2, 2]] 5 5 [0, 2, 1, 0, 1, 2, 3, 0, 1, 2, 3] [] = .ok (1, m) →
      cell m (0, 1) = some VISIT ∧ cell m (5 - 1, 5 - 2) = some VISIT ∧
      (∀ p : Int × Int, 0 ≤ p.1 → p.1 < 5 → 0 ≤ p.2 → p.2 < 5 →
        (p.2 = 0 ∨ p.2 = 5 - 1 ∨ p.1 = 0 ∨ p.1 = 5 - 1) →
        p ≠ (0, 1) → p ≠ (5 - 1, 5 - 2) → cell m p = some WALL) ∧
      ∀ p : Int × Int, 0 ≤ p.1 → p.1 < 5 → 0 ≤ p.2 → p.2 < 5 →
        p.1 % 2 = 0 → p.2 % 2 = 0 → cell m p = some WALL :=
  generate_keeps_border 5 5 (by decide) (by decide) (by decide) (by decide) []
    [[2, 2, 2, 2, 2], [2, 0, 2, 0, 2], [2, 2, 2, 2, 2], [2, 0, 2, 0, 2], [2, 2, 2, 2, 2]]
    (by decide) [0, 2, 1, 0, 1, 2, 3, 0, 1, 2, 3] []

/-! ## `solve` leaves the walls alone -/

/-- C20: on a maze `M` produced by a successful `generate`, when `solve`
returns 1 with the cells `m`, a cell is `WALL` in `m` exactly when it is
`WALL` in `M`, and every cell that is `PATH` or `UPATH` in `m` was `VISIT` in
`M`. -/
theorem solve_keeps_walls (w h : Int) (hw : 3 ≤ w) (hh : 3 ≤ h) (hwo : w % 2 = 1)
    (hho : h % 2 = 1) (ms : List Bool) (maze : Maze) (hinit : init w h ms = some maze)
    (gdraws : List Nat) (gmallocs : List Bool) (M : Maze)
    (hgen : generate maze w h gdraws gmallocs = .ok (1, M))
    (draws : List Nat) (mallocs : List Bool) (m : Maze)
    (hsol : solve M w h draws mallocs = .ok (1, m)) :
    (∀ p, cell m p = some WALL ↔ cell M p = some WALL) ∧
    ∀ p, cell m p = some PATH ∨ cell m p = some UPATH → cell M p = some VISIT := by
  have hG := generate_generated hw hh hwo hho hinit hgen
  obtain ⟨hS, _, _⟩ := solve_solved hw hh hwo hho hG hsol
  obtain ⟨r, _, _, hhead, hlast, hpath⟩ := hS.route
  have hent : cell m (0, 1) = some PATH := (hpath _).mpr (List.mem_of_mem_head? hhead)
  have hex : cell m (w - 1, h - 2) = some PATH :=
    (hpath _).mpr (List.mem_of_mem_getLast? hlast)
  have key : ∀ p : Int × Int, 0 ≤ p.1 → p.1 < w → 0 ≤ p.2 → p.2 < h →
      (cell M p = some WALL ∧ cell m p = some WALL) ∨
      (cell M p = some VISIT ∧
        (cell m p = some VISIT ∨ cell m p = some PATH ∨ cell m p = some UPATH)) := by
    intro p a1 a2 a3 a4
    by_cases hin : Inner w h p
    · exact hS.typ p hin
    · by_cases e1 : p = (0, 1)
      · subst e1; exact Or.inr ⟨hG.entrance, Or.inr (Or.inl hent)⟩
      · by_cases e2 : p = (w - 1, h - 2)
        · subst e2; exact Or.inr ⟨hG.exit, Or.inr (Or.inl hex)⟩
        · refine Or.inl ⟨hG.walls p a1 a2 a3 a4 (fun hr => hin hr.1) (fun hr => hin hr.1) e1 e2,
            hS.border p a1 a2 a3 a4 hin e1 e2⟩
  constructor
  · intro p
    constructor
    · intro hc
      obtain ⟨a1, a2, a3, a4⟩ := cell_range hS.dim hc
      rcases key p a1 a2 a3 a4 with ⟨h1, _⟩ | ⟨_, h2 | h2 | h2⟩
      · exact h1
      · rw [h2] at hc; exact absurd hc (by decide)
      · rw [h2] at hc; exact absurd hc (by decide)
      · rw [h2] at hc; exact absurd hc (by decide)
    · intro hc
      obtain ⟨a1, a2, a3, a4⟩ := cell_range hG.dim hc
      rcases key p a1 a2 a3 a4 with ⟨_, h1⟩ | ⟨h2, _⟩
      · exact h1
      · rw [h2] at hc; exact absurd hc (by decide)
  · intro p hc
    have hc' : ∃ v, cell m p = some v := by
      rcases hc with hc | hc <;> exact ⟨_, hc⟩
    obtain ⟨v, hv⟩ := hc'
    obtain ⟨a1, a2, a3, a4⟩ := cell_range hS.dim hv
    rcases key p a1 a2 a3 a4 with ⟨_, h1⟩ | ⟨h2, _⟩
    · rcases hc with hc | hc <;> (rw [h1] at hc; exact absurd hc (by decide))
    · exact h2

theorem solve_keeps_walls_witness :
    (∀ p, cell [[2, 2, 2, 2, 2], [3, 3, 3, 3, 2], [2, 4, 2, 3, 2], [2, 4, 2, 3, 3],
        [2, 2, 2, 2, 2]] p = some WALL ↔
      cell [[2, 2, 2, 2, 2], [1, 1, 1, 1, 2], [2, 1, 2, 1, 2], [2, 1, 2, 1, 1],
        [2, 2, 2, 2, 2]] p = some WALL) ∧
    ∀ p, cell [[2, 2, 2, 2, 2], [3, 3, 3, 3, 2], [2, 4, 2, 3, 2], [2, 4, 2, 3, 3],
        [2, 2, 2, 2, 2]] p = some PATH ∨
      cell [[2, 2, 2, 2, 2], [3, 3, 3, 3, 2], [2, 4, 2, 3, 2], [2, 4, 2, 3, 3],
        [2, 2, 2, 2, 2]] p = some UPATH →
      cell [[2, 2, 2, 2, 2], [1, 1, 1, 1, 2], [2, 1, 2, 1, 2], [2, 1, 2, 1, 1],
        [2, 2, 2, 2, 2]] p = some VISIT :=
  solve_keeps_walls 5 5 (by decide) (by decide) (by decide) (by decide) []
    [[2, 2, 2, 2, 2], [2, 0, 2, 0, 2], [2, 2, 2, 2, 2], [2, 0, 2, 0, 2], [2, 2, 2, 2, 2]]
    (by decide) [0, 2, 1, 0, 1, 2, 3, 0, 1, 2, 3] [] _ rfl
    [1, 1, 0, 1, 2, 3, 0, 1, 2, 3, 0, 3, 3, 1, 1] [] _ rfl

/-! ## `generate` never reads through an empty stack when there are three rooms -/

/-- With at least three rooms, a round of `generate` that starts with the
invariant and the early-rounds invariant does not read through `NULL`, and the
early-rounds invariant holds for the next round. -/
theorem generate_body_early {w h : Int} (hw : 3 ≤ w) (hh : 3 ≤ h) (hwo : w % 2 = 1)
    (hho : h % 2 = 1) (h3 : 3 ≤ ((w - 1) / 2) * ((h - 1) / 2)) {s : Walk} {E : Maze}
    (hE : wr s.maze s.y s.x VISIT = some E) (hinv : GenInv w h E (s.x, s.y) s.st)
    (hearly : GenEarly w h E (s.x, s.y) s.st) :
    generate_body w h s ≠ .error .nullDeref ∧
    ∀ s' E', generate_body w h s = .ok (.next s') → wr s'.maze s'.y s'.x VISIT = some E' →
      GenEarly w h E' (s'.x, s'.y) s'.st := by
  obtain ⟨maze, x, y, st, draws, mallocs⟩ := s
  simp only at hE hinv hearly
  have hcur : Room w h (x, y) := hinv.room _ (List.mem_cons_self _ _)
  have hci := hcur
  simp only [Room, Inner] at hci
  rcases rand_neighbour_loop_spec hinv.dim (x := x) (y := y) (by omega) (by omega) (by omega)
    (by omega) draws true true true true with he | ⟨m, he, _, hlt, hs⟩
  · have hb : generate_body w h ⟨maze, x, y, st, draws, mallocs⟩ = .error .noDraws := by
      simp only [generate_body, hE, rand_neighbour, he]
    rw [hb]
    exact ⟨fun hc => (by cases hc), fun s' E' hc => (by cases hc)⟩
  · rcases hs with ⟨hr, hmz, hmx, hmy, s1, s2, s3, s4⟩ | ⟨hr, tx, ty, mx, my, hg, hmx, hmy,
      htx0, htx, hty0, hty, hU, hwm⟩
    · have hstuck : Stuck E x y w h := ⟨s1 rfl, s2 rfl, s3 rfl, s4 rfl⟩
      obtain ⟨k1, k2, k3, k4⟩ := hstuck
      match st, hinv, hearly with
      | [], hinv, hearly =>
        exfalso
        have hl := hinv.last
        simp only [List.getLast?_singleton, Option.some.injEq, Prod.mk.injEq] at hl
        obtain ⟨hx, hy⟩ := hl
        subst hx; subst hy
        have hbig : 5 ≤ w ∨ 5 ≤ h := by
          by_contra hcon
          have e1 : w = 3 := by omega
          have e2 : h = 3 := by omega
          subst e1; subst e2
          omega
        rcases hbig with hb | hb
        · have hu := hearly (by simp) (w - 2 - 2, h - 2) (by simp only [Room, Inner]; omega)
            (by simp only [List.mem_singleton, Prod.mk.injEq]; omega)
          rcases k3 with k | k
          · omega
          · exact k hu
        · have hu := hearly (by simp) (w - 2, h - 2 - 2) (by simp only [Room, Inner]; omega)
            (by simp only [List.mem_singleton, Prod.mk.injEq]; omega)
          rcases k1 with k | k
          · omega
          · exact k hu
      | [c1], hinv, hearly =>
        exfalso
        have hl := hinv.last
        simp only [List.getLast?_cons_cons, List.getLast?_singleton, Option.some.injEq] at hl
        subst hl
        have hch := hinv.chain
        simp only [List.chain'_cons, Adj2] at hch
        have hnd := hinv.nodup
        have hadj := hch.1
        have hu : ∀ p, Room w h p → p ≠ (x, y) → p ≠ (w - 2, h - 2) →
            cell E p = some UVISIT := by
          intro p hp n1 n2
          refine hearly (by simp) p hp ?_
          simp only [List.mem_cons, List.mem_singleton, List.not_mem_nil, or_false, not_or]
          exact ⟨n1, n2⟩
        rcases hadj with ⟨e1, e2 | e2⟩ | ⟨e1, e2 | e2⟩
        · omega
        · -- current cell is above the start cell
          by_cases h7 : 7 ≤ h
          · have := hu (x, y - 2) (by simp only [Room, Inner]; omega)
              (by simp only [ne_eq, Prod.mk.injEq]; omega)
              (by simp only [ne_eq, Prod.mk.injEq]; omega)
            rcases k1 with k | k
            · omega
            · exact k this
          · have e5 : h = 5 := by omega
            subst e5
            have hw5 : 5 ≤ w := by omega
            have := hu (x - 2, y) (by simp only [Room, Inner]; omega)
              (by simp only [ne_eq, Prod.mk.injEq]; omega)
              (by simp only [ne_eq, Prod.mk.injEq]; omega)
            rcases k3 with k | k
            · omega
            · exact k this
        · omega
        · -- current cell is left of the start cell
          by_cases h7 : 7 ≤ w
          · have := hu (x - 2, y) (by simp only [Room, Inner]; omega)
              (by simp only [ne_eq, Prod.mk.injEq]; omega)
              (by simp only [ne_eq, Prod.mk.injEq]; omega)
            rcases k3 with k | k
            · omega
            · exact k this
          · have e5 : w = 5 := by omega
            subst e5
            have hh5 : 5 ≤ h := by omega
            have := hu (x, y - 2) (by simp only [Room, Inner]; omega)
              (by simp only [ne_eq, Prod.mk.injEq]; omega)
              (by simp only [ne_eq, Prod.mk.injEq]; omega)
            rcases k1 with k | k
            · omega
            · exact k this
      | (sx, sy) :: c0 :: rest, hinv, hearly =>
        by_cases hrest : rest = []
        · have hb : generate_body w h ⟨maze, x, y, (sx, sy) :: c0 :: rest, draws, mallocs⟩ =
              .ok (.brk ⟨m.maze, sx, sy, c0 :: rest, m.draws, mallocs⟩) := by
            simp only [generate_body, hE, rand_neighbour, he, hr, ne_eq, not_true_eq_false,
              if_false, pop, hrest, if_true]
          rw [hb]
          exact ⟨fun hc => (by cases hc), fun s' E' hc => (by cases hc)⟩
        · have hb : generate_body w h ⟨maze, x, y, (sx, sy) :: c0 :: rest, draws, mallocs⟩ =
              .ok (.next ⟨m.maze, sx, sy, c0 :: rest, m.draws, mallocs⟩) := by
            simp only [generate_body, hE, rand_neighbour, he, hr, ne_eq, not_true_eq_false,
              if_false, pop, hrest]
          rw [hb]
          refine ⟨fun hc => (by cases hc), ?_⟩
          intro s' E' hc _
          cases hc
          intro hlen
          exfalso
          cases rest with
          | nil => exact hrest rfl
          | cons _ _ => simp at hlen
    · cases hmal : mallocs.headD true with
      | false =>
        have hb : generate_body w h ⟨maze, x, y, st, draws, mallocs⟩ = .ok (.ret 0 m.maze) := by
          simp only [generate_body, hE, rand_neighbour, he, hr, push, hmal, ne_eq, one_ne_zero,
            not_false_eq_true, if_true]
        rw [hb]
        exact ⟨fun hc => (by cases hc), fun s' E' hc => (by cases hc)⟩
      | true =>
        have hb : generate_body w h ⟨maze, x, y, st, draws, mallocs⟩ =
            .ok (.next ⟨m.maze, m.x, m.y, (x, y) :: st, m.draws, mallocs.tail⟩) := by
          simp only [generate_body, hE, rand_neighbour, he, hr, push, hmal, ne_eq, one_ne_zero,
            not_false_eq_true, if_true, Bool.true_eq_false, if_false]
        rw [hb]
        refine ⟨fun hc => (by cases hc), ?_⟩
        intro s' E' hc hE'
        cases hc
        simp only at hE' ⊢
        intro hlen p hp hnot
        have hst : st = [] := by
          cases st with
          | nil => rfl
          | cons _ _ => simp at hlen
        subst hst
        simp only [List.mem_cons, List.mem_singleton, List.not_mem_nil, or_false, not_or]
          at hnot
        have hpo := hp
        simp only [Room, Inner] at hpo
        have hne1 : p ≠ (m.x, m.y) := hnot.1
        have hne2 : p ≠ (mx, my) := by
          intro hc
          rw [hc] at hpo
          simp only at hpo
          omega
        rw [cell_wr hE', if_neg hne1, cell_wr hwm, if_neg hne2]
        refine hearly (by simp) p hp ?_
        simp only [List.mem_singleton]
        exact hnot.2

/-- The early-rounds invariant holds when `generate` enters its loop on the
cells of `init`. -/
theorem genEarly_start {w h : Int}
    {ms : List Bool} {maze E : Maze} (hinit : init w h ms = some maze)
    (hE : wr maze (h - 2) (w - 2) VISIT = some E) :
    GenEarly w h E (w - 2, h - 2) [] := by
  intro _ p hp hnot
  simp only [List.mem_singleton] at hnot
  have hpo := hp
  simp only [Room, Inner] at hpo
  rw [cell_wr hE, if_neg hnot]
  have := init_rd w h ms maze hinit p.1 p.2 (by omega) (by omega) (by omega) (by omega)
  simp only [cell]
  rw [this, if_neg (by omega)]

/-- Both invariants hold at the head of every round of `generate`. -/
theorem generate_steps_early {w h : Int} (hw : 3 ≤ w) (hh : 3 ≤ h) (hwo : w % 2 = 1)
    (hho : h % 2 = 1) (h3 : 3 ≤ ((w - 1) / 2) * ((h - 1) / 2)) (n : Nat) (s0 : Walk)
    {s : Walk} {E0 : Maze}
    (hE0 : wr s0.maze s0.y s0.x VISIT = some E0) (hinv0 : GenInv w h E0 (s0.x, s0.y) s0.st)
    (hearly0 : GenEarly w h E0 (s0.x, s0.y) s0.st)
    (hrun : generate_steps w h n s0 = some s) :
    ∃ E, wr s.maze s.y s.x VISIT = some E ∧ GenInv w h E (s.x, s.y) s.st ∧
      GenEarly w h E (s.x, s.y) s.st := by
  induction n generalizing s0 E0 with
  | zero =>
    simp only [generate_steps, Option.some.injEq] at hrun
    subst hrun; exact ⟨E0, hE0, hinv0, hearly0⟩
  | succ n ih =>
    obtain ⟨_, hnext⟩ := generate_body_early hw hh hwo hho h3 hE0 hinv0 hearly0
    rcases generate_body_spec hw hh hwo hho ⟨E0, hE0, hinv0⟩ with he | he |
      ⟨s', he, ⟨E', hE', hinv'⟩, _⟩ | ⟨s', he, _⟩ | ⟨m, he, _⟩
    · simp [generate_steps, he] at hrun
    · simp [generate_steps, he] at hrun
    · simp only [generate_steps, he] at hrun
      exact ih s' hE' hinv' (hnext s' E' he hE') hrun
    · simp [generate_steps, he] at hrun
    · simp [generate_steps, he] at hrun

/-- With both invariants in place, no run of the loop of `generate` reads
through `NULL`. -/
theorem generate_loop_early {w h : Int} (hw : 3 ≤ w) (hh : 3 ≤ h) (hwo : w % 2 = 1)
    (hho : h % 2 = 1) (h3 : 3 ≤ ((w - 1) / 2) * ((h - 1) / 2)) (n : Nat) (s : Walk)
    {E : Maze} (hE : wr s.maze s.y s.x VISIT = some E) (hinv : GenInv w h E (s.x, s.y) s.st)
    (hearly : GenEarly w h E (s.x, s.y) s.st) :
    generate_loop w h n s ≠ .error .nullDeref := by
  induction n generalizing s E with
  | zero => simp [generate_loop]
  | succ n ih =>
    obtain ⟨hnn, hnext⟩ := generate_body_early hw hh hwo hho h3 hE hinv hearly
    rcases generate_body_spec hw hh hwo hho ⟨E, hE, hinv⟩ with he | he |
      ⟨s', he, ⟨E', hE', hinv'⟩, _⟩ | ⟨s', he, hinvb, _⟩ | ⟨m, he, _⟩
    · simp [generate_loop, he]
    · exact absurd he hnn
    · simp only [generate_loop, he]
      exact ih s' hE' hinv' (hnext s' E' he hE')
    · simp only [generate_loop, he, generate_finish]
      obtain ⟨M1, h1⟩ := wr_some_of_range hinvb.dim (y := 1) (x := 0) VISIT (by omega)
        (by omega) (by omega) (by omega)
      obtain ⟨M2, h2⟩ := wr_some_of_range (wr_dim hinvb.dim h1) (y := h - 2) (x := w - 1) VISIT
        (by omega) (by omega) (by omega) (by omega)
      simp [h1, h2]
    · simp [generate_loop, he]

/-- C19: on a grid with at least three rooms (odd `w, h ≥ 3` with
`((w-1)/2) * ((h-1)/2) ≥ 3`), for every sequence of draws `generate` on the grid
of `init w h` never reads through an empty stack: no round and no run ends in
`nullDeref`, and at every round in which `rand_neighbour` returns 0 the stack
is non-empty when `st->x`, `st->y` are read and still non-empty after the pop,
when `st->next` is tested. -/
theorem generate_never_null_deref (w h : Int) (hw : 3 ≤ w) (hh : 3 ≤ h) (hwo : w % 2 = 1)
    (hho : h % 2 = 1) (h3 : 3 ≤ ((w - 1) / 2) * ((h - 1) / 2))
    (ms : List Bool) (maze : Maze) (hinit : init w h ms = some maze)
    (draws : List Nat) (mallocs : List Bool) :
    generate maze w h draws mallocs ≠ .error .nullDeref ∧
    ∀ n s, generate_steps w h n (generate_start maze w h draws mallocs) = some s →
      generate_body w h s ≠ .error .nullDeref ∧
      ∀ E m, wr s.maze s.y s.x VISIT = some E →
        rand_neighbour E s.x s.y w h s.draws = .ok m → m.ret = 0 →
        s.st ≠ [] ∧ pop s.st ≠ [] := by
  obtain ⟨E0, hE0, hinv0⟩ := genOK_start hw hh hwo hho hinit draws mallocs
  have hearly0 : GenEarly w h E0 (w - 2, h - 2) [] := genEarly_start hinit hE0
  constructor
  · exact generate_loop_early hw hh hwo hho h3 _ _ hE0 hinv0 hearly0
  · intro n s hrun
    obtain ⟨Es, hEs, hinvs, hearlys⟩ := generate_steps_early hw hh hwo hho h3 n _ hE0 hinv0
      hearly0 hrun
    have hnn := (generate_body_early hw hh hwo hho h3 hEs hinvs hearlys).1
    refine ⟨hnn, ?_⟩
    intro E m hE hm hret
    constructor
    · intro hst
      apply hnn
      simp only [generate_body, hE, hm, hret, ne_eq, not_true_eq_false, if_false, hst]
    · intro hst
      apply hnn
      cases hs : s.st with
      | nil => simp only [generate_body, hE, hm, hret, ne_eq, not_true_eq_false, if_false, hs]
      | cons c rest =>
        rw [hs] at hst
        simp only [generate_body, hE, hm, hret, ne_eq, not_true_eq_false, if_false, hs, hst]

theorem generate_never_null_deref_witness :
    generate [[2, 2, 2, 2, 2], [2, 0, 2, 0, 2], [2, 2, 2, 2, 2], [2, 0, 2, 0, 2],
        [2, 2, 2, 2, 2]] 5 5 [0, 2, 1, 0, 1, 2, 3, 0, 1, 2, 3] [] ≠ .error .nullDeref ∧
    ∀ n s, generate_steps 5 5 n (generate_start [[2, 2, 2, 2, 2], [2, 0, 2, 0, 2],
        [2, 2, 2, 2, 2], [2, 0, 2, 0, 2], [2, 2, 2, 2, 2]] 5 5
        [0, 2, 1, 0, 1, 2, 3, 0, 1, 2, 3] []) = some s →
      generate_body 5 5 s ≠ .error .nullDeref ∧
      ∀ E m, wr s.maze s.y s.x VISIT = some E →
        rand_neighbour E s.x s.y 5 5 s.draws = .ok m → m.ret = 0 →
        s.st ≠ [] ∧ pop s.st ≠ [] :=
  generate_never_null_deref 5 5 (by decide) (by decide) (by decide) (by decide) (by decide) []
    [[2, 2, 2, 2, 2], [2, 0, 2, 0, 2], [2, 2, 2, 2, 2], [2, 0, 2, 0, 2], [2, 2, 2, 2, 2]]
    (by decide) [0, 2, 1, 0, 1, 2, 3, 0, 1, 2, 3] []

/-! ## The forward moves of `solve` -/

/-- The outcome of a round of `solve` together with its forward move. -/
theorem solve_moved_cases {w h : Int} {s : Walk} (hd : Dim s.maze w h)
    (hin : Inner w h (s.x, s.y)) :
    ∃ E, wr s.maze s.y s.x PATH = some E ∧
    ((solve_moved w h s = none ∧
        (solve_body w h s = .error .noDraws ∨ solve_body w h s = .error .nullDeref)) ∨
     (∃ d sx sy st' E2, solve_moved w h s = none ∧ wr E s.y s.x UPATH = some E2 ∧
        solve_body w h s = .ok (.next ⟨E2, sx, sy, st', d, s.mallocs⟩)) ∨
     (∃ m, Stepped E s.x s.y w h m ∧ solve_moved w h s = some (m.x, m.y) ∧
        ((∃ s', solve_body w h s = .ok (.brk s')) ∨
         (∃ r M, solve_body w h s = .ok (.ret r M)) ∨
         solve_body w h s =
          .ok (.next ⟨E, m.x, m.y, (s.x, s.y) :: s.st, m.draws, s.mallocs.tail⟩)))) := by
  obtain ⟨maze, x, y, st, draws, mallocs⟩ := s
  simp only at hd hin ⊢
  have hci := hin
  simp only [Inner] at hci
  obtain ⟨E, hE⟩ := wr_some_of_range hd (y := y) (x := x) PATH (by omega) (by omega) (by omega)
    (by omega)
  have hdE : Dim E w h := wr_dim hd hE
  refine ⟨E, hE, ?_⟩
  rcases solve_rand_neighbour_loop_spec hdE (x := x) (y := y) (by omega) (by omega) (by omega)
    (by omega) draws true true true true with he | ⟨m, he, _, hlt, hs⟩
  · left
    constructor
    · simp only [solve_moved, hE, solve_rand_neighbour, he]
    · left
      simp only [solve_body, hE, solve_rand_neighbour, he]
  · rcases hs with ⟨hr, hmz, hmx, hmy, _⟩ | ⟨hr, hst⟩
    · have hmv : solve_moved w h ⟨maze, x, y, st, draws, mallocs⟩ = none := by
        simp only [solve_moved, hE, solve_rand_neighbour, he, hr, ne_eq, not_true_eq_false,
          if_false]
      obtain ⟨E2, hE2⟩ := wr_some_of_range hdE (y := y) (x := x) UPATH (by omega) (by omega)
        (by omega) (by omega)
      match st with
      | [] =>
        left
        refine ⟨hmv, Or.inr ?_⟩
        simp only [solve_body, hE, solve_rand_neighbour, he, hr, ne_eq, not_true_eq_false,
          if_false, hmz, hmx, hmy, hE2]
      | (sx, sy) :: st' =>
        right; left
        refine ⟨m.draws, sx, sy, st', E2, hmv, hE2, ?_⟩
        simp only [solve_body, hE, solve_rand_neighbour, he, hr, ne_eq, not_true_eq_false,
          if_false, hmz, hmx, hmy, hE2, pop]
    · right; right
      have hst' := hst
      obtain ⟨hmz, hg, a1, a2, a3, a4, hv⟩ := hst'
      refine ⟨m, hst, ?_, ?_⟩
      · simp only [solve_moved, hE, solve_rand_neighbour, he, hr, ne_eq, one_ne_zero,
          not_false_eq_true, if_true]
      by_cases hgoal : m.x = w - 2 ∧ m.y = h - 2
      · left
        obtain ⟨E2, hE2⟩ := wr_some_of_range hdE (y := m.y) (x := m.x) PATH (by omega)
          (by omega) (by omega) (by omega)
        refine ⟨⟨E2, m.x, m.y, st, m.draws, mallocs⟩, ?_⟩
        simp only [solve_body, hE, solve_rand_neighbour, he, hr, ne_eq, one_ne_zero,
          not_false_eq_true, if_true, hgoal, and_self, hmz, hE2]
        rw [← hgoal.1, ← hgoal.2, hE2]
      · right
        cases hmal : mallocs.headD true with
        | false =>
          left
          refine ⟨0, E, ?_⟩
          simp only [solve_body, hE, solve_rand_neighbour, he, hr, ne_eq, one_ne_zero,
            not_false_eq_true, if_true, hgoal, if_false, push, hmal, hmz]
        | true =>
          right
          simp only [solve_body, hE, solve_rand_neighbour, he, hr, ne_eq, one_ne_zero,
            not_false_eq_true, if_true, hgoal, if_false, push, hmal, hmz, Bool.true_eq_false]

/-- Writing a state other than `VISIT` does not raise the number of `VISIT`
cells. -/
theorem visitCount_wr_le {E E' : Maze} {w h : Int} {x y v : Int}
    (hwr : wr E y x v = some E') (hne : v ≠ VISIT) : visitCount E' w h ≤ visitCount E w h := by
  simp only [visitCount]
  apply Finset.card_le_card
  intro q hq
  simp only [Finset.mem_filter, cell_wr hwr] at hq ⊢
  refine ⟨hq.1, ?_⟩
  by_cases hc : q = (x, y)
  · rw [if_pos hc] at hq
    exact absurd (Option.some.inj hq.2) hne
  · rw [if_neg hc] at hq
    exact hq.2

/-- The number of `VISIT` cells inside the border is at most the number of
cells inside the border. -/
theorem visitCount_le (maze : Maze) {w h : Int} (hw : 3 ≤ w) (hh : 3 ≤ h) :
    (visitCount maze w h : Int) ≤ (w - 2) * (h - 2) := by
  have h1 : visitCount maze w h ≤ (interior w h).card := Finset.card_filter_le _ _
  have h2 : ((interior w h).card : Int) = (w - 2) * (h - 2) := by
    simp only [interior, Finset.card_product, Int.card_Icc, Nat.cast_mul]
    rw [Int.toNat_of_nonneg (by omega), Int.toNat_of_nonneg (by omega)]
    ring
  have h3 : (visitCount maze w h : Int) ≤ ((interior w h).card : Int) := by exact_mod_cast h1
  omega

/-- The targets of the forward moves of a run of `solve` are distinct cells
inside the border that are `VISIT` at the head of the run, and they are at most
as many as the `VISIT` cells. -/
theorem solve_moves_spec {w h : Int} (n : Nat) {s : Walk} (hs : SolSafe w h s) {E : Maze}
    (hE : wr s.maze s.y s.x PATH = some E) :
    (solve_moves w h n s).Nodup ∧
    (∀ t ∈ solve_moves w h n s, Inner w h t ∧ cell E t = some VISIT) ∧
    (solve_moves w h n s).length ≤ visitCount E w h := by
  induction n generalizing s E with
  | zero => simp [solve_moves]
  | succ n ih =>
    obtain ⟨_, hnext, _⟩ := solve_body_safe hs
    obtain ⟨hd, hin, hst⟩ := hs
    obtain ⟨E1, hE1, hc⟩ := solve_moved_cases hd hin
    rw [hE] at hE1
    cases hE1
    have hdE : Dim E w h := wr_dim hd hE
    rcases hc with ⟨hmv, he | he⟩ | ⟨d, sx, sy, st', E2, hmv, hE2, he⟩ | ⟨m, hstep, hmv, hb⟩
    · simp [solve_moves, hmv, he]
    · simp [solve_moves, hmv, he]
    · have hs' := hnext _ he
      have hin' := hs'.2.1
      simp only [Inner] at hin'
      obtain ⟨E', hE'⟩ := wr_some_of_range hs'.1 (y := sy) (x := sx) PATH (by omega) (by omega)
        (by omega) (by omega)
      obtain ⟨i1, i2, i3⟩ := ih hs' hE'
      simp only [solve_moves, hmv, he, Option.toList, List.nil_append]
      refine ⟨i1, ?_, ?_⟩
      · intro t ht
        obtain ⟨j1, j2⟩ := i2 t ht
        refine ⟨j1, ?_⟩
        simp only at hE'
        rw [cell_wr hE'] at j2
        by_cases c1 : t = (sx, sy)
        · rw [if_pos c1] at j2; exact absurd j2 (by decide)
        · rw [if_neg c1, cell_wr hE2] at j2
          by_cases c2 : t = (s.x, s.y)
          · rw [if_pos c2] at j2; exact absurd j2 (by decide)
          · rw [if_neg c2] at j2; exact j2
      · have l1 := visitCount_wr_le (w := w) (h := h) hE' (by decide)
        have l2 := visitCount_wr_le (w := w) (h := h) hE2 (by decide)
        simp only at l1
        omega
    · obtain ⟨hmz, hg, a1, a2, a3, a4, hv⟩ := hstep
      have hinm : Inner w h (m.x, m.y) := ⟨a1, a2, a3, a4⟩
      have hvm : cell E (m.x, m.y) = some VISIT := hv
      rcases hb with ⟨s', he⟩ | ⟨r, M, he⟩ | he
      · simp only [solve_moves, hmv, he, Option.toList, List.append_nil, List.nodup_cons,
          List.not_mem_nil, not_false_eq_true, List.nodup_nil, and_self, List.mem_singleton,
          forall_eq, List.length_singleton, true_and]
        exact ⟨⟨hinm, hvm⟩, visitCount_pos hinm hvm⟩
      · simp only [solve_moves, hmv, he, Option.toList, List.append_nil, List.nodup_cons,
          List.not_mem_nil, not_false_eq_true, List.nodup_nil, and_self, List.mem_singleton,
          forall_eq, List.length_singleton, true_and]
        exact ⟨⟨hinm, hvm⟩, visitCount_pos hinm hvm⟩
      · have hs' := hnext _ he
        obtain ⟨E', hE'⟩ := wr_some_of_range hdE (y := m.y) (x := m.x) PATH (by omega)
          (by omega) (by omega) (by omega)
        obtain ⟨i1, i2, i3⟩ := ih hs' hE'
        simp only [solve_moves, hmv, he, Option.toList, List.singleton_append, List.nodup_cons,
          List.mem_cons, forall_eq_or_imp, List.length_cons]
        have hold : ∀ t ∈ solve_moves w h n
            ⟨E, m.x, m.y, (s.x, s.y) :: s.st, m.draws, s.mallocs.tail⟩,
            t ≠ (m.x, m.y) ∧ Inner w h t ∧ cell E t = some VISIT := by
          intro t ht
          obtain ⟨j1, j2⟩ := i2 t ht
          rw [cell_wr hE'] at j2
          by_cases c1 : t = (m.x, m.y)
          · rw [if_pos c1] at j2; exact absurd j2 (by decide)
          · rw [if_neg c1] at j2; exact ⟨c1, j1, j2⟩
        refine ⟨⟨fun hmem => (hold _ hmem).1 rfl, i1⟩, ⟨⟨hinm, hvm⟩, fun t ht => (hold t ht).2⟩,
          ?_⟩
        have l1 := visitCount_mark hE' hinm hvm (by decide)
        omega

/-- C18: in every run of `solve` on a grid of `h` rows of `w` cells, `w, h ≥ 3`,
with any draws, the targets of the forward moves (the calls of
`solve_rand_neighbour` that return non-zero) are pairwise distinct cells
inside the border that were `VISIT` in the grid given to `solve`, so there are
at most `(w-2) * (h-2)` forward moves. -/
theorem solve_forward_moves_bounded (w h : Int) (hw : 3 ≤ w) (hh : 3 ≤ h) (maze : Maze)
    (hd : Dim maze w h) (draws : List Nat) (mallocs : List Bool) :
    ∃ s0, solve_start maze w h draws mallocs = some s0 ∧
      ∀ n, (solve_moves w h n s0).Nodup ∧
        (∀ t ∈ solve_moves w h n s0, Inner w h t ∧ cell maze t = some VISIT) ∧
        ((solve_moves w h n s0).length : Int) ≤ (w - 2) * (h - 2) := by
  obtain ⟨M1, h1⟩ := wr_some_of_range hd (y := 1) (x := 0) WALL (by omega) (by omega)
    (by omega) (by omega)
  obtain ⟨M2, h2⟩ := wr_some_of_range (wr_dim hd h1) (y := h - 2) (x := w - 1) WALL
    (by omega) (by omega) (by omega) (by omega)
  have hstart : solve_start maze w h draws mallocs = some ⟨M2, 1, 1, [], draws, mallocs⟩ := by
    simp only [solve_start, h1, h2]
  obtain ⟨s0, hs0, hsafe⟩ := solve_start_safe hw hh hd draws mallocs
  rw [hstart] at hs0
  cases hs0
  refine ⟨_, hstart, fun n => ?_⟩
  obtain ⟨E, hE⟩ := wr_some_of_range (wr_dim (wr_dim hd h1) h2) (y := 1) (x := 1) PATH
    (by omega) (by omega) (by omega) (by omega)
  obtain ⟨i1, i2, i3⟩ := solve_moves_spec n hsafe hE
  refine ⟨i1, ?_, ?_⟩
  · intro t ht
    obtain ⟨j1, j2⟩ := i2 t ht
    refine ⟨j1, ?_⟩
    rw [cell_wr hE] at j2
    by_cases c1 : t = (1, 1)
    · rw [if_pos c1] at j2; exact absurd j2 (by decide)
    · rw [if_neg c1, cell_wr h2] at j2
      by_cases c2 : t = (w - 1, h - 2)
      · rw [if_pos c2] at j2; exact absurd j2 (by decide)
      · rw [if_neg c2, cell_wr h1] at j2
        by_cases c3 : t = (0, 1)
        · rw [if_pos c3] at j2; exact absurd j2 (by decide)
        · rw [if_neg c3] at j2; exact j2
  · have := visitCount_le E hw hh
    omega

theorem solve_forward_moves_bounded_witness :
    ∃ s0, solve_start [[2, 2, 2, 2, 2], [1, 1, 1, 1, 2], [2, 1, 2, 1, 2], [2, 1, 2, 1, 1],
        [2, 2, 2, 2, 2]] 5 5 [1, 1, 0, 1, 2, 3, 0, 1, 2, 3, 0, 3, 3, 1, 1] [] = some s0 ∧
      ∀ n, (solve_moves 5 5 n s0).Nodup ∧
        (∀ t ∈ solve_moves 5 5 n s0, Inner 5 5 t ∧
          cell [[2, 2, 2, 2, 2], [1, 1, 1, 1, 2], [2, 1, 2, 1, 2], [2, 1, 2, 1, 1],
            [2, 2, 2, 2, 2]] t = some VISIT) ∧
        ((solve_moves 5 5 n s0).length : Int) ≤ (5 - 2) * (5 - 2) :=
  solve_forward_moves_bounded 5 5 (by decide) (by decide) _ (by unfold Dim; decide)
    [1, 1, 0, 1, 2, 3, 0, 1, 2, 3, 0, 3, 3, 1, 1] []

/-! ## The draws of one call of `rand_neighbour` and `solve_rand_neighbour` -/

theorem rand_neighbour_loop_drawLoop (maze : Maze) (x y w h : Int) :
    DrawLoop (rand_neighbour_loop maze x y w h) := by
  constructor
  · intro X
    cases X <;> simp [rand_neighbour_loop]
  · intro r up down left right hany
    have hr4 : r % 4 = 0 ∨ r % 4 = 1 ∨ r % 4 = 2 ∨ r % 4 = 3 := by omega
    rcases hr4 with h0 | h0 | h0 | h0
    · by_cases hb : y - 2 ≤ 0
      · right; right; intro X
        simp [rand_neighbour_loop, hany, h0, hb]
      · cases hc : rd maze (y - 2) x with
        | none => left; intro X; simp [rand_neighbour_loop, hany, h0, hb, hc]
        | some c =>
          by_cases hu : c ≠ UVISIT
          · right; right; intro X
            simp only [rand_neighbour_loop, hany, if_true, h0, hb, if_false, hc]
            rw [if_pos hu]
            simp
          · cases hw : wr maze (y - 1) x VISIT with
            | none =>
              left; intro X
              simp only [rand_neighbour_loop, hany, if_true, h0, hb, if_false, hc, hu, hw]
            | some maze' =>
              right; left; intro X
              simp only [rand_neighbour_loop, hany, if_true, h0, hb, if_false, hc, hu, hw]
              exact ⟨_, rfl, rfl, rfl⟩
    · by_cases hb : y + 2 ≥ h
      · right; right; intro X
        simp [rand_neighbour_loop, hany, h0, hb]
      · cases hc : rd maze (y + 2) x with
        | none => left; intro X; simp [rand_neighbour_loop, hany, h0, hb, hc]
        | some c =>
          by_cases hu : c ≠ UVISIT
          · right; right; intro X
            simp only [rand_neighbour_loop, hany, if_true, h0, hb, if_false, hc]
            rw [if_pos hu]
            simp
          · cases hw : wr maze (y + 1) x VISIT with
            | none =>
              left; intro X
              simp only [rand_neighbour_loop, hany, if_true, h0, hb, if_false, hc, hu, hw]
            | some maze' =>
              right; left; intro X
              simp only [rand_neighbour_loop, hany, if_true, h0, hb, if_false, hc, hu, hw]
              exact ⟨_, rfl, rfl, rfl⟩
    · by_cases hb : x - 2 ≤ 0
      · right; right; intro X
        simp [rand_neighbour_loop, hany, h0, hb]
      · cases hc : rd maze y (x - 2) with
        | none => left; intro X; simp [rand_neighbour_loop, hany, h0, hb, hc]
        | some c =>
          by_cases hu : c ≠ UVISIT
          · right; right; intro X
            simp only [rand_neighbour_loop, hany, if_true, h0, hb, if_false, hc]
            rw [if_pos hu]
            simp
          · cases hw : wr maze y (x - 1) VISIT with
            | none =>
              left; intro X
              simp only [rand_neighbour_loop, hany, if_true, h0, hb, if_false, hc, hu, hw]
            | some maze' =>
              right; left; intro X
              simp only [rand_neighbour_loop, hany, if_true, h0, hb, if_false, hc, hu, hw]
              exact ⟨_, rfl, rfl, rfl⟩
    · by_cases hb : x + 2 ≥ w
      · right; right; intro X
        simp [rand_neighbour_loop, hany, h0, hb]
      · cases hc : rd maze y (x + 2) with
        | none => left; intro X; simp [rand_neighbour_loop, hany, h0, hb, hc]
        | some c =>
          by_cases hu : c ≠ UVISIT
          · right; right; intro X
            simp only [rand_neighbour_loop, hany, if_true, h0, hb, if_false, hc]
            rw [if_pos hu]
            simp
          · cases hw : wr maze y (x + 1) VISIT with
            | none =>
              left; intro X
              simp only [rand_neighbour_loop, hany, if_true, h0, hb, if_false, hc, hu, hw]
            | some maze' =>
              right; left; intro X
              simp only [rand_neighbour_loop, hany, if_true, h0, hb, if_false, hc, hu, hw]
              exact ⟨_, rfl, rfl, rfl⟩

theorem solve_rand_neighbour_loop_drawLoop (maze : Maze) (x y w h : Int) :
    DrawLoop (solve_rand_neighbour_loop maze x y w h) := by
  constructor
  · intro X
    cases X <;> simp [solve_rand_neighbour_loop]
  · intro r up down left right hany
    have hr4 : r % 4 = 0 ∨ r % 4 = 1 ∨ r % 4 = 2 ∨ r % 4 = 3 := by omega
    rcases hr4 with h0 | h0 | h0 | h0
    · by_cases hb : y - 1 ≤ 0
      · right; right; intro X
        simp [solve_rand_neighbour_loop, hany, h0, hb]
      · cases hc : rd maze (y - 1) x with
        | none => left; intro X; simp [solve_rand_neighbour_loop, hany, h0, hb, hc]
        | some c =>
          by_cases hu : c ≠ VISIT
          · right; right; intro X
            simp only [solve_rand_neighbour_loop, hany, if_true, h0, hb, if_false, hc]
            rw [if_pos hu]
            simp
          · right; left; intro X
            simp only [solve_rand_neighbour_loop, hany, if_true, h0, hb, if_false, hc, hu]
            exact ⟨_, rfl, rfl, rfl⟩
    · by_cases hb : y + 1 ≥ h - 1
      · right; right; intro X
        simp [solve_rand_neighbour_loop, hany, h0, hb]
      · cases hc : rd maze (y + 1) x with
        | none => left; intro X; simp [solve_rand_neighbour_loop, hany, h0, hb, hc]
        | some c =>
          by_cases hu : c ≠ VISIT
          · right; right; intro X
            simp only [solve_rand_neighbour_loop, hany, if_true, h0, hb, if_false, hc]
            rw [if_pos hu]
            simp
          · right; left; intro X
            simp only [solve_rand_neighbour_loop, hany, if_true, h0, hb, if_false, hc, hu]
            exact ⟨_, rfl, rfl, rfl⟩
    · by_cases hb : x - 1 ≤ 0
      · right; right; intro X
        simp [solve_rand_neighbour_loop, hany, h0, hb]
      · cases hc : rd maze y (x - 1) with
        | none => left; intro X; simp [solve_rand_neighbour_loop, hany, h0, hb, hc]
        | some c =>
          by_cases hu : c ≠ VISIT
          · right; right; intro X
            simp only [solve_rand_neighbour_loop, hany, if_true, h0, hb, if_false, hc]
            rw [if_pos hu]
            simp
          · right; left; intro X
            simp only [solve_rand_neighbour_loop, hany, if_true, h0, hb, if_false, hc, hu]
            exact ⟨_, rfl, rfl, rfl⟩
    · by_cases hb : x + 1 ≥ w - 1
      · right; right; intro X
        simp [solve_rand_neighbour_loop, hany, h0, hb]
      · cases hc : rd maze y (x + 1) with
        | none => left; intro X; simp [solve_rand_neighbour_loop, hany, h0, hb, hc]
        | some c =>
          by_cases hu : c ≠ VISIT
          · right; right; intro X
            simp only [solve_rand_neighbour_loop, hany, if_true, h0, hb, if_false, hc]
            rw [if_pos hu]
            simp
          · right; left; intro X
            simp only [solve_rand_neighbour_loop, hany, if_true, h0, hb, if_false, hc, hu]
            exact ⟨_, rfl, rfl, rfl⟩

/-- A loop of that shape returns within any draws in which every direction
still flagged turns up, unless it reads outside the cells; when it returns 0,
every direction flagged at the start has been drawn. -/
theorem drawLoop_progress {L : List Nat → Bool → Bool → Bool → Bool → Except Fault Moved}
    (hL : DrawLoop L) (ds : List Nat) (up down left right : Bool)
    (hcov : Covers ds up down left right) (X : List Nat) :
    L (ds ++ X) up down left right = .error .outOfBounds ∨
    ∃ m pre, L (ds ++ X) up down left right = .ok m ∧ ds ++ X = pre ++ m.draws ∧
      pre.length ≤ ds.length ∧ (m.ret = 0 → Covers pre up down left right) := by
  obtain ⟨hdone, hdraw⟩ := hL
  induction ds generalizing up down left right with
  | nil =>
    obtain ⟨c1, c2, c3, c4⟩ := hcov
    simp only [List.not_mem_nil, false_and, exists_false, imp_false, Bool.not_eq_true]
      at c1 c2 c3 c4
    subst c1 c2 c3 c4
    obtain ⟨m, hm, hr, hdr⟩ := hdone X
    refine Or.inr ⟨m, [], ?_, ?_, le_refl _, ?_⟩
    · simpa using hm
    · simp [hdr]
    · intro _; simp [Covers]
  | cons r ds ih =>
    by_cases hany : (up || down || left || right) = true
    · rcases hdraw r up down left right hany with he | hok | hrec
      · left
        rw [List.cons_append]; exact he _
      · right
        obtain ⟨m, hm, hr, hdr⟩ := hok (ds ++ X)
        refine ⟨m, [r], ?_, ?_, ?_, ?_⟩
        · rw [List.cons_append]; exact hm
        · simp [hdr]
        · simp
        · intro h0; rw [hr] at h0; exact absurd h0 (by decide)
      · have hcov' : Covers ds (up && decide (r % 4 ≠ 0)) (down && decide (r % 4 ≠ 1))
            (left && decide (r % 4 ≠ 2)) (right && decide (r % 4 ≠ 3)) := by
          obtain ⟨c1, c2, c3, c4⟩ := hcov
          refine ⟨?_, ?_, ?_, ?_⟩
          · intro hh
            simp only [Bool.and_eq_true, decide_eq_true_eq] at hh
            obtain ⟨d, hd1, hd2⟩ := c1 hh.1
            rcases List.mem_cons.mp hd1 with e | e
            · exact absurd (e ▸ hd2) hh.2
            · exact ⟨d, e, hd2⟩
          · intro hh
            simp only [Bool.and_eq_true, decide_eq_true_eq] at hh
            obtain ⟨d, hd1, hd2⟩ := c2 hh.1
            rcases List.mem_cons.mp hd1 with e | e
            · exact absurd (e ▸ hd2) hh.2
            · exact ⟨d, e, hd2⟩
          · intro hh
            simp only [Bool.and_eq_true, decide_eq_true_eq] at hh
            obtain ⟨d, hd1, hd2⟩ := c3 hh.1
            rcases List.mem_cons.mp hd1 with e | e
            · exact absurd (e ▸ hd2) hh.2
            · exact ⟨d, e, hd2⟩
          · intro hh
            simp only [Bool.and_eq_true, decide_eq_true_eq] at hh
            obtain ⟨d, hd1, hd2⟩ := c4 hh.1
            rcases List.mem_cons.mp hd1 with e | e
            · exact absurd (e ▸ hd2) hh.2
            · exact ⟨d, e, hd2⟩
        rw [List.cons_append, hrec]
        rcases ih _ _ _ _ hcov' with he | ⟨m, pre, hm, hsplit, hlen, hz⟩
        · exact Or.inl he
        · refine Or.inr ⟨m, r :: pre, hm, ?_, ?_, ?_⟩
          · rw [List.cons_append, hsplit]
          · simp only [List.length_cons]; omega
          · intro h0
            obtain ⟨z1, z2, z3, z4⟩ := hz h0
            refine ⟨?_, ?_, ?_, ?_⟩
            · intro hu
              by_cases hr : r % 4 = 0
              · exact ⟨r, List.mem_cons_self _ _, hr⟩
              · obtain ⟨d, hd1, hd2⟩ := z1 (by simp [hu, hr])
                exact ⟨d, List.mem_cons_of_mem _ hd1, hd2⟩
            · intro hu
              by_cases hr : r % 4 = 1
              · exact ⟨r, List.mem_cons_self _ _, hr⟩
              · obtain ⟨d, hd1, hd2⟩ := z2 (by simp [hu, hr])
                exact ⟨d, List.mem_cons_of_mem _ hd1, hd2⟩
            · intro hu
              by_cases hr : r % 4 = 2
              · exact ⟨r, List.mem_cons_self _ _, hr⟩
              · obtain ⟨d, hd1, hd2⟩ := z3 (by simp [hu, hr])
                exact ⟨d, List.mem_cons_of_mem _ hd1, hd2⟩
            · intro hu
              by_cases hr : r % 4 = 3
              · exact ⟨r, List.mem_cons_self _ _, hr⟩
              · obtain ⟨d, hd1, hd2⟩ := z4 (by simp [hu, hr])
                exact ⟨d, List.mem_cons_of_mem _ hd1, hd2⟩
    · simp only [Bool.or_eq_true, not_or, Bool.not_eq_true] at hany
      obtain ⟨⟨⟨h1, h2⟩, h3⟩, h4⟩ := hany
      subst h1 h2 h3 h4
      obtain ⟨m, hm, hr, hdr⟩ := hdone (r :: ds ++ X)
      refine Or.inr ⟨m, [], hm, ?_, ?_, ?_⟩
      · simp [hdr]
      · simp
      · intro _; simp [Covers]

/-! ## The dimensions that `parse_args` stores -/

theorem tmod_two (v : Int) : v.tmod 2 = 0 ↔ v % 2 = 0 := by
  rw [← Int.dvd_iff_tmod_eq_zero, ← Int.dvd_iff_emod_eq_zero]

/-- A property `Q` of the two dimensions survives `parse_args` if it holds for
every value that `--height` or `--width` can store from the arguments. -/
theorem parse_args_dims (Q : Int → Prop) (n : Nat) :
    ∀ (argv : List Arg) (opts o : conf), argv.length ≤ n →
      (∀ a ∈ argv, a.atoi ≠ 0 → Q (if a.atoi % 2 = 0 then a.atoi - 1 else a.atoi)) →
      Q opts.width → Q opts.height → parse_args argv opts = .ok (.returned o) →
      Q o.width ∧ Q o.height := by
  induction n with
  | zero =>
    intro argv opts o hlen _ hw hh hret
    cases argv with
    | nil =>
      simp only [parse_args, Except.ok.injEq, Parsed.returned.injEq] at hret
      subst hret; exact ⟨hw, hh⟩
    | cons _ _ => simp at hlen
  | succ n ih =>
    intro argv opts o hlen hQ hw hh hret
    cases argv with
    | nil =>
      simp only [parse_args, Except.ok.injEq, Parsed.returned.injEq] at hret
      subst hret; exact ⟨hw, hh⟩
    | cons arg rest =>
      have hlen' : rest.length ≤ n := by simp only [List.length_cons] at hlen; omega
      have hQ' : ∀ a ∈ rest, a.atoi ≠ 0 →
          Q (if a.atoi % 2 = 0 then a.atoi - 1 else a.atoi) :=
        fun a ha => hQ a (List.mem_cons_of_mem _ ha)
      unfold parse_args at hret
      split_ifs at hret with c1 c2 c3 c4 c5 c6
      · simp at hret
      · simp at hret
      · cases rest with
        | nil => simp at hret
        | cons val rest' =>
          have hlen'' : rest'.length ≤ n := by simp only [List.length_cons] at hlen'; omega
          have hQ'' : ∀ a ∈ rest', a.atoi ≠ 0 →
              Q (if a.atoi % 2 = 0 then a.atoi - 1 else a.atoi) :=
            fun a ha => hQ' a (List.mem_cons_of_mem _ ha)
          have hval := hQ' val (List.mem_cons_self _ _)
          simp only at hret
          split_ifs at hret with d1 d2 d3
          · refine ih rest' _ o hlen'' hQ'' ?_ ?_ hret
            · exact hw
            · simpa only [if_pos ((tmod_two _).mp d2)] using hval d1
          · refine ih rest' _ o hlen'' hQ'' ?_ ?_ hret
            · exact hw
            · simpa only [if_neg (fun h => d2 ((tmod_two _).mpr h))] using hval d1
          · exact ih rest' _ o hlen'' hQ'' hw hh hret
      · cases rest with
        | nil => simp at hret
        | cons val rest' =>
          have hlen'' : rest'.length ≤ n := by simp only [List.length_cons] at hlen'; omega
          have hQ'' : ∀ a ∈ rest', a.atoi ≠ 0 →
              Q (if a.atoi % 2 = 0 then a.atoi - 1 else a.atoi) :=
            fun a ha => hQ' a (List.mem_cons_of_mem _ ha)
          have hval := hQ' val (List.mem_cons_self _ _)
          simp only at hret
          split_ifs at hret with d1 d2 d3
          · refine ih rest' _ o hlen'' hQ'' ?_ ?_ hret
            · simpa only [if_pos ((tmod_two _).mp d2)] using hval d1
            · exact hh
          · refine ih rest' _ o hlen'' hQ'' ?_ ?_ hret
            · simpa only [if_neg (fun h => d2 ((tmod_two _).mpr h))] using hval d1
            · exact hh
          · exact ih rest' _ o hlen'' hQ'' hw hh hret
      · refine ih rest _ o hlen' hQ' ?_ ?_ hret
        · exact hw
        · exact hh
      · cases rest with
        | nil => simp at hret
        | cons val rest' =>
          have hlen'' : rest'.length ≤ n := by simp only [List.length_cons] at hlen'; omega
          have hQ'' : ∀ a ∈ rest', a.atoi ≠ 0 →
              Q (if a.atoi % 2 = 0 then a.atoi - 1 else a.atoi) :=
            fun a ha => hQ' a (List.mem_cons_of_mem _ ha)
          simp only at hret
          split_ifs at hret with d1
          · refine ih rest' _ o hlen'' hQ'' ?_ ?_ hret
            · exact hw
            · exact hh
          · exact ih rest' _ o hlen'' hQ'' hw hh hret
      · exact ih rest _ o hlen' hQ' hw hh hret

/-- What `parse_args` does with one `--height` or `--width` value `v` other than
the least `int`: it goes on with the dimension set to `v` when `v` is odd and to
`v - 1` when `v` is even and not 0, and with the options unchanged when `v` is
0. -/
theorem parse_args_value (val : Arg) (rest : List Arg) (opts : conf)
    (hmin : -2147483648 < val.atoi) :
    parse_args (⟨"--height", 0⟩ :: val :: rest) opts =
      parse_args rest (if val.atoi = 0 then opts else
        ⟨opts.image, if val.atoi % 2 = 0 then val.atoi - 1 else val.atoi, opts.width,
          opts.pixpercell, opts.solve⟩) ∧
    parse_args (⟨"--width", 0⟩ :: val :: rest) opts =
      parse_args rest (if val.atoi = 0 then opts else
        ⟨opts.image, opts.height, if val.atoi % 2 = 0 then val.atoi - 1 else val.atoi,
          opts.pixpercell, opts.solve⟩) := by
  by_cases h0 : val.atoi = 0
  · constructor <;> simp [parse_args, h0]
  · by_cases hc : val.atoi % 2 = 0
    · have ht := (tmod_two _).mpr hc
      have hlt : ¬ val.atoi - 1 < -2147483648 := by omega
      constructor <;> simp [parse_args, h0, hc, ht, hlt]
    · have ht : ¬ val.atoi.tmod 2 = 0 := fun h => hc ((tmod_two _).mp h)
      constructor <;> simp [parse_args, h0, hc, ht]

/-- C12 (as stated) fails: `maze --width 1 --height -4` leaves the width 1 and
the height -5 in the options; neither is at least 3. -/
theorem parse_args_small_dimensions :
    parse_args [⟨"--width", 0⟩, ⟨"1", 1⟩, ⟨"--height", 0⟩, ⟨"-4", -4⟩] main_opts
      = .ok (.returned ⟨"maze.png", -5, 1, 10, 1⟩) :=
  rfl

/-- C12 (amended): for every command line on which `parse_args` returns,
whatever `atoi` converts the arguments to, the width and the height left in
the options are odd; each is at least 3 if every argument converts to 0 or to
an `int` that is at least 3. -/
theorem parse_args_dimensions_odd (argv : List Arg) (o : conf)
    (hret : parse_args argv main_opts = .ok (.returned o)) :
    o.width % 2 = 1 ∧ o.height % 2 = 1 ∧
    ((∀ a ∈ argv, a.atoi = 0 ∨ 3 ≤ a.atoi) → 3 ≤ o.width ∧ 3 ≤ o.height) := by
  have hodd := parse_args_dims (fun v => v % 2 = 1) argv.length argv main_opts o
    (le_refl _)
    (by
      intro a _ _
      by_cases hc : a.atoi % 2 = 0
      · rw [if_pos hc]
        show (a.atoi - 1) % 2 = 1
        omega
      · rw [if_neg hc]
        show a.atoi % 2 = 1
        omega)
    (by decide) (by decide) hret
  refine ⟨hodd.1, hodd.2, ?_⟩
  intro hall
  exact parse_args_dims (fun v => 3 ≤ v) argv.length argv main_opts o (le_refl _)
    (by
      intro a ha hne
      rcases hall a ha with h0 | h3
      · exact absurd h0 hne
      · by_cases hc : a.atoi % 2 = 0
        · rw [if_pos hc]
          show 3 ≤ a.atoi - 1
          omega
        · rw [if_neg hc]
          exact h3)
    (by decide) (by decide) hret

theorem parse_args_dimensions_odd_witness :
    (7 : Int) % 2 = 1 ∧ (9 : Int) % 2 = 1 ∧
    ((∀ a ∈ [(⟨"--height", 0⟩ : Arg), ⟨"10", 10⟩, ⟨"--nosolve", 0⟩, ⟨"--width", 0⟩, ⟨"7", 7⟩],
        a.atoi = 0 ∨ 3 ≤ a.atoi) →
      (3 : Int) ≤ 7 ∧ (3 : Int) ≤ 9) :=
  parse_args_dimensions_odd
    [⟨"--height", 0⟩, ⟨"10", 10⟩, ⟨"--nosolve", 0⟩, ⟨"--width", 0⟩, ⟨"7", 7⟩]
    ⟨"maze.png", 9, 7, 10, 0⟩ rfl

/-- C13 fails at the least `int`: `maze --height -2147483648` (and likewise
`--width`) converts to the even value `v = -2147483648`, for which `parse_args`
evaluates `tmp - 1`, a signed overflow; no dimension is stored, where the claim
has `v - 1` stored. For a value of 0, an odd value and any other even value the
code does what the claim says: `--height 0` leaves 59, `--height 7` stores 7
and `--height 10` stores 9. -/
theorem parse_args_least_int :
    parse_args [⟨"--height", 0⟩, ⟨"-2147483648", -2147483648⟩] main_opts
      = .error .overflow ∧
    parse_args [⟨"--width", 0⟩, ⟨"-2147483648", -2147483648⟩] main_opts
      = .error .overflow ∧
    parse_args [⟨"--height", 0⟩, ⟨"0", 0⟩] main_opts
      = .ok (.returned ⟨"maze.png", 59, 59, 10, 1⟩) ∧
    parse_args [⟨"--height", 0⟩, ⟨"7", 7⟩] main_opts
      = .ok (.returned ⟨"maze.png", 7, 59, 10, 1⟩) ∧
    parse_args [⟨"--height", 0⟩, ⟨"10", 10⟩] main_opts
      = .ok (.returned ⟨"maze.png", 9, 59, 10, 1⟩) :=
  ⟨rfl, rfl, rfl, rfl, rfl⟩

/-- C15 (as stated) fails: in the only room of the 3×3 grid, with the draws
0, 0, 0, 0, 0, 1, 2, 3, a call of `rand_neighbour` and a call of
`solve_rand_neighbour` each consume eight draws before they return 0 (the
ninth draw, 7, is left over): the direction UP is drawn and rejected five
times. After the first four draws neither call has returned. -/
theorem rand_neighbour_redraws :
    rand_neighbour [[2, 2, 2], [2, 1, 2], [2, 2, 2]] 1 1 3 3 [0, 0, 0, 0, 0, 1, 2, 3, 7]
      = .ok ⟨0, [[2, 2, 2], [2, 1, 2], [2, 2, 2]], 1, 1, [7]⟩ ∧
    rand_neighbour [[2, 2, 2], [2, 1, 2], [2, 2, 2]] 1 1 3 3 [0, 0, 0, 0]
      = .error .noDraws ∧
    solve_rand_neighbour [[2, 2, 2], [2, 3, 2], [2, 2, 2]] 1 1 3 3 [0, 0, 0, 0, 0, 1, 2, 3, 7]
      = .ok ⟨0, [[2, 2, 2], [2, 3, 2], [2, 2, 2]], 1, 1, [7]⟩ ∧
    solve_rand_neighbour [[2, 2, 2], [2, 3, 2], [2, 2, 2]] 1 1 3 3 [0, 0, 0, 0]
      = .error .noDraws :=
  ⟨rfl, rfl, rfl, rfl⟩

/-- C15 (amended): for every grid of `h` rows of `w` cells, current cell
strictly inside its border and draws, a call of `rand_neighbour` (and of
`solve_rand_neighbour`) returns as soon as a valid direction is drawn or every
direction has been drawn: if each of the four directions occurs among the
draws `ds`, the call on `ds` followed by any further draws `X` returns, having
consumed a front part `pre` of the draws that is no longer than `ds`; when it
returns 0 each of the four directions occurs in `pre`, and otherwise it
returns 1. -/
theorem neighbour_returns_once_covered (maze : Maze) (x y w h : Int) (hd : Dim maze w h)
    (hx0 : 0 < x) (hx : x < w - 1) (hy0 : 0 < y) (hy : y < h - 1) (ds X : List Nat)
    (hcov : Covers ds true true true true) :
    (∃ m pre, rand_neighbour maze x y w h (ds ++ X) = .ok m ∧ ds ++ X = pre ++ m.draws ∧
        pre.length ≤ ds.length ∧ (m.ret = 0 ∨ m.ret = 1) ∧
        (m.ret = 0 → Covers pre true true true true)) ∧
    (∃ m pre, solve_rand_neighbour maze x y w h (ds ++ X) = .ok m ∧
        ds ++ X = pre ++ m.draws ∧
        pre.length ≤ ds.length ∧ (m.ret = 0 ∨ m.ret = 1) ∧
        (m.ret = 0 → Covers pre true true true true)) := by
  constructor
  · rcases drawLoop_progress (rand_neighbour_loop_drawLoop maze x y w h) ds true true true true
      hcov X with he | ⟨m, pre, hm, hsplit, hlen, hz⟩
    · exfalso
      rcases rand_neighbour_loop_spec hd hx0 (by omega) hy0 (by omega) (ds ++ X)
        true true true true with he' | ⟨m, he', _⟩
      · rw [he] at he'; cases he'
      · rw [he] at he'; cases he'
    · refine ⟨m, pre, hm, hsplit, hlen, ?_, hz⟩
      rcases rand_neighbour_loop_spec hd hx0 (by omega) hy0 (by omega) (ds ++ X)
        true true true true with he' | ⟨m', he', _, _, hres⟩
      · simp only [rand_neighbour, he'] at hm; cases hm
      · simp only [rand_neighbour, he'] at hm
        cases hm
        rcases hres with ⟨hr, _⟩ | ⟨hr, _⟩
        · exact Or.inl hr
        · exact Or.inr hr
  · rcases drawLoop_progress (solve_rand_neighbour_loop_drawLoop maze x y w h) ds
      true true true true hcov X with he | ⟨m, pre, hm, hsplit, hlen, hz⟩
    · exfalso
      rcases solve_rand_neighbour_loop_spec hd hx0 hx hy0 hy (ds ++ X)
        true true true true with he' | ⟨m, he', _⟩
      · rw [he] at he'; cases he'
      · rw [he] at he'; cases he'
    · refine ⟨m, pre, hm, hsplit, hlen, ?_, hz⟩
      rcases solve_rand_neighbour_loop_spec hd hx0 hx hy0 hy (ds ++ X)
        true true true true with he' | ⟨m', he', _, _, hres⟩
      · simp only [solve_rand_neighbour, he'] at hm; cases hm
      · simp only [solve_rand_neighbour, he'] at hm
        cases hm
        rcases hres with ⟨hr, _⟩ | ⟨hr, _⟩
        · exact Or.inl hr
        · exact Or.inr hr

theorem neighbour_returns_once_covered_witness :
    (∃ m pre, rand_neighbour [[2, 2, 2], [2, 1, 2], [2, 2, 2]] 1 1 3 3
          ([0, 0, 0, 0, 0, 1, 2, 3] ++ [7]) = .ok m ∧
        [0, 0, 0, 0, 0, 1, 2, 3] ++ [7] = pre ++ m.draws ∧
        pre.length ≤ [0, 0, 0, 0, 0, 1, 2, 3].length ∧ (m.ret = 0 ∨ m.ret = 1) ∧
        (m.ret = 0 → Covers pre true true true true)) ∧
    (∃ m pre, solve_rand_neighbour [[2, 2, 2], [2, 1, 2], [2, 2, 2]] 1 1 3 3
          ([0, 0, 0, 0, 0, 1, 2, 3] ++ [7]) = .ok m ∧
        [0, 0, 0, 0, 0, 1, 2, 3] ++ [7] = pre ++ m.draws ∧
        pre.length ≤ [0, 0, 0, 0, 0, 1, 2, 3].length ∧ (m.ret = 0 ∨ m.ret = 1) ∧
        (m.ret = 0 → Covers pre true true true true)) :=
  neighbour_returns_once_covered [[2, 2, 2], [2, 1, 2], [2, 2, 2]] 1 1 3 3
    (by unfold Dim; decide) (by decide) (by decide) (by decide) (by decide)
    [0, 0, 0, 0, 0, 1, 2, 3] [7] (by unfold Covers; decide)

end MazeC
